import Mathlib

/-!
# Verification of the jsonriver incremental JSON parser

A shallow embedding, in Lean 4, of the streaming JSON parser formed by the
tokenizer (`tokenize.ts`: class `Tokenizer` together with its `Input` buffer)
and the incremental value builder / parse driver (`parse.ts`: class `Parser`,
`setObjectProperty`, `CompleteValueInfo`).

Modelling conventions:

* JavaScript strings are sequences of UTF-16 code units; we model text as
  `List Nat` (`JStr`), each element one code unit.
* JavaScript numbers in emitted `Number` tokens are modelled by the validated
  numeric lexeme rather than by an IEEE double.  Both the streaming parser and
  the reference parser carry lexemes, so agreement of lexemes implies
  agreement of the doubles `Number(lexeme)` would produce.
* The source mutates one shared tree through references held by stack frames.
  The embedding is aliasing-free: each frame stores the contents of its
  container *excluding* the in-progress child (which lives in the frame above
  it); the source's "push the new container / placeholder at its start and
  mutate through the reference" becomes "plug the pending child in when
  reading the tree" (`currentValue`) plus "write the finished child back when
  its frame pops" (`writeBackOnPop`).
* Exceptions become `Except String`; the `async` suspension points (pulling a
  chunk from upstream) become consuming the head of a `List JStr` of
  remaining chunks.  Loops whose termination is not structural (`pump`, the
  driver loop in `Parser.next`) take explicit fuel and report fuel exhaustion
  distinctly from errors.
-/

/-- A JavaScript string: a sequence of UTF-16 code units. -/
abbrev JStr := List Nat

/-- Embed an ASCII/BMP Lean string as a JavaScript string (one code unit per
character; all concrete inputs used below are ASCII). -/
def jstr (s : String) : JStr := s.data.map Char.toNat

/-- The JSON value tree built by the parser (`JsonValue` in `parse.ts`).
Numbers carry their lexeme; objects are insertion-ordered association lists
whose keys are unique (last-wins resolution). -/
inductive JsonValue where
  | null
  | bool (b : Bool)
  | num (lexeme : JStr)
  | str (s : JStr)
  | arr (items : List JsonValue)
  | obj (entries : List (JStr × JsonValue))
deriving Repr, Inhabited

/-- Insertion-order-preserving, last-wins assignment into an association
list: a later assignment to an existing key overwrites the value but keeps
the key's original position; a new key is appended at the end.  This is the
net effect on enumeration order of `obj[key] = v` on a JavaScript object. -/
def setEntry : List (JStr × JsonValue) → JStr → JsonValue → List (JStr × JsonValue)
  | [], k, v => [(k, v)]
  | (k', v') :: rest, k, v =>
      if k' = k then (k', v) :: rest else (k', v') :: setEntry rest k v

/-! ## The host-object hazard model (`setObjectProperty`)

`parse.ts` stores object properties with `setObjectProperty`, which routes
the key `__proto__` through `Object.defineProperty` and every other key
through plain assignment.  To state what this achieves we model a JavaScript
object as its own enumerable properties plus a flag recording whether its
prototype has ever been mutated, and we model the two assignment paths with
their real host semantics: plain assignment to the key `__proto__` on a
plain object triggers the inherited `__proto__` setter (mutating the
prototype, creating no own property), while `Object.defineProperty` always
creates/updates an own property and never touches the prototype. -/

/-- An own-property table entry: key, value, and the `enumerable` flag. -/
structure JsProp where
  key : JStr
  value : JsonValue
  enumerable : Bool
deriving Repr

/-- A JavaScript object for the purposes of `setObjectProperty`: its own
properties in insertion order, and whether its prototype has been altered. -/
structure JsObject where
  props : List JsProp
  protoMutated : Bool
deriving Repr

/-- The code units of the string `__proto__`. -/
def protoKey : JStr := jstr "__proto__"

/-- Own-property update used by both assignment paths once they do create an
own property: overwrite in place if the key exists, else append. -/
def setOwnProp : List JsProp → JStr → JsonValue → List JsProp
  | [], k, v => [⟨k, v, true⟩]
  | p :: rest, k, v =>
      if p.key = k then ⟨p.key, v, true⟩ :: rest else p :: setOwnProp rest k v

/-- Plain JavaScript assignment `object[key] = value` on a plain object:
for the key `__proto__` it invokes the inherited accessor, mutating the
prototype and creating no own property; for any other key it creates or
updates an own, enumerable property. -/
def jsPlainAssign (o : JsObject) (k : JStr) (v : JsonValue) : JsObject :=
  if k = protoKey then { o with protoMutated := true }
  else { o with props := setOwnProp o.props k v }

/-- `Object.defineProperty(object, key, value, writable+enumerable+configurable)`:
always defines an own, enumerable property; never touches the prototype. -/
def jsDefineProperty (o : JsObject) (k : JStr) (v : JsonValue) : JsObject :=
  { o with props := setOwnProp o.props k v }

/-- `setObjectProperty` from `parse.ts`: route `__proto__` through
`Object.defineProperty`, all other keys through plain assignment. -/
def setObjectProperty (o : JsObject) (k : JStr) (v : JsonValue) : JsObject :=
  if k = protoKey then jsDefineProperty o k v
  else jsPlainAssign o k v

/-- Look up an own property by key. -/
def JsObject.lookup (o : JsObject) (k : JStr) : Option JsProp :=
  o.props.find? (fun p => p.key = k)

/-! ## Tokens

The lexical events emitted by the tokenizer (`JsonTokenType` in
`tokenize.ts`).  `num` carries the validated numeric lexeme. -/

/-- One lexical event. -/
inductive Token where
  | tnull
  | tbool (b : Bool)
  | tnum (lexeme : JStr)
  | stringStart
  | stringMiddle (s : JStr)
  | stringEnd
  | arrayStart
  | arrayEnd
  | objectStart
  | objectEnd
deriving Repr, DecidableEq

/-! ## The value builder (`class Parser`'s token handlers)

A frame of the builder state stack (`State` in `parse.ts`).  Stacks are kept
top-first.  Container frames store their contents *excluding* the pending
child (see the module comment); `inObjKey` additionally remembers the most
recent key for path reporting, like the source's
`[prevKey: string | undefined, object]` pair. -/
inductive Frame where
  | initial
  | inString (acc : JStr)
  | inArray (items : List JsonValue)
  | inObjKey (prevKey : Option JStr) (entries : List (JStr × JsonValue))
  | inObjValue (key : JStr) (entries : List (JStr × JsonValue))
deriving Repr

/-- Whether a frame is the `InObjectExpectingKey` variant (used by the
`progressed` rules, which test `state.type`). -/
def Frame.isObjKey : Frame → Bool
  | .inObjKey _ _ => true
  | _ => false

/-- A path segment reported by `Path.segments()`: an object key or an array
index.  The index is an integer because JavaScript's `length - 1` can be
`-1`. -/
inductive Seg where
  | key (k : JStr)
  | idx (i : Int)
deriving Repr, DecidableEq

/-- The segment one frame contributes in `CompleteValueInfo.segments`.
`hasChildAbove` records whether a pending child frame sits directly above
this frame in the stack: in the source the live array of a non-topmost
`InArray` frame already contains the pending child, so its `length - 1` is
the embedded `items.length` (the child's index); for the topmost frame it is
`items.length - 1`.  `Initial` and `InString` frames hit the error branch. -/
def segOfFrame (f : Frame) (hasChildAbove : Bool) : Except String (Option Seg) :=
  match f with
  | .initial => .error "path segments called with unexpected parser state"
  | .inString _ => .error "path segments called with unexpected parser state"
  | .inObjKey none _ => .ok none
  | .inObjKey (some k) _ => .ok (some (.key k))
  | .inArray items =>
      .ok (some (.idx (if hasChildAbove then (items.length : Int)
                       else (items.length : Int) - 1)))
  | .inObjValue k _ => .ok (some (.key k))

/-- `CompleteValueInfo.segments()` over a bottom-to-top frame list. -/
def segmentsFromBottom : List Frame → Except String (List Seg)
  | [] => .ok []
  | f :: rest => do
      let s? ← segOfFrame f (!rest.isEmpty)
      let tail ← segmentsFromBottom rest
      pure (match s? with | none => tail | some s => s :: tail)

/-- `CompleteValueInfo.segments()` for a top-first stack. -/
def segments (stack : List Frame) : Except String (List Seg) :=
  segmentsFromBottom stack.reverse

/-- Value of a frame's container ignoring any pending child. -/
def frameValue : Frame → JsonValue
  | .initial => .null
  | .inString acc => .str acc
  | .inArray items => .arr items
  | .inObjKey _ e => .obj e
  | .inObjValue _ e => .obj e

/-- Plug a (pending or completed) child value into its parent frame's
container: at the array tail, or at the parent's current key.  This realizes
the reference the source stores in the parent at the child's start token. -/
def plugChild : Frame → JsonValue → JsonValue
  | .inArray items, v => .arr (items ++ [v])
  | .inObjKey (some k) e, v => .obj (setEntry e k v)
  | .inObjKey none e, _ => .obj e
  | .inObjValue k e, v => .obj (setEntry e k v)
  | .inString acc, _ => .str acc
  | .initial, v => v

/-- Fold a value through the frames below it (top-first list), plugging it
into each successive parent, down to the bottom of the stack. -/
def rollDown (v : JsonValue) : List Frame → JsonValue
  | [] => v
  | f :: rest => rollDown (plugChild f v) rest

/-- The current top-level value as reachable from a non-empty stack
(top-first).  A string actively being built as an *object key* (an
`InString` frame directly above `InObjectExpectingKey`) is not yet visible
anywhere in the tree, matching the source where key text lives only in the
`InString` frame. -/
def stackValue : List Frame → Option JsonValue
  | [] => none
  | .initial :: _ => none
  | .inString _ :: .inObjKey _ e :: rest =>
      some (rollDown (.obj e) rest)
  | f :: rest => some (rollDown (frameValue f) rest)

/-- One recorded invocation of the completion callback: the completed value
and a snapshot of the builder state stack (top-first) at the moment of the
call.  `CompleteValueInfo` computes `segments()` lazily from the live stack;
tests and well-behaved consumers call it synchronously, so the snapshot
determines what they observe. -/
structure CbEntry where
  value : JsonValue
  stackAtCall : List Frame
deriving Repr

/-- The mutable state of `class Parser` that the token handlers touch:
the state stack (top-first), `toplevelValue`, the `progressed` flag, whether
a `completeCallback` was supplied, and the record of callback invocations. -/
structure BState where
  stack : List Frame
  toplevel : Option JsonValue
  progressed : Bool
  hasCb : Bool
  callbacks : List CbEntry
deriving Repr

/-- The builder's initial state (`stateStack = [Initial]`). -/
def initBState (hasCb : Bool) : BState :=
  { stack := [.initial], toplevel := none, progressed := false
    hasCb := hasCb, callbacks := [] }

/-- The top-level value currently observable through `toplevelValue`:
reconstructed from the stack while a value is in progress, the recorded
final value once the stack has emptied. -/
def currentValue (b : BState) : Option JsonValue :=
  match b.stack with
  | [] => b.toplevel
  | _ => stackValue b.stack

/-- Invoke the completion callback (when supplied), recording the completed
value together with the stack at the moment of the call. -/
def docb (v : JsonValue) (b : BState) : BState :=
  if b.hasCb then { b with callbacks := b.callbacks ++ [⟨v, b.stack⟩] } else b

/-- `Parser.currentState()`: the top frame, or the `Unexpected trailing
input` error on an empty stack. -/
def currentState (b : BState) : Except String Frame :=
  match b.stack.head? with
  | none => .error "Unexpected trailing input"
  | some f => .ok f

/-- `Parser.progressValue`: create the value for a value-starting token,
pushing the new frame for strings and containers.  Returns the created
value (the source returns the reference the parent will hold). -/
def progressValue (b : BState) (t : Token) : Except String (BState × JsonValue) :=
  match t with
  | .tnull => .ok (b, .null)
  | .tbool v => .ok (b, .bool v)
  | .tnum s => .ok (b, .num s)
  | .stringStart => .ok ({ b with stack := .inString [] :: b.stack }, .str [])
  | .arrayStart => .ok ({ b with stack := .inArray [] :: b.stack }, .arr [])
  | .objectStart => .ok ({ b with stack := .inObjKey none [] :: b.stack }, .obj [])
  | _ => .error "Unexpected token type"

/-- `Parser.updateStringParent`: propagate the grown or finished string into
its parent.  At the `isFinal = false` call site (`handleStringMiddle`) the
`InString` frame is still on top and the parent is the frame below it; at
the `isFinal = true` call site (`handleStringEnd`) the `InString` frame has
just been popped and the parent is the top frame — so the source's identity
test `stateStack[len-1] === parentState` evaluates exactly to `isFinal`.
While the string is still growing the parent's view of it is the pending
child (plugged in by `currentValue`), so the source's mutations through the
parent's reference need no state change here; the final update writes the
completed string back into the parent frame. -/
def updateStringParent (b : BState) (updated : JStr) (isFinal : Bool) :
    Except String BState :=
  let parent? := if isFinal then b.stack.head? else b.stack[1]?
  match parent? with
  | none =>
      let b := { b with toplevel := some (.str updated) }
      .ok (if isFinal then docb (.str updated) b else b)
  | some (.inArray items) =>
      if isFinal then
        let b := { b with stack := .inArray (items ++ [.str updated]) :: b.stack.tail }
        .ok (docb (.str updated) b)
      else .ok b
  | some (.inObjValue k e) =>
      if isFinal then
        let e' := setEntry e k (.str updated)
        let b := { b with stack := .inObjValue k e' :: b.stack.tail }
        let b := docb (.str updated) b
        .ok { b with stack := .inObjKey (some k) e' :: b.stack.tail }
      else .ok b
  | some (.inObjKey _ e) =>
      if isFinal then
        .ok { b with stack := .inObjValue updated e :: b.stack.tail }
      else .ok b
  | some .initial => .error "Unexpected parent state for string"
  | some (.inString _) => .error "Unexpected parent state for string"

/-- `Parser.handleValueToken`: handle `Null`, `Boolean`, `Number`,
`ArrayStart` and `ObjectStart` tokens (the only tokens routed here).  Sets
`progressed` unconditionally.  The source's `state.value.push(v)` /
`setObjectProperty(object, key, v)` happen now for atomic tokens; for
container tokens the stored reference is the pending child in the frame
`progressValue` just pushed. -/
def handleValueToken (b : BState) (t : Token) : Except String BState :=
  match currentState b with
  | .error e => .error e
  | .ok f =>
    let b := if !b.progressed then { b with progressed := true } else b
    match f with
    | .initial =>
        let b := { b with stack := b.stack.tail }
        match progressValue b t with
        | .error e => .error e
        | .ok (b, v) =>
            let b := { b with toplevel := some v }
            .ok (if b.stack.isEmpty then docb v b else b)
    | .inArray items =>
        match progressValue b t with
        | .error e => .error e
        | .ok (b', v) =>
            match t with
            | .tnull | .tbool _ | .tnum _ =>
                let b' := { b' with stack := .inArray (items ++ [v]) :: b'.stack.tail }
                .ok (docb v b')
            | _ => .ok b'
    | .inObjValue k e =>
        let b :=
          if t ≠ .stringStart then { b with stack := .inObjKey (some k) e :: b.stack.tail }
          else b
        match progressValue b t with
        | .error e2 => .error e2
        | .ok (b, v) =>
            match t with
            | .tnull | .tbool _ | .tnum _ =>
                let b := { b with stack := .inObjKey (some k) (setEntry e k v) :: b.stack.tail }
                .ok (docb v b)
            | _ => .ok b
    | .inString _ => .error "Unexpected value token in the middle of string"
    | .inObjKey _ _ => .error "Unexpected token in the middle of object expecting key"

/-- `Parser.handleStringStart`.  Sets `progressed` unless the current top
frame is `InObjectExpectingKey` (a key string is not yet user-visible). -/
def handleStringStart (b : BState) : Except String BState :=
  match currentState b with
  | .error e => .error e
  | .ok f =>
    let b :=
      if !b.progressed && !f.isObjKey then { b with progressed := true } else b
    match f with
    | .initial =>
        let b := { b with stack := b.stack.tail }
        match progressValue b .stringStart with
        | .error e => .error e
        | .ok (b, v) => .ok { b with toplevel := some v }
    | .inArray _ =>
        match progressValue b .stringStart with
        | .error e => .error e
        | .ok (b, _) => .ok b
    | .inObjKey _ _ =>
        .ok { b with stack := .inString [] :: b.stack }
    | .inObjValue _ _ =>
        match progressValue b .stringStart with
        | .error e => .error e
        | .ok (b, _) => .ok b
    | .inString _ => .error "Unexpected string start token in the middle of string"

/-- `Parser.handleStringMiddle`.  Sets `progressed` unless the frame below
the top (`stateStack[length - 2]`, the string's parent) is
`InObjectExpectingKey`. -/
def handleStringMiddle (b : BState) (s : JStr) : Except String BState :=
  match currentState b with
  | .error e => .error e
  | .ok _ =>
    let b :=
      if !b.progressed
          && !((b.stack[1]?).elim false Frame.isObjKey) then
        { b with progressed := true }
      else b
    match b.stack with
    | .inString acc :: rest =>
        let acc' := acc ++ s
        let b := { b with stack := .inString acc' :: rest }
        updateStringParent b acc' false
    | _ => .error "Unexpected string middle token"

/-- `Parser.handleStringEnd`.  Does not touch `progressed`. -/
def handleStringEnd (b : BState) : Except String BState :=
  match currentState b with
  | .error e => .error e
  | .ok (.inString acc) =>
      let b := { b with stack := b.stack.tail }
      updateStringParent b acc true
  | .ok _ => .error "Unexpected string end token"

/-- Write a completed container back into the frame below it when its frame
pops (the source's parent already holds the reference, stored at the
container's start token). -/
def writeBackOnPop (v : JsonValue) (b : BState) : BState :=
  match b.stack with
  | [] => { b with toplevel := some v }
  | .inArray items :: rest => { b with stack := .inArray (items ++ [v]) :: rest }
  | .inObjKey (some k) e :: rest =>
      { b with stack := .inObjKey (some k) (setEntry e k v) :: rest }
  | _ => b

/-- `Parser.handleArrayEnd`.  Does not touch `progressed`; reports the
completed array. -/
def handleArrayEnd (b : BState) : Except String BState :=
  match currentState b with
  | .error e => .error e
  | .ok (.inArray items) =>
      let b := { b with stack := b.stack.tail }
      let b := writeBackOnPop (.arr items) b
      .ok (docb (.arr items) b)
  | .ok _ => .error "Unexpected array end token"

/-- `Parser.handleObjectEnd`.  Does not touch `progressed`; reports the
completed object. -/
def handleObjectEnd (b : BState) : Except String BState :=
  match currentState b with
  | .error e => .error e
  | .ok (.inObjKey _ e) =>
      let b := { b with stack := b.stack.tail }
      let b := writeBackOnPop (.obj e) b
      .ok (docb (.obj e) b)
  | .ok (.inObjValue _ e) =>
      let b := { b with stack := b.stack.tail }
      let b := writeBackOnPop (.obj e) b
      .ok (docb (.obj e) b)
  | .ok _ => .error "Unexpected object end token"

/-- The builder's token dispatch (`handleNull` … `handleObjectEnd` as the
`TokenHandler` the tokenizer drives synchronously). -/
def handleToken (b : BState) : Token → Except String BState
  | .tnull => handleValueToken b .tnull
  | .tbool v => handleValueToken b (.tbool v)
  | .tnum s => handleValueToken b (.tnum s)
  | .stringStart => handleStringStart b
  | .stringMiddle s => handleStringMiddle b s
  | .stringEnd => handleStringEnd b
  | .arrayStart => handleValueToken b .arrayStart
  | .arrayEnd => handleArrayEnd b
  | .objectStart => handleValueToken b .objectStart
  | .objectEnd => handleObjectEnd b

/-! ## The input buffer (`class Input` in `tokenize.ts`) -/

/-- The input buffer: the unconsumed text, the `bufferComplete` and
`moreContentExpected` flags, and the not-yet-pulled upstream chunks (the
source's `AsyncIterator<string>`). -/
structure Input where
  buffer : JStr
  bufferComplete : Bool
  moreContentExpected : Bool
  upstream : List JStr
deriving Repr

/-- JSON whitespace accepted by `Input.skipPastWhitespace`: space, tab,
line feed, carriage return. -/
def jsonWs (c : Nat) : Bool := c == 32 || c == 9 || c == 10 || c == 13

/-- `Input.skipPastWhitespace`. -/
def Input.skipPastWhitespace (i : Input) : Input :=
  { i with buffer := i.buffer.dropWhile jsonWs }

/-- `Input.tryToTakePrefix(lit)`: consume `lit` if the buffer starts with
it, reported as `some` of the consumed input. -/
def Input.takeLit (i : Input) (lit : JStr) : Option Input :=
  if lit.isPrefixOf i.buffer then some { i with buffer := i.buffer.drop lit.length }
  else none

/-- `Input.tryToTake(len)`: take exactly `len` code units, or `none` when
fewer are buffered. -/
def Input.tryToTake (i : Input) (len : Nat) : Option (JStr × Input) :=
  if i.buffer.length < len then none
  else some (i.buffer.take len, { i with buffer := i.buffer.drop len })

/-- A string-body code unit: neither `"` (34) nor `\` (92). -/
def strBodyChar (c : Nat) : Bool := c != 34 && c != 92

/-- `Input.takeUntil(/["\\]/)`: consume up to the first quote or backslash;
the `Bool` reports whether such a character was found (`interrupted`). -/
def Input.takeUntilQB (i : Input) : JStr × Bool × Input :=
  let chunk := i.buffer.takeWhile strBodyChar
  let rest := i.buffer.dropWhile strBodyChar
  (chunk, !rest.isEmpty, { i with buffer := rest })

/-- `Input.tryToExpandBuffer`: pull one chunk from upstream.  At end of
stream, set `bufferComplete` and fail when `moreContentExpected` still
holds. -/
def Input.tryToExpandBuffer (i : Input) : Except String (Bool × Input) :=
  match i.upstream with
  | [] =>
      let i := { i with bufferComplete := true }
      if i.moreContentExpected then .error "Unexpected end of content"
      else .ok (false, i)
  | c :: rest => .ok (true, { i with buffer := i.buffer ++ c, upstream := rest })

/-- The code units trimmed by JavaScript's `String.prototype.trim` (ECMA
WhiteSpace and LineTerminator, notably including NBSP and FEFF — a strictly
larger set than JSON whitespace). -/
def jsTrimWs (c : Nat) : Bool :=
  c == 9 || c == 10 || c == 11 || c == 12 || c == 13 || c == 32 ||
  c == 160 || c == 5760 || (8192 ≤ c && c ≤ 8202) || c == 8232 ||
  c == 8233 || c == 8239 || c == 8287 || c == 12288 || c == 65279

/-- JavaScript `s.trim()`. -/
def jsTrim (s : JStr) : JStr :=
  ((s.dropWhile jsTrimWs).reverse.dropWhile jsTrimWs).reverse

/-- The `check` closure of `Input.expectEndOfContent`: trim the buffer in
place and fail if anything remains. -/
def checkNoTrailing (i : Input) : Except String Input :=
  let i := { i with buffer := jsTrim i.buffer }
  if i.buffer.isEmpty then .ok i else .error "Unexpected trailing content"

theorem checkNoTrailing_upstream {i i' : Input} (h : checkNoTrailing i = .ok i') :
    i'.upstream = i.upstream := by
  simp only [checkNoTrailing] at h
  split at h
  · cases h; rfl
  · cases h

theorem tryToExpandBuffer_true_upstream {i i' : Input}
    (h : i.tryToExpandBuffer = .ok (true, i')) :
    i'.upstream.length < i.upstream.length := by
  unfold Input.tryToExpandBuffer at h
  match hu : i.upstream with
  | [] =>
      rw [hu] at h
      simp only [] at h
      split at h
      · cases h
      · cases h
  | c :: rest =>
      rw [hu] at h
      cases h
      simp [hu]

/-- The `while (await this.tryToExpandBuffer()) check();` loop of
`Input.expectEndOfContent`, together with the final `check()`. -/
def expectEndLoop (i : Input) : Except String Input :=
  match h : i.tryToExpandBuffer with
  | .error e => .error e
  | .ok (false, i') => checkNoTrailing i'
  | .ok (true, i') =>
      match h2 : checkNoTrailing i' with
      | .error e => .error e
      | .ok i'' => expectEndLoop i''
termination_by i.upstream.length
decreasing_by
  have h3 := tryToExpandBuffer_true_upstream h
  have h4 : i''.upstream.length = i'.upstream.length := by
    rw [checkNoTrailing_upstream h2]
  omega

/-- `Input.expectEndOfContent`: clear `moreContentExpected`, then require
that the buffer and every remaining upstream chunk contain only
(JavaScript-trimmable) whitespace. -/
def Input.expectEndOfContent (i : Input) : Except String Input := do
  let i := { i with moreContentExpected := false }
  let i ← checkNoTrailing i
  expectEndLoop i

/-! ## Number and escape lexemes -/

/-- An ASCII decimal digit. -/
def isDigit (c : Nat) : Bool := 48 ≤ c && c ≤ 57

/-- A character matched by the number scan `[-+0-9eE.]`. -/
def numChar (c : Nat) : Bool :=
  c == 45 || c == 43 || isDigit c || c == 101 || c == 69 || c == 46

/-- A character that can start a number: `[-0-9]`. -/
def numStartChar (c : Nat) : Bool := c == 45 || isDigit c

/-- The `([eE][+-]?[0-9]+)?$` tail of the number grammar. -/
def expTail (r : JStr) : Bool :=
  match r with
  | [] => true
  | c :: r1 =>
      if c == 101 || c == 69 then
        let r2 := match r1 with
          | d :: t => if d == 43 || d == 45 then t else d :: t
          | [] => []
        !r2.isEmpty && r2.all isDigit
      else false

/-- The `(\.[0-9]+)?([eE][+-]?[0-9]+)?$` tail of the number grammar. -/
def fracExpTail (r : JStr) : Bool :=
  match r with
  | 46 :: r1 => !(r1.takeWhile isDigit).isEmpty && expTail (r1.dropWhile isDigit)
  | _ => expTail r

/-- `jsonNumberPattern` from `tokenize.ts`:
`^-?(0|[1-9][0-9]*)(\.[0-9]+)?([eE][+-]?[0-9]+)?$`. -/
def jsonNumberValid (s : JStr) : Bool :=
  let s1 := match s with | 45 :: r => r | _ => s
  match s1 with
  | [] => false
  | 48 :: r => fracExpTail r
  | c :: r => 49 ≤ c && c ≤ 57 && fracExpTail (r.dropWhile isDigit)

/-- `parseJsonNumber`: validate against the strict grammar; the value is
carried as the lexeme itself. -/
def parseJsonNumber (s : JStr) : Except String JStr :=
  if jsonNumberValid s then .ok s else .error "Invalid number"

/-- An ASCII hexadecimal digit. -/
def isHexDigit (c : Nat) : Bool :=
  isDigit c || (97 ≤ c && c ≤ 102) || (65 ≤ c && c ≤ 70)

/-- Value of one hexadecimal digit. -/
def hexDigitVal (c : Nat) : Nat :=
  if isDigit c then c - 48 else if 97 ≤ c then c - 87 else c - 55

/-- `parseInt(hex, 16)` for a four-digit escape. -/
def hex4Val : JStr → Nat
  | [a, b, c, d] =>
      ((hexDigitVal a * 16 + hexDigitVal b) * 16 + hexDigitVal c) * 16 + hexDigitVal d
  | _ => 0

/-- The single-character escapes `n r t b f \ / "` and their decodings. -/
def escapeChar (c : Nat) : Option Nat :=
  if c == 110 then some 10
  else if c == 114 then some 13
  else if c == 116 then some 9
  else if c == 98 then some 8
  else if c == 102 then some 12
  else if c == 92 then some 92
  else if c == 47 then some 47
  else if c == 34 then some 34
  else none

/-- Literals consumed by the tokenizer (code-unit spellings). -/
def litNull : JStr := [110, 117, 108, 108]

/-- `true` -/
def litTrue : JStr := [116, 114, 117, 101]

/-- `false` -/
def litFalse : JStr := [102, 97, 108, 115, 101]

/-- `"` -/
def litQuote : JStr := [34]

/-- `[` -/
def litLBracket : JStr := [91]

/-- `]` -/
def litRBracket : JStr := [93]

/-- left brace -/
def litLBrace : JStr := [123]

/-- right brace -/
def litRBrace : JStr := [125]

/-- `,` -/
def litComma : JStr := [44]

/-- `:` -/
def litColon : JStr := [58]

/-! ## The tokenizer (`class Tokenizer`) -/

/-- The tokenizer's lexer-state stack alphabet (`State` in `tokenize.ts`). -/
inductive LexState where
  | expectingValue
  | inString
  | startArray
  | afterArrayValue
  | startObject
  | afterObjectKey
  | afterObjectValue
  | beforeObjectKey
deriving Repr, DecidableEq

/-- The combined state the tokenizer drives: its input buffer, its own state
stack (top-first), the `emittedTokens` counter, and the builder it calls
synchronously as each token is recognized (`#handler.handleToken`).
`numTrace` is pure instrumentation: it records the value of
`moreContentExpected` at the completion of every successful `Number`
emission step, and nothing in the semantics reads it. -/
structure TkState where
  input : Input
  lexStack : List LexState
  emitted : Nat
  builder : BState
  numTrace : List Bool
deriving Repr

theorem skipPastWhitespace_le (i : Input) :
    i.skipPastWhitespace.buffer.length ≤ i.buffer.length := by
  simpa [Input.skipPastWhitespace] using
    (List.dropWhile_suffix (l := i.buffer) (p := jsonWs)).length_le

theorem takeLit_some_len {i i' : Input} {lit : JStr} (h : i.takeLit lit = some i') :
    i'.buffer.length + lit.length = i.buffer.length := by
  unfold Input.takeLit at h
  split at h
  case isTrue hp =>
    cases h
    have hle : lit.length ≤ i.buffer.length :=
      (List.isPrefixOf_iff_prefix.mp hp).length_le
    simp [List.length_drop]
    omega
  case isFalse => cases h

theorem tryToTake_some_len {i i' : Input} {n : Nat} {t : JStr}
    (h : i.tryToTake n = some (t, i')) :
    i'.buffer.length + n = i.buffer.length := by
  unfold Input.tryToTake at h
  split at h
  · cases h
  case isFalse hn =>
    cases h
    simp [List.length_drop]
    omega

theorem takeUntilQB_len (i : Input) :
    i.takeUntilQB.2.2.buffer.length + i.takeUntilQB.1.length = i.buffer.length := by
  have h := congrArg List.length
    (List.takeWhile_append_dropWhile (p := strBodyChar) (l := i.buffer))
  simp only [List.length_append] at h
  simp only [Input.takeUntilQB]
  omega

/-! The eight mutually recursive tokenizing steps of `class Tokenizer`.
Each step drives the builder synchronously: the source's
`#emit(type, value)` (increment `emittedTokens`, call
`handler.handleToken`) appears inline as a `handleToken` call plus an
`emitted + 1` update.  Recursion is well-founded on
`4 * buffer.length + rank`: every call either consumes input or moves to a
step of strictly smaller rank. -/



mutual

/-- `Tokenizer.#tokenizeValue` (the `ExpectingValue` step). -/
def tokenizeValue (s0 : TkState) : Except String TkState :=
  let s := { s0 with input := s0.input.skipPastWhitespace }
  match s.input.takeLit litNull with
  | some inp =>
      match handleToken s.builder .tnull with
      | .error e => .error e
      | .ok b =>
          .ok { s with
                input := inp
                lexStack := s.lexStack.tail
                emitted := s.emitted + 1
                builder := b }
  | none =>
  match s.input.takeLit litTrue with
  | some inp =>
      match handleToken s.builder (.tbool true) with
      | .error e => .error e
      | .ok b =>
          .ok { s with
                input := inp
                lexStack := s.lexStack.tail
                emitted := s.emitted + 1
                builder := b }
  | none =>
  match s.input.takeLit litFalse with
  | some inp =>
      match handleToken s.builder (.tbool false) with
      | .error e => .error e
      | .ok b =>
          .ok { s with
                input := inp
                lexStack := s.lexStack.tail
                emitted := s.emitted + 1
                builder := b }
  | none =>
  if (s.input.buffer.head?.elim false numStartChar) then
    -- Numbers have no terminator: they may end at the end of input, or at
    -- the first non-number character.
    if s.input.bufferComplete then
      let numberChars := s.input.buffer.takeWhile numChar
      if numberChars.isEmpty then .error "Invalid number"
      else
        match parseJsonNumber numberChars with
        | .error e => .error e
        | .ok lex =>
            match handleToken s.builder (.tnum lex) with
            | .error e => .error e
            | .ok b =>
                .ok { s with
                      input := { s.input with
                                 buffer := s.input.buffer.drop numberChars.length
                                 moreContentExpected := true }
                      lexStack := s.lexStack.tail
                      emitted := s.emitted + 1
                      builder := b
                      numTrace := s.numTrace ++ [true] }
    else
      match s.input.buffer.findIdx? (fun c => !numChar c) with
      | none =>
          -- Stall to expand the buffer; since a number has no terminator,
          -- mark that hitting the end of input is not a sign of failure.
          .ok { s with input := { s.input with moreContentExpected := false } }
      | some idx =>
          let numberChars := s.input.buffer.take idx
          match parseJsonNumber numberChars with
          | .error e => .error e
          | .ok lex =>
              match handleToken s.builder (.tnum lex) with
              | .error e => .error e
              | .ok b =>
                  .ok { s with
                        input := { s.input with buffer := s.input.buffer.drop idx }
                        lexStack := s.lexStack.tail
                        emitted := s.emitted + 1
                        builder := b
                        numTrace := s.numTrace ++ [s.input.moreContentExpected] }
  else
  match hq : s.input.takeLit litQuote with
  | some inp =>
      match handleToken s.builder .stringStart with
      | .error e => .error e
      | .ok b =>
          tokenizeString { s with
                           input := inp
                           lexStack := .inString :: s.lexStack.tail
                           emitted := s.emitted + 1
                           builder := b }
  | none =>
  match hbk : s.input.takeLit litLBracket with
  | some inp =>
      match handleToken s.builder .arrayStart with
      | .error e => .error e
      | .ok b =>
          tokenizeArrayStart { s with
                               input := inp
                               lexStack := .startArray :: s.lexStack.tail
                               emitted := s.emitted + 1
                               builder := b }
  | none =>
  match hbc : s.input.takeLit litLBrace with
  | some inp =>
      match handleToken s.builder .objectStart with
      | .error e => .error e
      | .ok b =>
          tokenizeObjectStart { s with
                                input := inp
                                lexStack := .startObject :: s.lexStack.tail
                                emitted := s.emitted + 1
                                builder := b }
  | none => .ok s
termination_by 4 * s0.input.buffer.length
decreasing_by
  all_goals simp_wf
  all_goals have hws := skipPastWhitespace_le s0.input
  all_goals first
    | (have hlen := takeLit_some_len hq
       simp [litQuote] at hlen
       simp
       omega)
    | (have hlen := takeLit_some_len hbk
       simp [litLBracket] at hlen
       simp
       omega)
    | (have hlen := takeLit_some_len hbc
       simp [litLBrace] at hlen
       simp
       omega)

/-- `Tokenizer.#tokenizeString`, the `while (true)` scan over the string
body: consume a run of safe characters (emitting it as a `StringMiddle`),
then hand the quote-or-backslash case to `tokenizeStringEscape` (the
`if (interrupted)` block of the source loop). -/
def tokenizeString (s : TkState) : Except String TkState :=
  match hr : s.input.takeUntilQB with
  | (chunk, interrupted, inp) =>
    match hch : chunk with
    | [] =>
        if interrupted then tokenizeStringEscape { s with input := inp }
        else .ok { s with input := inp }
    | _ :: _ =>
        if chunk.any (fun c => c ≤ 31) then
          .error "Unescaped control character in string"
        else
          match handleToken s.builder (.stringMiddle chunk) with
          | .error e => .error e
          | .ok b =>
              if interrupted then
                tokenizeStringEscape { s with
                                       input := inp
                                       emitted := s.emitted + 1
                                       builder := b }
              else
                tokenizeString { s with
                                 input := inp
                                 emitted := s.emitted + 1
                                 builder := b }
termination_by 4 * s.input.buffer.length + 1
decreasing_by
  all_goals simp_wf
  all_goals have hlen := takeUntilQB_len s.input
  all_goals rw [hr] at hlen
  all_goals simp at hlen ⊢
  all_goals omega

/-- The `if (interrupted)` block of `Tokenizer.#tokenizeString`: the buffer
begins with a closing quote or an escape. -/
def tokenizeStringEscape (s : TkState) : Except String TkState :=
  match hbuf : s.input.buffer with
  | [] => .ok s
  | c1 :: rest1 =>
    if c1 == 34 then
      match handleToken s.builder .stringEnd with
      | .error e => .error e
      | .ok b =>
          .ok { s with
                input := { s.input with buffer := rest1 }
                lexStack := s.lexStack.tail
                emitted := s.emitted + 1
                builder := b }
    else
      match hr1 : rest1 with
      | [] => .ok s
      | c2 :: rest2 =>
        if c2 == 117 then
          if h6 : s.input.buffer.length < 6 then .ok s
          else
            let hex := (s.input.buffer.drop 2).take 4
            if !(hex.all isHexDigit) then .error "Bad Unicode escape in JSON"
            else
              match handleToken s.builder (.stringMiddle [hex4Val hex]) with
              | .error e => .error e
              | .ok b =>
                  tokenizeString { s with
                                   input := { s.input with
                                              buffer := s.input.buffer.drop 6 }
                                   emitted := s.emitted + 1
                                   builder := b }
        else
          match escapeChar c2 with
          | none => .error "Bad escape in string"
          | some v =>
              match handleToken s.builder (.stringMiddle [v]) with
              | .error e => .error e
              | .ok b =>
                  tokenizeString { s with
                                   input := { s.input with buffer := rest2 }
                                   emitted := s.emitted + 1
                                   builder := b }
termination_by 4 * s.input.buffer.length
decreasing_by
  all_goals simp_wf
  · simp [hbuf]
    omega
  · simp [hbuf, hr1]
    omega

/-- `Tokenizer.#tokenizeArrayStart` (the `StartArray` step). -/
def tokenizeArrayStart (s0 : TkState) : Except String TkState :=
  let s := { s0 with input := s0.input.skipPastWhitespace }
  if s.input.buffer.isEmpty then .ok s
  else
    match s.input.takeLit litRBracket with
    | some inp =>
        match handleToken s.builder .arrayEnd with
        | .error e => .error e
        | .ok b =>
            .ok { s with
                  input := inp
                  lexStack := s.lexStack.tail
                  emitted := s.emitted + 1
                  builder := b }
    | none =>
        tokenizeValue { s with
          lexStack := .expectingValue :: .afterArrayValue :: s.lexStack.tail }
termination_by 4 * s0.input.buffer.length + 2
decreasing_by
  all_goals simp_wf
  have hws := skipPastWhitespace_le s0.input
  omega

/-- `Tokenizer.#tokenizeAfterArrayValue` (the `AfterArrayValue` step). -/
def tokenizeAfterArrayValue (s0 : TkState) : Except String TkState :=
  let s := { s0 with input := s0.input.skipPastWhitespace }
  match h1 : s.input.tryToTake 1 with
  | none => .ok s
  | some (t, inp) =>
      if t = litRBracket then
        match handleToken s.builder .arrayEnd with
        | .error e => .error e
        | .ok b =>
            .ok { s with
                  input := inp
                  lexStack := s.lexStack.tail
                  emitted := s.emitted + 1
                  builder := b }
      else if t = litComma then
        tokenizeValue { s with
                        input := inp
                        lexStack := .expectingValue :: s.lexStack }
      else .error "Expected comma or right bracket after array value"
termination_by 4 * s0.input.buffer.length + 2
decreasing_by
  all_goals simp_wf
  have hws := skipPastWhitespace_le s0.input
  have hlen := tryToTake_some_len h1
  simp at hlen
  omega

/-- `Tokenizer.#tokenizeObjectStart` (the `StartObject` step). -/
def tokenizeObjectStart (s0 : TkState) : Except String TkState :=
  let s := { s0 with input := s0.input.skipPastWhitespace }
  match h1 : s.input.tryToTake 1 with
  | none => .ok s
  | some (t, inp) =>
      if t = litRBrace then
        match handleToken s.builder .objectEnd with
        | .error e => .error e
        | .ok b =>
            .ok { s with
                  input := inp
                  lexStack := s.lexStack.tail
                  emitted := s.emitted + 1
                  builder := b }
      else if t = litQuote then
        match handleToken s.builder .stringStart with
        | .error e => .error e
        | .ok b =>
            tokenizeString { s with
                             input := inp
                             lexStack := .inString :: .afterObjectKey :: s.lexStack.tail
                             emitted := s.emitted + 1
                             builder := b }
      else .error "Expected start of object key"
termination_by 4 * s0.input.buffer.length + 2
decreasing_by
  all_goals simp_wf
  have hws := skipPastWhitespace_le s0.input
  have hlen := tryToTake_some_len h1
  simp at hlen
  omega

/-- `Tokenizer.#tokenizeAfterObjectKey` (the `AfterObjectKey` step). -/
def tokenizeAfterObjectKey (s0 : TkState) : Except String TkState :=
  let s := { s0 with input := s0.input.skipPastWhitespace }
  match h1 : s.input.tryToTake 1 with
  | none => .ok s
  | some (t, inp) =>
      if t = litColon then
        tokenizeValue { s with
                        input := inp
                        lexStack := .expectingValue :: .afterObjectValue :: s.lexStack.tail }
      else .error "Expected colon after object key"
termination_by 4 * s0.input.buffer.length + 2
decreasing_by
  all_goals simp_wf
  have hws := skipPastWhitespace_le s0.input
  have hlen := tryToTake_some_len h1
  simp at hlen
  omega

/-- `Tokenizer.#tokenizeAfterObjectValue` (the `AfterObjectValue` step). -/
def tokenizeAfterObjectValue (s0 : TkState) : Except String TkState :=
  let s := { s0 with input := s0.input.skipPastWhitespace }
  match h1 : s.input.tryToTake 1 with
  | none => .ok s
  | some (t, inp) =>
      if t = litRBrace then
        match handleToken s.builder .objectEnd with
        | .error e => .error e
        | .ok b =>
            .ok { s with
                  input := inp
                  lexStack := s.lexStack.tail
                  emitted := s.emitted + 1
                  builder := b }
      else if t = litComma then
        tokenizeBeforeObjectKey { s with
                                  input := inp
                                  lexStack := .beforeObjectKey :: s.lexStack.tail }
      else .error "Expected comma or right brace after object value"
termination_by 4 * s0.input.buffer.length + 3
decreasing_by
  all_goals simp_wf
  have hws := skipPastWhitespace_le s0.input
  have hlen := tryToTake_some_len h1
  simp at hlen
  omega

/-- `Tokenizer.#tokenizeBeforeObjectKey` (the `BeforeObjectKey` step). -/
def tokenizeBeforeObjectKey (s0 : TkState) : Except String TkState :=
  let s := { s0 with input := s0.input.skipPastWhitespace }
  match h1 : s.input.tryToTake 1 with
  | none => .ok s
  | some (t, inp) =>
      if t = litQuote then
        match handleToken s.builder .stringStart with
        | .error e => .error e
        | .ok b =>
            tokenizeString { s with
                             input := inp
                             lexStack := .inString :: .afterObjectKey :: s.lexStack.tail
                             emitted := s.emitted + 1
                             builder := b }
      else .error "Expected start of object key"
termination_by 4 * s0.input.buffer.length + 2
decreasing_by
  all_goals simp_wf
  have hws := skipPastWhitespace_le s0.input
  have hlen := tryToTake_some_len h1
  simp at hlen
  omega

end

/-- `Tokenizer.#tokenizeMore`: one dispatch on the top lexer state.  An
empty stack does nothing (the `case undefined` branch). -/
def tokenizeMore (s : TkState) : Except String TkState :=
  match s.lexStack.head? with
  | none => .ok s
  | some .expectingValue => tokenizeValue s
  | some .inString => tokenizeString s
  | some .startArray => tokenizeArrayStart s
  | some .afterArrayValue => tokenizeAfterArrayValue s
  | some .startObject => tokenizeObjectStart s
  | some .afterObjectKey => tokenizeAfterObjectKey s
  | some .afterObjectValue => tokenizeAfterObjectValue s
  | some .beforeObjectKey => tokenizeBeforeObjectKey s

/-- Result of a fuelled loop: a value, a thrown error, or fuel exhaustion
(which distinguishes "we stopped the model" from anything the program
does). -/
inductive Res (α : Type) where
  | ok (a : α)
  | failed (e : String)
  | fuelOut
deriving Repr

/-- The `while (true)` loop of `Tokenizer.pump`, with `start` the value of
`emittedTokens` when `pump` was entered. -/
def pumpLoop (fuel : Nat) (start : Nat) (s : TkState) : Res TkState :=
  match fuel with
  | 0 => .fuelOut
  | fuel + 1 =>
    let before := s.emitted
    match tokenizeMore s with
    | .error e => .failed e
    | .ok s =>
      if s.emitted > before then
        -- Keep processing buffered tokens in larger batches.
        pumpLoop fuel start s
      else if s.emitted > start then
        -- At least one token emitted and no more progress without input.
        .ok s
      else if s.lexStack.isEmpty then
        match s.input.expectEndOfContent with
        | .error e => .failed e
        | .ok inp => .ok { s with input := inp }
      else
        match s.input.tryToExpandBuffer with
        | .error e => .failed e
        | .ok (_, inp) => pumpLoop fuel start { s with input := inp }

/-- `Tokenizer.pump`. -/
def pump (fuel : Nat) (s : TkState) : Res TkState :=
  pumpLoop fuel s.emitted s

/-- `Tokenizer.isDone`. -/
def tokenizerIsDone (s : TkState) : Bool :=
  s.lexStack.isEmpty && s.input.buffer.isEmpty

/-! ## The parse driver (`Parser.next` and the `parse` stream) -/

/-- The whole parser state: the tokenizer (which owns the builder as its
handler) and the `finished` flag of `Parser`. -/
structure PState where
  tk : TkState
  finished : Bool
deriving Repr

/-- What one call to `Parser.next` resolves to. -/
inductive NextRes where
  | yieldVal (v : JsonValue)
  | doneRes
deriving Repr

/-- The `while (true)` loop body of `Parser.next`: clear `progressed`, pump,
check the internal-error guard, yield on progress, finish when the builder
stack has emptied (after one more pump to enforce end of content), else loop
to await more input. -/
def nextLoop (fuel : Nat) (p : PState) : Res (NextRes × PState) :=
  match fuel with
  | 0 => .fuelOut
  | fuel + 1 =>
    let tk := { p.tk with builder := { p.tk.builder with progressed := false } }
    match pump fuel tk with
    | .fuelOut => .fuelOut
    | .failed e => .failed e
    | .ok tk =>
      match currentValue tk.builder with
      | none => .failed "Internal error: toplevelValue undefined after pump"
      | some v =>
        if tk.builder.progressed then
          .ok (.yieldVal v, { p with tk := tk })
        else if tk.builder.stack.isEmpty then
          match pump fuel tk with
          | .fuelOut => .fuelOut
          | .failed e => .failed e
          | .ok tk => .ok (.doneRes, { tk := tk, finished := true })
        else nextLoop fuel { p with tk := tk }

/-- `Parser.next`: report done immediately once finished, else run the
loop. -/
def parserNext (fuel : Nat) (p : PState) : Res (NextRes × PState) :=
  if p.finished then .ok (.doneRes, p)
  else nextLoop fuel p

/-- The value stream handed to the consumer: `parse` is an `async
function*` delegating to the `Parser`, so after it has reported done or an
exception has propagated through it, the generator is completed and every
further pull reports done without touching the parser. -/
structure VStream where
  p : PState
  genDone : Bool
deriving Repr

/-- What one pull of the value stream observes. -/
inductive PullRes where
  | yielded (v : JsonValue)
  | doneOut
  | errored (e : String)
  | fuelGone
deriving Repr

/-- One pull on the value stream (one `next()` on the async generator
returned by `parse`). -/
def pull (fuel : Nat) (v : VStream) : PullRes × VStream :=
  if v.genDone then (.doneOut, v)
  else
    match parserNext fuel v.p with
    | .ok (.yieldVal x, p') => (.yielded x, { v with p := p' })
    | .ok (.doneRes, p') => (.doneOut, { p := p', genDone := true })
    | .failed e => (.errored e, { v with genDone := true })
    | .fuelOut => (.fuelGone, v)

/-- The tokenizer-plus-builder state at the start of a parse of the given
chunk stream. -/
def initTk (chunks : List JStr) (hasCb : Bool) : TkState :=
  { input := { buffer := [], bufferComplete := false
               moreContentExpected := true, upstream := chunks }
    lexStack := [.expectingValue]
    emitted := 0
    builder := initBState hasCb
    numTrace := [] }

/-- The fresh value stream for a parse of the given chunks. -/
def initStream (chunks : List JStr) (hasCb : Bool) : VStream :=
  { p := { tk := initTk chunks hasCb, finished := false }, genDone := false }

/-- How a whole run ended. -/
inductive Outcome where
  | finished
  | errOut (e : String)
  | fuelGone
deriving Repr

/-- The observations of a complete consumer loop (`for await (const v of
parse(stream))`): every yielded value (snapshotted at yield time), the
outcome, and the final stream state (carrying the callback record and the
tokenizer instrumentation). -/
structure RunOut where
  yields : List JsonValue
  outcome : Outcome
  final : VStream
deriving Repr

/-- Pull until done, an error, or fuel exhaustion. -/
def runLoop (fuel : Nat) (acc : List JsonValue) (v : VStream) : RunOut :=
  match fuel with
  | 0 => ⟨acc, .fuelGone, v⟩
  | fuel + 1 =>
    match pull fuel v with
    | (.yielded x, v') => runLoop fuel (acc ++ [x]) v'
    | (.doneOut, v') => ⟨acc, .finished, v'⟩
    | (.errored e, v') => ⟨acc, .errOut e, v'⟩
    | (.fuelGone, v') => ⟨acc, .fuelGone, v'⟩

/-- Run a parse of the given chunks to completion (within fuel), observing
every yield. -/
def run (chunks : List JStr) (hasCb : Bool) (fuel : Nat) : RunOut :=
  runLoop fuel [] (initStream chunks hasCb)

/-! ## The oracle: a conventional non-streaming JSON parser

Modelled from the spec: the host's complete JSON validator (`JSON.parse`),
which the spec uses only as the test oracle and places out of scope of the
repository sources.  It follows the spec's grammar: strict conventional
JSON; whitespace is space, tab, line feed, carriage return; numbers follow
`-?(0|[1-9][0-9]*)(\.[0-9]+)?([eE][+-]?[0-9]+)?` (scanned maximally over
`[-+0-9eE.]`, then validated); strings decode the eight simple escapes and
`\uXXXX`; objects resolve duplicate keys last-wins preserving first
insertion position; a single top-level value with only trailing whitespace
is accepted.  Numbers are carried as lexemes, as in the streaming model. -/

/-- Parse the body of a string literal (after the opening quote), returning
the decoded text and the rest after the closing quote. -/
def oParseStringBody (fuel : Nat) (s : JStr) : Option (JStr × JStr) :=
  match fuel with
  | 0 => none
  | fuel + 1 =>
    match s with
    | [] => none
    | 34 :: rest => some ([], rest)
    | 92 :: esc :: rest =>
        if esc == 117 then
          match rest with
          | a :: b :: c :: d :: rest2 =>
              if [a, b, c, d].all isHexDigit then
                match oParseStringBody fuel rest2 with
                | some (tail, rest3) => some (hex4Val [a, b, c, d] :: tail, rest3)
                | none => none
              else none
          | _ => none
        else
          match escapeChar esc with
          | some v =>
              match oParseStringBody fuel rest with
              | some (tail, rest2) => some (v :: tail, rest2)
              | none => none
          | none => none
    | c :: rest =>
        if c ≤ 31 then none
        else
          match oParseStringBody fuel rest with
          | some (tail, rest2) => some (c :: tail, rest2)
          | none => none

mutual

/-- Parse one JSON value (leading whitespace allowed), returning it and the
unconsumed rest. -/
def oParseValue (fuel : Nat) (s : JStr) : Option (JsonValue × JStr) :=
  match fuel with
  | 0 => none
  | fuel + 1 =>
    let s := s.dropWhile jsonWs
    if litNull.isPrefixOf s then some (.null, s.drop 4)
    else if litTrue.isPrefixOf s then some (.bool true, s.drop 4)
    else if litFalse.isPrefixOf s then some (.bool false, s.drop 5)
    else
      match s with
      | 34 :: rest =>
          match oParseStringBody (rest.length + 1) rest with
          | some (txt, rest2) => some (.str txt, rest2)
          | none => none
      | 91 :: rest => oParseArrayItems fuel (rest.dropWhile jsonWs) []
      | 123 :: rest => oParseObjectEntries fuel (rest.dropWhile jsonWs) [] true
      | c :: _ =>
          if numStartChar c then
            let lexeme := s.takeWhile numChar
            if jsonNumberValid lexeme then some (.num lexeme, s.drop lexeme.length)
            else none
          else none
      | [] => none

/-- Parse the items of an array after `[` (first whitespace already
skipped); `acc` holds the items parsed so far.  `first` distinguishes the
position right after `[` (where `]` closes an empty array) from the
position after a comma. -/
def oParseArrayItems (fuel : Nat) (s : JStr) (acc : List JsonValue) :
    Option (JsonValue × JStr) :=
  match fuel with
  | 0 => none
  | fuel + 1 =>
    match s, acc with
    | 93 :: rest, [] => some (.arr [], rest)
    | _, _ =>
      match oParseValue fuel s with
      | none => none
      | some (v, rest) =>
          let rest := rest.dropWhile jsonWs
          match rest with
          | 93 :: rest2 => some (.arr (acc ++ [v]), rest2)
          | 44 :: rest2 => oParseArrayItems fuel (rest2.dropWhile jsonWs) (acc ++ [v])
          | _ => none

/-- Parse the entries of an object after a left brace (first whitespace
already skipped); `acc` holds the entries so far with last-wins
resolution.  `first` is true right after the left brace, where a right
brace closes an empty object. -/
def oParseObjectEntries (fuel : Nat) (s : JStr) (acc : List (JStr × JsonValue))
    (first : Bool) : Option (JsonValue × JStr) :=
  match fuel with
  | 0 => none
  | fuel + 1 =>
    match s with
    | 125 :: rest =>
        if first then some (.obj acc, rest) else none
    | 34 :: rest =>
        match oParseStringBody (rest.length + 1) rest with
        | none => none
        | some (key, rest2) =>
            match rest2.dropWhile jsonWs with
            | 58 :: rest3 =>
                match oParseValue fuel rest3 with
                | none => none
                | some (v, rest4) =>
                    let acc := setEntry acc key v
                    match rest4.dropWhile jsonWs with
                    | 125 :: rest5 => some (.obj acc, rest5)
                    | 44 :: rest5 =>
                        oParseObjectEntries fuel (rest5.dropWhile jsonWs) acc false
                    | _ => none
            | _ => none
    | _ => none

end

/-- The oracle `JSON.parse`: one value, then only whitespace. -/
def oracleParse (s : JStr) : Option JsonValue :=
  match oParseValue (s.length + 1) s with
  | some (v, rest) => if (rest.dropWhile jsonWs).isEmpty then some v else none
  | none => none

/-! ## Tree positions -/

/-- Follow a path of segments down a value tree. -/
def getAtPath (v : JsonValue) : List Seg → Option JsonValue
  | [] => some v
  | .key k :: rest =>
      match v with
      | .obj e =>
          match e.find? (fun p => p.1 = k) with
          | some p => getAtPath p.2 rest
          | none => none
      | _ => none
  | .idx i :: rest =>
      match v with
      | .arr xs =>
          if i < 0 then none
          else
            match xs[i.toNat]? with
            | some x => getAtPath x rest
            | none => none
      | _ => none

/-- `s` is a strict prefix of `t`. -/
def StrictPrefix (s t : JStr) : Prop := s <+: t ∧ s ≠ t

/-! ## Claim theorems -/

theorem setOwnProp_self (ps : List JsProp) (k : JStr) (v : JsonValue) :
    (setOwnProp ps k v).find? (fun p => p.key = k) = some ⟨k, v, true⟩ := by
  induction ps with
  | nil => simp [setOwnProp]
  | cons p rest ih =>
      by_cases h : p.key = k
      · simp [setOwnProp, h]
      · simp [setOwnProp, h, ih]

/-- C8: every property assignment the builder performs through
`setObjectProperty` — including keys named like well-known inherited slots
such as `__proto__` — stores the key as an own, enumerable property of the
object, and never alters the object's prototype. -/
theorem setObjectProperty_own_enumerable (o : JsObject) (k : JStr) (v : JsonValue) :
    (setObjectProperty o k v).lookup k = some ⟨k, v, true⟩ ∧
    (setObjectProperty o k v).protoMutated = o.protoMutated := by
  unfold setObjectProperty jsDefineProperty jsPlainAssign JsObject.lookup
  by_cases h : k = protoKey <;> simp [h, setOwnProp_self]

/-- C9: once the value stream has reported done or surfaced a terminal
error, the generator is completed: every later pull returns done
immediately with the stream state untouched (so the tokenizer's `pump` is
not invoked and nothing is read from upstream); the `finished` short-cut in
`Parser.next` likewise returns done without pumping. -/
theorem stream_done_is_absorbing :
    (∀ (fuel : Nat) (p : PState), p.finished = true →
        parserNext fuel p = .ok (.doneRes, p)) ∧
    (∀ (fuel : Nat) (v : VStream), v.genDone = true →
        pull fuel v = (.doneOut, v)) ∧
    (∀ (fuel : Nat) (v : VStream) (r : PullRes) (v' : VStream),
        pull fuel v = (r, v') →
        (r = .doneOut ∨ ∃ e, r = .errored e) → v'.genDone = true) := by
  refine ⟨?_, ?_, ?_⟩
  · intro fuel p h
    simp [parserNext, h]
  · intro fuel v h
    simp [pull, h]
  · intro fuel v r v' hp hr
    by_cases hg : v.genDone = true
    · simp [pull, hg] at hp
      rw [← hp.2]
      exact hg
    · simp only [pull, hg] at hp
      simp only [Bool.false_eq_true, if_false] at hp
      rcases hpn : parserNext fuel v.p with a | e
      · rcases a with ⟨nr, p'⟩
        cases nr with
        | yieldVal x =>
            rw [hpn] at hp
            cases hp
            rcases hr with h1 | ⟨e, h2⟩ <;> simp_all
        | doneRes =>
            rw [hpn] at hp
            cases hp
            rfl
      · rw [hpn] at hp
        cases hp
        rfl
      · rw [hpn] at hp
        cases hp
        rcases hr with h1 | ⟨e, h2⟩ <;> simp_all

/-- Witness for C9 at a concrete completed stream. -/
theorem stream_done_is_absorbing_witness :
    pull 3 { p := { tk := initTk [] true, finished := true }, genDone := true } =
      (.doneOut, { p := { tk := initTk [] true, finished := true }, genDone := true }) :=
  stream_done_is_absorbing.2.1 3 _ rfl

/-- One-character chunking of a text. -/
def perChar (s : String) : List JStr := (jstr s).map (fun c => [c])

/-- C2 counterexample: delivered as the *single* chunk `"[1,2] garbage"`,
the stream does not yield the claimed sequence `[], [1], [1,2]` — `pump`
consumes everything synchronously available, so only `[1,2]` is yielded
before the trailing-content error. -/
theorem c2_single_chunk_counterexample :
    (run [jstr "[1,2] garbage"] false 100).yields ≠
      [.arr [], .arr [.num (jstr "1")],
       .arr [.num (jstr "1"), .num (jstr "2")]] := by
  intro h
  have hy : (run [jstr "[1,2] garbage"] false 100).yields =
      [.arr [.num (jstr "1"), .num (jstr "2")]] := by
    with_unfolding_all rfl
  rw [hy] at h
  simp at h

/-- C2 amended: as a single chunk, `"[1,2] garbage"` yields exactly `[1,2]`
once and the following pull fails with the trailing-content error; the
claimed sequence `[], [1], [1,2]` (then the same error) arises under
one-character chunking. -/
theorem c2_amended :
    (run [jstr "[1,2] garbage"] false 100).yields =
      [.arr [.num (jstr "1"), .num (jstr "2")]] ∧
    (run [jstr "[1,2] garbage"] false 100).outcome =
      .errOut "Unexpected trailing content" ∧
    (run (perChar "[1,2] garbage") false 200).yields =
      [.arr [], .arr [.num (jstr "1")],
       .arr [.num (jstr "1"), .num (jstr "2")]] ∧
    (run (perChar "[1,2] garbage") false 200).outcome =
      .errOut "Unexpected trailing content" := by
  refine ⟨?_, ?_, ?_, ?_⟩ <;> with_unfolding_all rfl

set_option maxRecDepth 4000 in
/-- C3: the code violates the claim.  With the chunks `"[1"`, `"2]"` the
tokenizer stalls inside the number, clears `moreContentExpected`, and after
the buffer expands it emits the `Number` token through the
found-a-terminator path — which never re-sets the flag, so
`moreContentExpected` is still false immediately after a successful number
emission (first conjunct; `numTrace` records the flag at each emission).
As a consequence, a stream that is later truncated mid-document is accepted
silently instead of failing with "Unexpected end of content": with chunks
`"[12"`, `"3,"` the parse neither finishes nor errors at any fuel tried
(third conjunct), contradicting the documented contract that invalid JSON
throws. -/
theorem c3_number_emission_flag :
    (run [jstr "[1", jstr "2]"] false 100).final.p.tk.numTrace = [false] ∧
    (run [jstr "[1", jstr "2]"] false 100).outcome = .finished ∧
    (run [jstr "[12", jstr "3,"] false 300).outcome = .fuelGone := by
  refine ⟨?_, ?_, ?_⟩ <;> with_unfolding_all rfl

/-- C4 counterexample: for the single chunk `"{\"a\":1,\"a\":2}"` the
completion callbacks are not `2, {"a":2}` — the builder reports the earlier
value `1` at the moment it completes (it cannot foresee the override), so
the callback values are `1, 2, {"a":2}`. -/
theorem c4_duplicate_key_callback_counterexample :
    ((run [jstr "\x7b\"a\":1,\"a\":2\x7d"] true 100).final.p.tk.builder.callbacks.map
        (fun e => e.value)) ≠
      [.num (jstr "2"), .obj [(jstr "a", .num (jstr "2"))]] := by
  intro h
  have hy : ((run [jstr "\x7b\"a\":1,\"a\":2\x7d"] true 100).final.p.tk.builder.callbacks.map
      (fun e => e.value)) =
      [.num (jstr "1"), .num (jstr "2"),
       .obj [(jstr "a", .num (jstr "2"))]] := by
    with_unfolding_all rfl
  rw [hy] at h
  simp at h

/-- C4 amended: the completion callback is invoked for each value at the
moment that value completes; an earlier duplicate-key value is reported at
its own completion time (the report is not suppressed or retracted when the
key is later overridden), and the override's later value is reported as
well.  For the single chunk `"{\"a\":1,\"a\":2}"` the callbacks occur
exactly in the order `1` (at path `["a"]`), `2` (at path `["a"]`),
`{"a":2}` (at path `[]`), while the value stream yields `{"a":2}` and
finishes. -/
theorem c4_duplicate_key_callback_amended :
    ((run [jstr "\x7b\"a\":1,\"a\":2\x7d"] true 100).final.p.tk.builder.callbacks.map
        (fun e => (e.value, segments e.stackAtCall))) =
      [(.num (jstr "1"), .ok [.key (jstr "a")]),
       (.num (jstr "2"), .ok [.key (jstr "a")]),
       (.obj [(jstr "a", .num (jstr "2"))], .ok [])] ∧
    (run [jstr "\x7b\"a\":1,\"a\":2\x7d"] true 100).yields =
      [.obj [(jstr "a", .num (jstr "2"))]] ∧
    (run [jstr "\x7b\"a\":1,\"a\":2\x7d"] true 100).outcome = .finished := by
  refine ⟨?_, ?_, ?_⟩ <;> with_unfolding_all rfl

def buildSteps (b : BState) : List Token → Except String BState
  | [] => .ok b
  | t :: ts =>
      match handleToken b t with
      | .error e => .error e
      | .ok b' => buildSteps b' ts

theorem buildSteps_cons {b b1 b2 : BState} {t : Token} {ts : List Token}
    (h1 : handleToken b t = .ok b1) (h2 : buildSteps b1 ts = .ok b2) :
    buildSteps b (t :: ts) = .ok b2 := by
  simp [buildSteps, h1, h2]

def BuilderFold (s s' : TkState) : Prop :=
  ∃ ts, buildSteps s.builder ts = .ok s'.builder

theorem stringSCC_fold :
    (∀ s : TkState, ∀ s', tokenizeString s = .ok s' → BuilderFold s s') ∧
    (∀ s : TkState, ∀ s', tokenizeStringEscape s = .ok s' → BuilderFold s s') := by
  apply tokenizeString.mutual_induct
  -- 1: chunk = [], interrupted: recurse into the escape step
  · intro s inp hr hr2 ih s' hok
    rw [tokenizeString.eq_def] at hok
    split at hok
    rename_i heq
    rw [hr] at heq
    cases heq
    simp at hok
    exact ih s' hok
  -- 2: chunk = [], not interrupted: stall, builder unchanged
  · intro s interrupted inp hr hni hr2 s' hok
    rw [tokenizeString.eq_def] at hok
    split at hok
    rename_i heq
    rw [hr] at heq
    cases heq
    simp [hni] at hok
    exact ⟨[], by simp [buildSteps, ← hok]⟩
  -- 3: control character: error
  · intro s interrupted inp head tail hr hr2 hctrl s' hok
    rw [tokenizeString.eq_def] at hok
    split at hok
    rename_i heq
    rw [hr] at heq
    cases heq
    simp [hctrl] at hok
  -- 4: StringMiddle handler throws
  · intro s interrupted inp head tail hr e hr2 hctrl herr s' hok
    rw [tokenizeString.eq_def] at hok
    split at hok
    rename_i heq
    rw [hr] at heq
    cases heq
    simp [hctrl, herr] at hok
  -- 5: StringMiddle emitted, interrupted: recurse into escape step
  · intro s inp head tail b hctrl hmid hr hr2 ih s' hok
    rw [tokenizeString.eq_def] at hok
    split at hok
    rename_i heq
    rw [hr] at heq
    cases heq
    simp [hctrl, hmid] at hok
    obtain ⟨ts, hfold⟩ := ih s' hok
    exact ⟨_, buildSteps_cons hmid hfold⟩
  -- 6: StringMiddle emitted, not interrupted: loop
  · intro s interrupted inp head tail hr b hni hr2 hctrl hmid ih s' hok
    rw [tokenizeString.eq_def] at hok
    split at hok
    rename_i heq
    rw [hr] at heq
    cases heq
    simp [hctrl, hmid, hni] at hok
    obtain ⟨ts, hfold⟩ := ih s' hok
    exact ⟨_, buildSteps_cons hmid hfold⟩
  -- 7: escape step, empty buffer: stall
  · intro s hbuf s' hok
    rw [tokenizeStringEscape.eq_def] at hok
    split at hok
    · cases hok
      exact ⟨[], rfl⟩
    · rename_i heq
      rw [hbuf] at heq
      cases heq
  -- 8: closing quote, handler throws
  · intro s c1 rest1 hbuf h34 e herr s' hok
    rw [tokenizeStringEscape.eq_def] at hok
    split at hok
    · rename_i heq
      rw [hbuf] at heq
      cases heq
    · rename_i heq
      rw [hbuf] at heq
      cases heq
      simp [h34, herr] at hok
  -- 9: closing quote, StringEnd emitted
  · intro s c1 rest1 hbuf h34 b hmid s' hok
    rw [tokenizeStringEscape.eq_def] at hok
    split at hok
    · rename_i heq
      rw [hbuf] at heq
      cases heq
    · rename_i heq
      rw [hbuf] at heq
      cases heq
      simp [h34, hmid] at hok
      exact ⟨[.stringEnd], by simp [buildSteps, hmid, ← hok]⟩
  -- 10: backslash at end of buffer: stall
  · intro s c1 hn34 hbuf hbuf2 s' hok
    rw [tokenizeStringEscape.eq_def] at hok
    split at hok
    · rename_i heq
      rw [hbuf] at heq
      cases heq
    · rename_i heq
      rw [hbuf] at heq
      cases heq
      simp [hn34] at hok
      cases hok
      exact ⟨[], rfl⟩
  -- 11: unicode escape, fewer than six buffered: stall
  · intro s c1 hn34 c2 rest2 hbuf hu h6 hbuf2 s' hok
    rw [tokenizeStringEscape.eq_def] at hok
    split at hok
    · rename_i heq
      rw [hbuf] at heq
      cases heq
    · rename_i heq
      rw [hbuf] at heq
      cases heq
      simp [hn34, hu, h6] at hok
      cases hok
      exact ⟨[], rfl⟩
  -- 12: unicode escape, invalid hex: error
  · intro s c1 hn34 c2 rest2 hbuf hu h6 hex hhex hbuf2 s' hok
    have hx : hex = List.take 4 (List.drop 2 s.input.buffer) := rfl
    rw [hx] at hhex
    rw [tokenizeStringEscape.eq_def] at hok
    split at hok
    · rename_i heq
      rw [hbuf] at heq
      cases heq
    · rename_i heq
      rw [hbuf] at heq
      cases heq
      simp at hhex
      simp [hn34, hu, h6, hhex] at hok
  -- 13: unicode escape, StringMiddle handler throws
  · intro s c1 hn34 c2 rest2 hbuf hu h6 hex hhex e herr hbuf2 s' hok
    have hx : hex = List.take 4 (List.drop 2 s.input.buffer) := rfl
    rw [hx] at hhex herr
    rw [tokenizeStringEscape.eq_def] at hok
    split at hok
    · rename_i heq
      rw [hbuf] at heq
      cases heq
    · rename_i heq
      rw [hbuf] at heq
      cases heq
      simp at hhex
      have hne : ¬∃ x ∈ List.take 4 (List.drop 2 s.input.buffer), isHexDigit x = false := by
        simpa using hhex
      simp [hn34, hu, h6, hne, herr] at hok
  -- 14: unicode escape emitted: loop
  · intro s c1 hn34 c2 rest2 hbuf hu h6 hex hhex b hmid hbuf2 ih s' hok
    have hx : hex = List.take 4 (List.drop 2 s.input.buffer) := rfl
    rw [hx] at hhex hmid
    rw [tokenizeStringEscape.eq_def] at hok
    split at hok
    · rename_i heq
      rw [hbuf] at heq
      cases heq
    · rename_i heq
      rw [hbuf] at heq
      cases heq
      simp at hhex
      have hne : ¬∃ x ∈ List.take 4 (List.drop 2 s.input.buffer), isHexDigit x = false := by
        simpa using hhex
      simp [hn34, hu, h6, hne, hmid] at hok
      obtain ⟨ts, hfold⟩ := ih s' hok
      exact ⟨_, buildSteps_cons hmid hfold⟩
  -- 15: bad escape: error
  · intro s c1 hn34 c2 rest2 hbuf hnu hesc hbuf2 s' hok
    rw [tokenizeStringEscape.eq_def] at hok
    split at hok
    · rename_i heq
      rw [hbuf] at heq
      cases heq
    · rename_i heq
      rw [hbuf] at heq
      cases heq
      simp [hn34, hnu, hesc] at hok
  -- 16: simple escape, StringMiddle handler throws
  · intro s c1 hn34 c2 rest2 hbuf hnu idx hesc e herr hbuf2 s' hok
    rw [tokenizeStringEscape.eq_def] at hok
    split at hok
    · rename_i heq
      rw [hbuf] at heq
      cases heq
    · rename_i heq
      rw [hbuf] at heq
      cases heq
      simp [hn34, hnu, hesc, herr] at hok
  -- 17: simple escape emitted: loop
  · intro s c1 hn34 c2 rest2 hbuf hnu idx hesc b hmid hbuf2 ih s' hok
    rw [tokenizeStringEscape.eq_def] at hok
    split at hok
    · rename_i heq
      rw [hbuf] at heq
      cases heq
    · rename_i heq
      rw [hbuf] at heq
      cases heq
      simp [hn34, hnu, hesc, hmid] at hok
      obtain ⟨ts, hfold⟩ := ih s' hok
      exact ⟨_, buildSteps_cons hmid hfold⟩

theorem tokenizeObjectStart_fold :
    ∀ (s s' : TkState), tokenizeObjectStart s = .ok s' → BuilderFold s s' := by
  intro s s' hok
  rw [tokenizeObjectStart.eq_def] at hok
  dsimp only at hok
  split at hok
  · cases hok
    exact ⟨[], rfl⟩
  · rename_i t inp h1
    split at hok
    · -- right brace: ObjectEnd
      split at hok
      · cases hok
      · rename_i b hb
        cases hok
        exact ⟨[.objectEnd], by simp [buildSteps, hb]⟩
    · split at hok
      · -- quote: StringStart then the string scan
        split at hok
        · cases hok
        · rename_i b hb
          obtain ⟨ts, hfold⟩ := stringSCC_fold.1 _ s' hok
          exact ⟨_, buildSteps_cons hb hfold⟩
      · cases hok

theorem valueSCC_fold :
    (∀ s : TkState, ∀ s', tokenizeValue s = .ok s' → BuilderFold s s') ∧
    (∀ s : TkState, ∀ s', tokenizeArrayStart s = .ok s' → BuilderFold s s') := by
  apply tokenizeValue.mutual_induct
  -- 1: null, handler throws
  · intro s0 s inp hnull e herr s' hok
    rw [tokenizeValue.eq_def] at hok
    dsimp only at hok
    simp only [hnull, herr] at hok
    cases hok
  -- 2: null emitted
  · intro s0 s inp hnull b hb s' hok
    rw [tokenizeValue.eq_def] at hok
    dsimp only at hok
    simp only [hnull, hb] at hok
    cases hok
    exact ⟨[.tnull], by simp [buildSteps, hb]⟩
  -- 3: true, handler throws
  · intro s0 s hnull inp htrue e herr s' hok
    rw [tokenizeValue.eq_def] at hok
    dsimp only at hok
    simp only [hnull, htrue, herr] at hok
    cases hok
  -- 4: true emitted
  · intro s0 s hnull inp htrue b hb s' hok
    rw [tokenizeValue.eq_def] at hok
    dsimp only at hok
    simp only [hnull, htrue, hb] at hok
    cases hok
    exact ⟨[.tbool true], by simp [buildSteps, hb]⟩
  -- 5: false, handler throws
  · intro s0 s hnull htrue inp hfalse e herr s' hok
    rw [tokenizeValue.eq_def] at hok
    dsimp only at hok
    simp only [hnull, htrue, hfalse, herr] at hok
    cases hok
  -- 6: false emitted
  · intro s0 s hnull htrue inp hfalse b hb s' hok
    rw [tokenizeValue.eq_def] at hok
    dsimp only at hok
    simp only [hnull, htrue, hfalse, hb] at hok
    cases hok
    exact ⟨[.tbool false], by simp [buildSteps, hb]⟩
  -- 7: number, buffer complete, empty scan: error
  · intro s0 s hnull htrue hfalse hnum hbc numberChars hempty s' hok
    have hnc : numberChars = List.takeWhile numChar s.input.buffer := rfl
    rw [hnc] at hempty
    rw [tokenizeValue.eq_def] at hok
    dsimp only at hok
    simp only [hnull, htrue, hfalse, hnum, hbc] at hok
    simp [hempty, show s0.input.skipPastWhitespace.bufferComplete = true from hbc] at hok
  -- 8: number, buffer complete, invalid lexeme
  · intro s0 s hnull htrue hfalse hnum hbc numberChars hempty e hperr s' hok
    have hnc : numberChars = List.takeWhile numChar s.input.buffer := rfl
    rw [hnc] at hempty hperr
    rw [tokenizeValue.eq_def] at hok
    dsimp only at hok
    simp only [hnull, htrue, hfalse, hnum, hbc] at hok
    simp [hempty, show s0.input.skipPastWhitespace.bufferComplete = true from hbc, hperr] at hok
  -- 9: number, buffer complete, handler throws
  · intro s0 s hnull htrue hfalse hnum hbc numberChars hempty lex hplex e herr s' hok
    have hnc : numberChars = List.takeWhile numChar s.input.buffer := rfl
    rw [hnc] at hempty hplex
    rw [tokenizeValue.eq_def] at hok
    dsimp only at hok
    simp only [hnull, htrue, hfalse, hnum, hbc] at hok
    simp [hempty, show s0.input.skipPastWhitespace.bufferComplete = true from hbc, hplex, herr] at hok
  -- 10: number, buffer complete, emitted
  · intro s0 s hnull htrue hfalse hnum hbc numberChars hempty lex hplex b hb s' hok
    have hnc : numberChars = List.takeWhile numChar s.input.buffer := rfl
    rw [hnc] at hempty hplex
    rw [tokenizeValue.eq_def] at hok
    dsimp only at hok
    simp only [hnull, htrue, hfalse, hnum, hbc] at hok
    simp [hempty, show s0.input.skipPastWhitespace.bufferComplete = true from hbc, hplex, hb] at hok
    cases hok
    exact ⟨[.tnum lex], by simp [buildSteps, hb]⟩
  -- 11: number, incomplete, no terminator: stall
  · intro s0 s hnull htrue hfalse hnum hnbc hfind s' hok
    rw [tokenizeValue.eq_def] at hok
    dsimp only at hok
    simp only [hnull, htrue, hfalse, hnum, hnbc, hfind] at hok
    simp [show ¬s0.input.skipPastWhitespace.bufferComplete = true from hnbc,
          show List.findIdx? (fun c => !numChar c) s0.input.skipPastWhitespace.buffer = _ from hfind] at hok
    cases hok
    exact ⟨[], rfl⟩
  -- 12: number, incomplete, invalid lexeme
  · intro s0 s hnull htrue hfalse hnum hnbc idx hfind numberChars e hperr s' hok
    have hnc : numberChars = List.take idx s.input.buffer := rfl
    rw [hnc] at hperr
    rw [tokenizeValue.eq_def] at hok
    dsimp only at hok
    simp only [hnull, htrue, hfalse, hnum, hnbc, hfind] at hok
    simp [show ¬s0.input.skipPastWhitespace.bufferComplete = true from hnbc,
          show List.findIdx? (fun c => !numChar c) s0.input.skipPastWhitespace.buffer = _ from hfind, hperr] at hok
  -- 13: number, incomplete, handler throws
  · intro s0 s hnull htrue hfalse hnum hnbc idx hfind numberChars lex hplex e herr s' hok
    have hnc : numberChars = List.take idx s.input.buffer := rfl
    rw [hnc] at hplex
    rw [tokenizeValue.eq_def] at hok
    dsimp only at hok
    simp only [hnull, htrue, hfalse, hnum, hnbc, hfind] at hok
    simp [show ¬s0.input.skipPastWhitespace.bufferComplete = true from hnbc,
          show List.findIdx? (fun c => !numChar c) s0.input.skipPastWhitespace.buffer = _ from hfind, hplex, herr] at hok
  -- 14: number, incomplete, emitted
  · intro s0 s hnull htrue hfalse hnum hnbc idx hfind numberChars lex hplex b hb s' hok
    have hnc : numberChars = List.take idx s.input.buffer := rfl
    rw [hnc] at hplex
    rw [tokenizeValue.eq_def] at hok
    dsimp only at hok
    simp only [hnull, htrue, hfalse, hnum, hnbc, hfind] at hok
    simp [show ¬s0.input.skipPastWhitespace.bufferComplete = true from hnbc,
          show List.findIdx? (fun c => !numChar c) s0.input.skipPastWhitespace.buffer = _ from hfind, hplex, hb] at hok
    cases hok
    exact ⟨[.tnum lex], by simp [buildSteps, hb]⟩
  -- 15: quote, StringStart handler throws
  · intro s0 s hnull htrue hfalse hnumf inp hq e herr s' hok
    rw [tokenizeValue.eq_def] at hok
    dsimp only at hok
    simp only [hnull, htrue, hfalse,
      show ¬(List.head? s0.input.skipPastWhitespace.buffer).elim false numStartChar = true
        from hnumf, Bool.false_eq_true, if_false] at hok
    have hq' : s0.input.skipPastWhitespace.takeLit litQuote = some inp := hq
    split at hok
    · rename_i heq
      rw [hq'] at heq
      cases heq
      simp [herr] at hok
    · rename_i heq
      rw [hq'] at heq
      cases heq
  -- 16: quote, StringStart emitted: scan the string
  · intro s0 s hnull htrue hfalse hnumf inp hq b hb s' hok
    rw [tokenizeValue.eq_def] at hok
    dsimp only at hok
    simp only [hnull, htrue, hfalse,
      show ¬(List.head? s0.input.skipPastWhitespace.buffer).elim false numStartChar = true
        from hnumf, Bool.false_eq_true, if_false] at hok
    have hq' : s0.input.skipPastWhitespace.takeLit litQuote = some inp := hq
    split at hok
    · rename_i heq
      rw [hq'] at heq
      cases heq
      simp [hb] at hok
      obtain ⟨ts, hfold⟩ := stringSCC_fold.1 _ s' hok
      exact ⟨_, buildSteps_cons hb hfold⟩
    · rename_i heq
      rw [hq'] at heq
      cases heq
  -- 17: left bracket, ArrayStart handler throws
  · intro s0 s hnull htrue hfalse hnumf hqn inp hbk e herr s' hok
    rw [tokenizeValue.eq_def] at hok
    dsimp only at hok
    simp only [hnull, htrue, hfalse,
      show ¬(List.head? s0.input.skipPastWhitespace.buffer).elim false numStartChar = true
        from hnumf, Bool.false_eq_true, if_false] at hok
    have hqn' : s0.input.skipPastWhitespace.takeLit litQuote = none := hqn
    have hbk' : s0.input.skipPastWhitespace.takeLit litLBracket = some inp := hbk
    split at hok
    · rename_i heq
      rw [hqn'] at heq
      cases heq
    · split at hok
      · rename_i heq
        rw [hbk'] at heq
        cases heq
        simp [herr] at hok
      · rename_i heq
        rw [hbk'] at heq
        cases heq
  -- 18: left bracket, ArrayStart emitted: recurse
  · intro s0 s hnull htrue hfalse hnumf hqn inp hbk b hb ih s' hok
    rw [tokenizeValue.eq_def] at hok
    dsimp only at hok
    simp only [hnull, htrue, hfalse,
      show ¬(List.head? s0.input.skipPastWhitespace.buffer).elim false numStartChar = true
        from hnumf, Bool.false_eq_true, if_false] at hok
    have hqn' : s0.input.skipPastWhitespace.takeLit litQuote = none := hqn
    have hbk' : s0.input.skipPastWhitespace.takeLit litLBracket = some inp := hbk
    split at hok
    · rename_i heq
      rw [hqn'] at heq
      cases heq
    · split at hok
      · rename_i heq
        rw [hbk'] at heq
        cases heq
        simp [hb] at hok
        obtain ⟨ts, hfold⟩ := ih s' hok
        exact ⟨_, buildSteps_cons hb hfold⟩
      · rename_i heq
        rw [hbk'] at heq
        cases heq
  -- 19: left brace, ObjectStart handler throws
  · intro s0 s hnull htrue hfalse hnumf hqn hbkn inp hbc e herr s' hok
    rw [tokenizeValue.eq_def] at hok
    dsimp only at hok
    simp only [hnull, htrue, hfalse,
      show ¬(List.head? s0.input.skipPastWhitespace.buffer).elim false numStartChar = true
        from hnumf, Bool.false_eq_true, if_false] at hok
    have hqn' : s0.input.skipPastWhitespace.takeLit litQuote = none := hqn
    have hbkn' : s0.input.skipPastWhitespace.takeLit litLBracket = none := hbkn
    have hbc' : s0.input.skipPastWhitespace.takeLit litLBrace = some inp := hbc
    split at hok
    · rename_i heq
      rw [hqn'] at heq
      cases heq
    · split at hok
      · rename_i heq
        rw [hbkn'] at heq
        cases heq
      · split at hok
        · rename_i heq
          rw [hbc'] at heq
          cases heq
          simp [herr] at hok
        · rename_i heq
          rw [hbc'] at heq
          cases heq
  -- 20: left brace, ObjectStart emitted: object start step
  · intro s0 s hnull htrue hfalse hnumf hqn hbkn inp hbc b hb s' hok
    rw [tokenizeValue.eq_def] at hok
    dsimp only at hok
    simp only [hnull, htrue, hfalse,
      show ¬(List.head? s0.input.skipPastWhitespace.buffer).elim false numStartChar = true
        from hnumf, Bool.false_eq_true, if_false] at hok
    have hqn' : s0.input.skipPastWhitespace.takeLit litQuote = none := hqn
    have hbkn' : s0.input.skipPastWhitespace.takeLit litLBracket = none := hbkn
    have hbc' : s0.input.skipPastWhitespace.takeLit litLBrace = some inp := hbc
    split at hok
    · rename_i heq
      rw [hqn'] at heq
      cases heq
    · split at hok
      · rename_i heq
        rw [hbkn'] at heq
        cases heq
      · split at hok
        · rename_i heq
          rw [hbc'] at heq
          cases heq
          simp [hb] at hok
          obtain ⟨ts, hfold⟩ := tokenizeObjectStart_fold _ s' hok
          exact ⟨_, buildSteps_cons hb hfold⟩
        · rename_i heq
          rw [hbc'] at heq
          cases heq
  -- 21: nothing matched: stall
  · intro s0 s hnull htrue hfalse hnumf hqn hbkn hbcn s' hok
    rw [tokenizeValue.eq_def] at hok
    dsimp only at hok
    simp only [hnull, htrue, hfalse,
      show ¬(List.head? s0.input.skipPastWhitespace.buffer).elim false numStartChar = true
        from hnumf, Bool.false_eq_true, if_false] at hok
    have hqn' : s0.input.skipPastWhitespace.takeLit litQuote = none := hqn
    have hbkn' : s0.input.skipPastWhitespace.takeLit litLBracket = none := hbkn
    have hbcn' : s0.input.skipPastWhitespace.takeLit litLBrace = none := hbcn
    split at hok
    · rename_i heq
      rw [hqn'] at heq
      cases heq
    · split at hok
      · rename_i heq
        rw [hbkn'] at heq
        cases heq
      · split at hok
        · rename_i heq
          rw [hbcn'] at heq
          cases heq
        · cases hok
          exact ⟨[], rfl⟩
  -- 22: array start, empty buffer: stall
  · intro s0 s hempty s' hok
    rw [tokenizeArrayStart.eq_def] at hok
    dsimp only at hok
    simp only [show List.isEmpty s0.input.skipPastWhitespace.buffer = true from hempty,
      if_true] at hok
    cases hok
    exact ⟨[], rfl⟩
  -- 23: array start, right bracket, handler throws
  · intro s0 s hnempty inp hrb e herr s' hok
    rw [tokenizeArrayStart.eq_def] at hok
    dsimp only at hok
    simp only [show ¬List.isEmpty s0.input.skipPastWhitespace.buffer = true from hnempty,
      show s0.input.skipPastWhitespace.takeLit litRBracket = some inp from hrb,
      herr] at hok
    simp at hok
  -- 24: array start, right bracket, ArrayEnd emitted
  · intro s0 s hnempty inp hrb b hb s' hok
    rw [tokenizeArrayStart.eq_def] at hok
    dsimp only at hok
    simp only [show ¬List.isEmpty s0.input.skipPastWhitespace.buffer = true from hnempty,
      show s0.input.skipPastWhitespace.takeLit litRBracket = some inp from hrb,
      hb] at hok
    simp at hok
    cases hok
    exact ⟨[.arrayEnd], by simp [buildSteps, hb]⟩
  -- 25: array start, value follows: recurse
  · intro s0 s hnempty hrbn ih s' hok
    rw [tokenizeArrayStart.eq_def] at hok
    dsimp only at hok
    simp only [show ¬List.isEmpty s0.input.skipPastWhitespace.buffer = true from hnempty,
      show s0.input.skipPastWhitespace.takeLit litRBracket = none from hrbn] at hok
    simp at hok
    exact ih s' hok

theorem tokenizeAfterArrayValue_fold :
    ∀ (s s' : TkState), tokenizeAfterArrayValue s = .ok s' → BuilderFold s s' := by
  intro s s' hok
  rw [tokenizeAfterArrayValue.eq_def] at hok
  dsimp only at hok
  split at hok
  · cases hok
    exact ⟨[], rfl⟩
  · rename_i t inp h1
    split at hok
    · split at hok
      · cases hok
      · rename_i b hb
        cases hok
        exact ⟨[.arrayEnd], by simp [buildSteps, hb]⟩
    · split at hok
      · obtain ⟨ts, hfold⟩ := valueSCC_fold.1 _ s' hok
        exact ⟨ts, hfold⟩
      · cases hok

theorem tokenizeAfterObjectKey_fold :
    ∀ (s s' : TkState), tokenizeAfterObjectKey s = .ok s' → BuilderFold s s' := by
  intro s s' hok
  rw [tokenizeAfterObjectKey.eq_def] at hok
  dsimp only at hok
  split at hok
  · cases hok
    exact ⟨[], rfl⟩
  · rename_i t inp h1
    split at hok
    · obtain ⟨ts, hfold⟩ := valueSCC_fold.1 _ s' hok
      exact ⟨ts, hfold⟩
    · cases hok

theorem tokenizeBeforeObjectKey_fold :
    ∀ (s s' : TkState), tokenizeBeforeObjectKey s = .ok s' → BuilderFold s s' := by
  intro s s' hok
  rw [tokenizeBeforeObjectKey.eq_def] at hok
  dsimp only at hok
  split at hok
  · cases hok
    exact ⟨[], rfl⟩
  · rename_i t inp h1
    split at hok
    · split at hok
      · cases hok
      · rename_i b hb
        obtain ⟨ts, hfold⟩ := stringSCC_fold.1 _ s' hok
        exact ⟨_, buildSteps_cons hb hfold⟩
    · cases hok

theorem tokenizeAfterObjectValue_fold :
    ∀ (s s' : TkState), tokenizeAfterObjectValue s = .ok s' → BuilderFold s s' := by
  intro s s' hok
  rw [tokenizeAfterObjectValue.eq_def] at hok
  dsimp only at hok
  split at hok
  · cases hok
    exact ⟨[], rfl⟩
  · rename_i t inp h1
    split at hok
    · split at hok
      · cases hok
      · rename_i b hb
        cases hok
        exact ⟨[.objectEnd], by simp [buildSteps, hb]⟩
    · split at hok
      · obtain ⟨ts, hfold⟩ := tokenizeBeforeObjectKey_fold _ s' hok
        exact ⟨ts, hfold⟩
      · cases hok

theorem tokenizeMore_fold :
    ∀ (s s' : TkState), tokenizeMore s = .ok s' → BuilderFold s s' := by
  intro s s' hok
  rw [tokenizeMore.eq_def] at hok
  split at hok
  · cases hok
    exact ⟨[], rfl⟩
  · exact valueSCC_fold.1 _ s' hok
  · exact stringSCC_fold.1 _ s' hok
  · exact valueSCC_fold.2 _ s' hok
  · exact tokenizeAfterArrayValue_fold _ s' hok
  · exact tokenizeObjectStart_fold _ s' hok
  · exact tokenizeAfterObjectKey_fold _ s' hok
  · exact tokenizeAfterObjectValue_fold _ s' hok
  · exact tokenizeBeforeObjectKey_fold _ s' hok

def frameOk : Frame → Bool
  | .initial => false
  | .inString _ => false
  | _ => true

def GoodFrames (st : List Frame) : Prop := ∀ f ∈ st, frameOk f = true

def WFStack (st : List Frame) : Prop :=
  st = [.initial] ∨ ((st.head? ≠ some Frame.initial) ∧ GoodFrames st.tail)

def GoodCbL (l : List CbEntry) : Prop :=
  ∀ e ∈ l, GoodFrames e.stackAtCall

def BInv (b : BState) : Prop := WFStack b.stack ∧ GoodCbL b.callbacks

theorem WFStack_nil : WFStack [] := Or.inr ⟨by simp, by simp [GoodFrames]⟩

theorem WFStack_cons {f : Frame} {rest : List Frame} (hf : f ≠ .initial)
    (hr : GoodFrames rest) : WFStack (f :: rest) :=
  Or.inr ⟨by simp [hf], by simpa using hr⟩

theorem GoodFrames_nil : GoodFrames [] := by simp [GoodFrames]

theorem GoodFrames_cons {f : Frame} {rest : List Frame} (hf : frameOk f = true)
    (hr : GoodFrames rest) : GoodFrames (f :: rest) := by
  intro g hg
  rcases List.mem_cons.mp hg with hg | hg
  · rw [hg]; exact hf
  · exact hr g hg

theorem GoodCbL_append {l : List CbEntry} {v : JsonValue} {st : List Frame}
    (hl : GoodCbL l) (hst : GoodFrames st) : GoodCbL (l ++ [⟨v, st⟩]) := by
  intro e he
  rcases List.mem_append.mp he with he | he
  · exact hl e he
  · simp at he
    rw [he]
    exact hst

theorem docb_BInv {v : JsonValue} {b : BState} (hst : GoodFrames b.stack)
    (hcb : GoodCbL b.callbacks) : GoodCbL (docb v b).callbacks := by
  unfold docb
  split
  · exact GoodCbL_append hcb hst
  · exact hcb

theorem handleValueToken_BInv {b b' : BState} {t : Token}
    (hb : BInv b) (h : handleValueToken b t = .ok b') : BInv b' := by
  obtain ⟨hwf, hcb⟩ := hb
  cases hst : b.stack with
  | nil => simp [handleValueToken, currentState, hst] at h
  | cons f rest =>
    have hrest : GoodFrames rest := by
      rcases hwf with h1 | ⟨_, h3⟩
      · rw [hst] at h1
        cases h1
        exact GoodFrames_nil
      · rw [hst] at h3
        simpa using h3
    cases f with
    | initial =>
        have hrnil : rest = [] := by
          rcases hwf with h1 | ⟨h2, _⟩
          · rw [hst] at h1
            exact (List.cons.injEq _ _ _ _ ▸ h1).2
          · rw [hst] at h2
            simp at h2
        subst hrnil
        by_cases hp : b.progressed <;> by_cases hcf : b.hasCb <;>
          cases t <;>
            simp [handleValueToken, currentState, hst, progressValue, docb, hp, hcf] at h <;>
            cases h <;>
            exact ⟨by first
                      | exact WFStack_nil
                      | exact WFStack_cons (by simp) GoodFrames_nil,
                   by first
                      | exact GoodCbL_append hcb GoodFrames_nil
                      | simpa using hcb⟩
    | inString acc =>
        simp [handleValueToken, currentState, hst] at h
    | inObjKey pk e =>
        simp [handleValueToken, currentState, hst] at h
    | inArray items =>
        by_cases hp : b.progressed <;> by_cases hcf : b.hasCb <;>
          cases t <;>
            simp [handleValueToken, currentState, hst, progressValue, docb, hp, hcf] at h <;>
            cases h <;>
            exact ⟨WFStack_cons (by simp) (by
                      first
                        | exact hrest
                        | exact GoodFrames_cons rfl hrest),
                   by first
                      | exact GoodCbL_append hcb (GoodFrames_cons rfl hrest)
                      | simpa using hcb⟩
    | inObjValue k e =>
        by_cases hp : b.progressed <;> by_cases hcf : b.hasCb <;>
          cases t <;>
            simp [handleValueToken, currentState, hst, progressValue, docb, hp, hcf] at h <;>
            cases h <;>
            exact ⟨WFStack_cons (by simp) (by
                      first
                        | exact hrest
                        | exact GoodFrames_cons rfl hrest),
                   by first
                      | exact GoodCbL_append hcb (GoodFrames_cons rfl hrest)
                      | simpa using hcb⟩

theorem handleStringStart_BInv {b b' : BState}
    (hb : BInv b) (h : handleStringStart b = .ok b') : BInv b' := by
  obtain ⟨hwf, hcb⟩ := hb
  cases hst : b.stack with
  | nil => simp [handleStringStart, currentState, hst] at h
  | cons f rest =>
    have hrest : f ≠ .initial → GoodFrames rest := by
      intro hf
      rcases hwf with h1 | ⟨_, h3⟩
      · rw [hst] at h1
        exact absurd (List.cons.injEq _ _ _ _ ▸ h1).1 hf
      · rw [hst] at h3
        simpa using h3
    cases f with
    | initial =>
        have hrnil : rest = [] := by
          rcases hwf with h1 | ⟨h2, _⟩
          · rw [hst] at h1
            exact (List.cons.injEq _ _ _ _ ▸ h1).2
          · rw [hst] at h2
            simp at h2
        subst hrnil
        by_cases hp : b.progressed <;>
          simp [handleStringStart, currentState, hst, progressValue, Frame.isObjKey, hp] at h <;>
          cases h <;>
          exact ⟨WFStack_cons (by simp) GoodFrames_nil, by simpa using hcb⟩
    | inString acc => simp [handleStringStart, currentState, hst] at h
    | inArray items =>
        by_cases hp : b.progressed <;>
          simp [handleStringStart, currentState, hst, progressValue, Frame.isObjKey, hp] at h <;>
          cases h <;>
          exact ⟨WFStack_cons (by simp)
                   (GoodFrames_cons rfl (hrest (by simp))),
                 by simpa using hcb⟩
    | inObjKey pk e =>
        by_cases hp : b.progressed <;>
          simp [handleStringStart, currentState, hst, progressValue, Frame.isObjKey, hp] at h <;>
          cases h <;>
          exact ⟨WFStack_cons (by simp)
                   (GoodFrames_cons rfl (hrest (by simp))),
                 by simpa using hcb⟩
    | inObjValue k e =>
        by_cases hp : b.progressed <;>
          simp [handleStringStart, currentState, hst, progressValue, Frame.isObjKey, hp] at h <;>
          cases h <;>
          exact ⟨WFStack_cons (by simp)
                   (GoodFrames_cons rfl (hrest (by simp))),
                 by simpa using hcb⟩

theorem handleStringMiddle_BInv {b b' : BState} {s : JStr}
    (hb : BInv b) (h : handleStringMiddle b s = .ok b') : BInv b' := by
  obtain ⟨hwf, hcb⟩ := hb
  cases hst : b.stack with
  | nil => simp [handleStringMiddle, currentState, hst] at h
  | cons f rest =>
    cases f with
    | inString acc =>
        have hrest : GoodFrames rest := by
          rcases hwf with h1 | ⟨_, h3⟩
          · rw [hst] at h1
            simp at h1
          · rw [hst] at h3
            simpa using h3
        cases rest with
        | nil =>
            by_cases hp : b.progressed <;>
              simp [handleStringMiddle, currentState, hst, updateStringParent, hp] at h <;>
              cases h <;>
              exact ⟨WFStack_cons (by simp) GoodFrames_nil, by simpa using hcb⟩
        | cons g rest' =>
            have hg : frameOk g = true := hrest g (by simp)
            have hrest' : GoodFrames rest' := by
              intro x hx
              exact hrest x (by simp [hx])
            cases g with
            | initial => simp [frameOk] at hg
            | inString acc2 => simp [frameOk] at hg
            | inArray items =>
                by_cases hp : b.progressed <;>
                  simp [handleStringMiddle, currentState, hst, updateStringParent,
                        Frame.isObjKey, hp] at h <;>
                  cases h <;>
                  exact ⟨WFStack_cons (by simp) (GoodFrames_cons rfl hrest'),
                         by simpa using hcb⟩
            | inObjKey pk e =>
                by_cases hp : b.progressed <;>
                  simp [handleStringMiddle, currentState, hst, updateStringParent,
                        Frame.isObjKey, hp] at h <;>
                  cases h <;>
                  exact ⟨WFStack_cons (by simp) (GoodFrames_cons rfl hrest'),
                         by simpa using hcb⟩
            | inObjValue k e =>
                by_cases hp : b.progressed <;>
                  simp [handleStringMiddle, currentState, hst, updateStringParent,
                        Frame.isObjKey, hp] at h <;>
                  cases h <;>
                  exact ⟨WFStack_cons (by simp) (GoodFrames_cons rfl hrest'),
                         by simpa using hcb⟩
    | initial =>
        simp [handleStringMiddle, currentState, hst, apply_ite BState.stack, ite_self] at h
    | inArray items =>
        simp [handleStringMiddle, currentState, hst, apply_ite BState.stack, ite_self] at h
    | inObjKey pk e =>
        simp [handleStringMiddle, currentState, hst, apply_ite BState.stack, ite_self] at h
    | inObjValue k e =>
        simp [handleStringMiddle, currentState, hst, apply_ite BState.stack, ite_self] at h

theorem handleStringEnd_BInv {b b' : BState}
    (hb : BInv b) (h : handleStringEnd b = .ok b') : BInv b' := by
  obtain ⟨hwf, hcb⟩ := hb
  cases hst : b.stack with
  | nil => simp [handleStringEnd, currentState, hst] at h
  | cons f rest =>
    cases f with
    | inString acc =>
        have hrest : GoodFrames rest := by
          rcases hwf with h1 | ⟨_, h3⟩
          · rw [hst] at h1
            simp at h1
          · rw [hst] at h3
            simpa using h3
        cases rest with
        | nil =>
            by_cases hcf : b.hasCb <;>
              simp [handleStringEnd, currentState, hst, updateStringParent, docb, hcf] at h <;>
              cases h <;>
              first
                | exact ⟨WFStack_nil, GoodCbL_append hcb GoodFrames_nil⟩
                | exact ⟨WFStack_nil, by simpa using hcb⟩
        | cons g rest' =>
            have hg : frameOk g = true := hrest g (by simp)
            have hrest' : GoodFrames rest' := by
              intro x hx
              exact hrest x (by simp [hx])
            cases g with
            | initial => simp [frameOk] at hg
            | inString acc2 => simp [frameOk] at hg
            | inArray items =>
                by_cases hcf : b.hasCb <;>
                  simp [handleStringEnd, currentState, hst, updateStringParent, docb, hcf] at h <;>
                  cases h <;>
                  first
                    | exact ⟨WFStack_cons (by simp) hrest',
                             GoodCbL_append hcb (GoodFrames_cons rfl hrest')⟩
                    | exact ⟨WFStack_cons (by simp) hrest', by simpa using hcb⟩
            | inObjValue k e =>
                by_cases hcf : b.hasCb <;>
                  simp [handleStringEnd, currentState, hst, updateStringParent, docb, hcf] at h <;>
                  cases h <;>
                  first
                    | exact ⟨WFStack_cons (by simp) hrest',
                             GoodCbL_append hcb (GoodFrames_cons rfl hrest')⟩
                    | exact ⟨WFStack_cons (by simp) hrest', by simpa using hcb⟩
            | inObjKey pk e =>
                simp [handleStringEnd, currentState, hst, updateStringParent] at h
                cases h
                exact ⟨WFStack_cons (by simp) hrest', by simpa using hcb⟩
    | initial => simp [handleStringEnd, currentState, hst] at h
    | inArray items => simp [handleStringEnd, currentState, hst] at h
    | inObjKey pk e => simp [handleStringEnd, currentState, hst] at h
    | inObjValue k e => simp [handleStringEnd, currentState, hst] at h

theorem handleArrayEnd_BInv {b b' : BState}
    (hb : BInv b) (h : handleArrayEnd b = .ok b') : BInv b' := by
  obtain ⟨hwf, hcb⟩ := hb
  cases hst : b.stack with
  | nil => simp [handleArrayEnd, currentState, hst] at h
  | cons f rest =>
    cases f with
    | inArray items =>
        have hrest : GoodFrames rest := by
          rcases hwf with h1 | ⟨_, h3⟩
          · rw [hst] at h1
            simp at h1
          · rw [hst] at h3
            simpa using h3
        cases rest with
        | nil =>
            by_cases hcf : b.hasCb <;>
              simp [handleArrayEnd, currentState, hst, writeBackOnPop, docb, hcf] at h <;>
              cases h <;>
              first
                | exact ⟨WFStack_nil, GoodCbL_append hcb GoodFrames_nil⟩
                | exact ⟨WFStack_nil, by simpa using hcb⟩
        | cons g rest' =>
            have hg : frameOk g = true := hrest g (by simp)
            have hrest' : GoodFrames rest' := by
              intro x hx
              exact hrest x (by simp [hx])
            cases g with
            | initial => simp [frameOk] at hg
            | inString acc2 => simp [frameOk] at hg
            | inArray items2 =>
                by_cases hcf : b.hasCb <;>
                  simp [handleArrayEnd, currentState, hst, writeBackOnPop, docb, hcf] at h <;>
                  cases h <;>
                  first
                    | exact ⟨WFStack_cons (by simp) hrest',
                             GoodCbL_append hcb (GoodFrames_cons rfl hrest')⟩
                    | exact ⟨WFStack_cons (by simp) hrest', by simpa using hcb⟩
            | inObjValue k e =>
                by_cases hcf : b.hasCb <;>
                  simp [handleArrayEnd, currentState, hst, writeBackOnPop, docb, hcf] at h <;>
                  cases h <;>
                  first
                    | exact ⟨WFStack_cons (by simp) hrest',
                             GoodCbL_append hcb (GoodFrames_cons rfl hrest')⟩
                    | exact ⟨WFStack_cons (by simp) hrest', by simpa using hcb⟩
            | inObjKey pk e =>
                cases pk with
                | none =>
                    by_cases hcf : b.hasCb <;>
                      simp [handleArrayEnd, currentState, hst, writeBackOnPop, docb, hcf] at h <;>
                      cases h <;>
                      first
                        | exact ⟨WFStack_cons (by simp) hrest',
                                 GoodCbL_append hcb (GoodFrames_cons rfl hrest')⟩
                        | exact ⟨WFStack_cons (by simp) hrest', by simpa using hcb⟩
                | some k =>
                    by_cases hcf : b.hasCb <;>
                      simp [handleArrayEnd, currentState, hst, writeBackOnPop, docb, hcf] at h <;>
                      cases h <;>
                      first
                        | exact ⟨WFStack_cons (by simp) hrest',
                                 GoodCbL_append hcb (GoodFrames_cons rfl hrest')⟩
                        | exact ⟨WFStack_cons (by simp) hrest', by simpa using hcb⟩
    | initial => simp [handleArrayEnd, currentState, hst] at h
    | inString acc => simp [handleArrayEnd, currentState, hst] at h
    | inObjKey pk e => simp [handleArrayEnd, currentState, hst] at h
    | inObjValue k e => simp [handleArrayEnd, currentState, hst] at h

theorem handleObjectEnd_BInv {b b' : BState}
    (hb : BInv b) (h : handleObjectEnd b = .ok b') : BInv b' := by
  obtain ⟨hwf, hcb⟩ := hb
  cases hst : b.stack with
  | nil => simp [handleObjectEnd, currentState, hst] at h
  | cons f rest =>
    have hrest : f ≠ .initial → GoodFrames rest := by
      intro hf
      rcases hwf with h1 | ⟨_, h3⟩
      · rw [hst] at h1
        exact absurd (List.cons.injEq _ _ _ _ ▸ h1).1 hf
      · rw [hst] at h3
        simpa using h3
    cases f with
    | inObjKey pk e =>
        have hrest' := hrest (by simp)
        cases rest with
        | nil =>
            by_cases hcf : b.hasCb <;>
              simp [handleObjectEnd, currentState, hst, writeBackOnPop, docb, hcf] at h <;>
              cases h <;>
              first
                | exact ⟨WFStack_nil, GoodCbL_append hcb GoodFrames_nil⟩
                | exact ⟨WFStack_nil, by simpa using hcb⟩
        | cons g rest2 =>
            have hg : frameOk g = true := hrest' g (by simp)
            have hrest2 : GoodFrames rest2 := by
              intro x hx
              exact hrest' x (by simp [hx])
            cases g with
            | initial => simp [frameOk] at hg
            | inString acc2 => simp [frameOk] at hg
            | inArray items2 =>
                by_cases hcf : b.hasCb <;>
                  simp [handleObjectEnd, currentState, hst, writeBackOnPop, docb, hcf] at h <;>
                  cases h <;>
                  first
                    | exact ⟨WFStack_cons (by simp) hrest2,
                             GoodCbL_append hcb (GoodFrames_cons rfl hrest2)⟩
                    | exact ⟨WFStack_cons (by simp) hrest2, by simpa using hcb⟩
            | inObjValue k2 e2 =>
                by_cases hcf : b.hasCb <;>
                  simp [handleObjectEnd, currentState, hst, writeBackOnPop, docb, hcf] at h <;>
                  cases h <;>
                  first
                    | exact ⟨WFStack_cons (by simp) hrest2,
                             GoodCbL_append hcb (GoodFrames_cons rfl hrest2)⟩
                    | exact ⟨WFStack_cons (by simp) hrest2, by simpa using hcb⟩
            | inObjKey pk2 e2 =>
                cases pk2 with
                | none =>
                    by_cases hcf : b.hasCb <;>
                      simp [handleObjectEnd, currentState, hst, writeBackOnPop, docb, hcf] at h <;>
                      cases h <;>
                      first
                        | exact ⟨WFStack_cons (by simp) hrest2,
                                 GoodCbL_append hcb (GoodFrames_cons rfl hrest2)⟩
                        | exact ⟨WFStack_cons (by simp) hrest2, by simpa using hcb⟩
                | some k2 =>
                    by_cases hcf : b.hasCb <;>
                      simp [handleObjectEnd, currentState, hst, writeBackOnPop, docb, hcf] at h <;>
                      cases h <;>
                      first
                        | exact ⟨WFStack_cons (by simp) hrest2,
                                 GoodCbL_append hcb (GoodFrames_cons rfl hrest2)⟩
                        | exact ⟨WFStack_cons (by simp) hrest2, by simpa using hcb⟩
    | inObjValue k e =>
        have hrest' := hrest (by simp)
        cases rest with
        | nil =>
            by_cases hcf : b.hasCb <;>
              simp [handleObjectEnd, currentState, hst, writeBackOnPop, docb, hcf] at h <;>
              cases h <;>
              first
                | exact ⟨WFStack_nil, GoodCbL_append hcb GoodFrames_nil⟩
                | exact ⟨WFStack_nil, by simpa using hcb⟩
        | cons g rest2 =>
            have hg : frameOk g = true := hrest' g (by simp)
            have hrest2 : GoodFrames rest2 := by
              intro x hx
              exact hrest' x (by simp [hx])
            cases g with
            | initial => simp [frameOk] at hg
            | inString acc2 => simp [frameOk] at hg
            | inArray items2 =>
                by_cases hcf : b.hasCb <;>
                  simp [handleObjectEnd, currentState, hst, writeBackOnPop, docb, hcf] at h <;>
                  cases h <;>
                  first
                    | exact ⟨WFStack_cons (by simp) hrest2,
                             GoodCbL_append hcb (GoodFrames_cons rfl hrest2)⟩
                    | exact ⟨WFStack_cons (by simp) hrest2, by simpa using hcb⟩
            | inObjValue k2 e2 =>
                by_cases hcf : b.hasCb <;>
                  simp [handleObjectEnd, currentState, hst, writeBackOnPop, docb, hcf] at h <;>
                  cases h <;>
                  first
                    | exact ⟨WFStack_cons (by simp) hrest2,
                             GoodCbL_append hcb (GoodFrames_cons rfl hrest2)⟩
                    | exact ⟨WFStack_cons (by simp) hrest2, by simpa using hcb⟩
            | inObjKey pk2 e2 =>
                cases pk2 with
                | none =>
                    by_cases hcf : b.hasCb <;>
                      simp [handleObjectEnd, currentState, hst, writeBackOnPop, docb, hcf] at h <;>
                      cases h <;>
                      first
                        | exact ⟨WFStack_cons (by simp) hrest2,
                                 GoodCbL_append hcb (GoodFrames_cons rfl hrest2)⟩
                        | exact ⟨WFStack_cons (by simp) hrest2, by simpa using hcb⟩
                | some k2 =>
                    by_cases hcf : b.hasCb <;>
                      simp [handleObjectEnd, currentState, hst, writeBackOnPop, docb, hcf] at h <;>
                      cases h <;>
                      first
                        | exact ⟨WFStack_cons (by simp) hrest2,
                                 GoodCbL_append hcb (GoodFrames_cons rfl hrest2)⟩
                        | exact ⟨WFStack_cons (by simp) hrest2, by simpa using hcb⟩
    | initial => simp [handleObjectEnd, currentState, hst] at h
    | inString acc => simp [handleObjectEnd, currentState, hst] at h
    | inArray items => simp [handleObjectEnd, currentState, hst] at h

theorem handleToken_BInv {b b' : BState} {t : Token}
    (hb : BInv b) (h : handleToken b t = .ok b') : BInv b' := by
  cases t with
  | tnull => exact handleValueToken_BInv hb (by rwa [handleToken] at h)
  | tbool v => exact handleValueToken_BInv hb (by rwa [handleToken] at h)
  | tnum s => exact handleValueToken_BInv hb (by rwa [handleToken] at h)
  | stringStart => exact handleStringStart_BInv hb (by rwa [handleToken] at h)
  | stringMiddle s => exact handleStringMiddle_BInv hb (by rwa [handleToken] at h)
  | stringEnd => exact handleStringEnd_BInv hb (by rwa [handleToken] at h)
  | arrayStart => exact handleValueToken_BInv hb (by rwa [handleToken] at h)
  | arrayEnd => exact handleArrayEnd_BInv hb (by rwa [handleToken] at h)
  | objectStart => exact handleValueToken_BInv hb (by rwa [handleToken] at h)
  | objectEnd => exact handleObjectEnd_BInv hb (by rwa [handleToken] at h)

theorem buildSteps_BInv {ts : List Token} {b b' : BState}
    (hb : BInv b) (h : buildSteps b ts = .ok b') : BInv b' := by
  induction ts generalizing b with
  | nil =>
      simp [buildSteps] at h
      rw [← h]
      exact hb
  | cons t ts ih =>
      rw [buildSteps] at h
      cases hh : handleToken b t with
      | error e => rw [hh] at h; cases h
      | ok b1 =>
          rw [hh] at h
          exact ih (handleToken_BInv hb hh) h

theorem BuilderFold_BInv {s s' : TkState}
    (hf : BuilderFold s s') (hb : BInv s.builder) : BInv s'.builder := by
  obtain ⟨ts, h⟩ := hf
  exact buildSteps_BInv hb h

theorem tokenizeMore_BInv {s s' : TkState}
    (h : tokenizeMore s = .ok s') (hb : BInv s.builder) : BInv s'.builder :=
  BuilderFold_BInv (tokenizeMore_fold s s' h) hb

theorem segmentsFromBottom_ok {st : List Frame} (h : GoodFrames st) :
    ∃ l, segmentsFromBottom st = .ok l := by
  induction st with
  | nil => exact ⟨[], rfl⟩
  | cons f rest ih =>
      have hf : frameOk f = true := h f (by simp)
      have hrest : GoodFrames rest := by
        intro x hx
        exact h x (by simp [hx])
      obtain ⟨l, hl⟩ := ih hrest
      cases f with
      | initial => simp [frameOk] at hf
      | inString acc => simp [frameOk] at hf
      | inArray items =>
          cases hres : segmentsFromBottom (Frame.inArray items :: rest) with
          | ok l2 => exact ⟨l2, rfl⟩
          | error e =>
              simp [segmentsFromBottom, segOfFrame, hl, Bind.bind, Except.bind,
                    Pure.pure, Except.pure] at hres
      | inObjKey pk e =>
          cases pk with
          | none =>
              cases hres : segmentsFromBottom (Frame.inObjKey none e :: rest) with
              | ok l2 => exact ⟨l2, rfl⟩
              | error e2 =>
                  simp [segmentsFromBottom, segOfFrame, hl, Bind.bind, Except.bind,
                        Pure.pure, Except.pure] at hres
          | some k =>
              cases hres : segmentsFromBottom (Frame.inObjKey (some k) e :: rest) with
              | ok l2 => exact ⟨l2, rfl⟩
              | error e2 =>
                  simp [segmentsFromBottom, segOfFrame, hl, Bind.bind, Except.bind,
                        Pure.pure, Except.pure] at hres
      | inObjValue k e =>
          cases hres : segmentsFromBottom (Frame.inObjValue k e :: rest) with
          | ok l2 => exact ⟨l2, rfl⟩
          | error e2 =>
              simp [segmentsFromBottom, segOfFrame, hl, Bind.bind, Except.bind,
                    Pure.pure, Except.pure] at hres

theorem segments_ok {st : List Frame} (h : GoodFrames st) :
    ∃ l, segments st = .ok l := by
  have : GoodFrames st.reverse := by
    intro x hx
    exact h x (by simpa using hx)
  obtain ⟨l, hl⟩ := segmentsFromBottom_ok this
  exact ⟨l, hl⟩

theorem pumpLoop_BInv {fuel start : Nat} {s s' : TkState}
    (h : pumpLoop fuel start s = .ok s') (hb : BInv s.builder) : BInv s'.builder := by
  induction fuel generalizing s with
  | zero => simp [pumpLoop] at h
  | succ fuel ih =>
      rw [pumpLoop] at h
      cases htm : tokenizeMore s with
      | error e =>
          simp only [htm] at h
          cases h
      | ok s1 =>
          have hb1 := tokenizeMore_BInv htm hb
          simp only [htm] at h
          split at h
          · exact ih h hb1
          · split at h
            · cases h
              exact hb1
            · split at h
              · split at h
                · cases h
                · cases h
                  exact hb1
              · split at h
                · cases h
                · exact ih h hb1

theorem pump_BInv {fuel : Nat} {s s' : TkState}
    (h : pump fuel s = .ok s') (hb : BInv s.builder) : BInv s'.builder :=
  pumpLoop_BInv h hb

theorem BInv_clearProgressed {b : BState} (hb : BInv b) :
    BInv { b with progressed := false } := hb

theorem nextLoop_BInv {fuel : Nat} {p : PState} {r : NextRes} {p' : PState}
    (h : nextLoop fuel p = .ok (r, p')) (hb : BInv p.tk.builder) :
    BInv p'.tk.builder := by
  induction fuel generalizing p with
  | zero => simp [nextLoop] at h
  | succ fuel ih =>
      rw [nextLoop] at h
      cases hpm : pump fuel { p.tk with builder := { p.tk.builder with progressed := false } } with
      | fuelOut =>
          simp only [hpm] at h
          cases h
      | failed e =>
          simp only [hpm] at h
          cases h
      | ok tk1 =>
          have hb1 : BInv tk1.builder := pump_BInv hpm (BInv_clearProgressed hb)
          simp only [hpm] at h
          split at h
          · cases h
          · split at h
            · cases h
              exact hb1
            · split at h
              · cases hpm2 : pump fuel tk1 with
                | fuelOut =>
                    simp only [hpm2] at h
                    cases h
                | failed e =>
                    simp only [hpm2] at h
                    cases h
                | ok tk2 =>
                    simp only [hpm2] at h
                    cases h
                    exact pump_BInv hpm2 hb1
              · exact ih h hb1

theorem parserNext_BInv {fuel : Nat} {p : PState} {r : NextRes} {p' : PState}
    (h : parserNext fuel p = .ok (r, p')) (hb : BInv p.tk.builder) :
    BInv p'.tk.builder := by
  rw [parserNext] at h
  split at h
  · cases h
    exact hb
  · exact nextLoop_BInv h hb

theorem pull_BInv {fuel : Nat} {v : VStream} (hb : BInv v.p.tk.builder) :
    BInv (pull fuel v).2.p.tk.builder := by
  rw [pull]
  split
  · exact hb
  · cases hpn : parserNext fuel v.p with
    | fuelOut => simp only [hpn]; exact hb
    | failed e => simp only [hpn]; exact hb
    | ok rp =>
        obtain ⟨r, p'⟩ := rp
        cases r with
        | yieldVal x => simp only [hpn]; exact parserNext_BInv hpn hb
        | doneRes => simp only [hpn]; exact parserNext_BInv hpn hb

theorem runLoop_BInv {fuel : Nat} {acc : List JsonValue} {v : VStream}
    (hb : BInv v.p.tk.builder) : BInv (runLoop fuel acc v).final.p.tk.builder := by
  induction fuel generalizing acc v with
  | zero => exact hb
  | succ fuel ih =>
      rw [runLoop]
      cases hp : pull fuel v with
      | mk res v' =>
          have hb' : BInv v'.p.tk.builder := by
            have := @pull_BInv fuel v hb
            rw [hp] at this
            exact this
          cases res with
          | yielded x => exact ih hb'
          | doneOut => exact hb'
          | errored e => exact hb'
          | fuelGone => exact hb'

theorem initBState_BInv {hasCb : Bool} : BInv (initBState hasCb) :=
  ⟨Or.inl rfl, by intro e he; simp [initBState] at he⟩

theorem run_BInv {chunks : List JStr} {hasCb : Bool} {fuel : Nat} :
    BInv (run chunks hasCb fuel).final.p.tk.builder :=
  runLoop_BInv initBState_BInv

/-- **C10.**  Whenever the builder synchronously invokes the completion
callback, every frame on the builder state stack is `InArray`,
`InObjectExpectingKey` or `InObjectExpectingValue` (`frameOk`); hence
`CompleteValueInfo.segments()`'s error branch for `Initial` and `InString`
frames is unreachable on a callback's recorded stack.  Stated at the
builder level (after any token sequence accepted from the initial builder
state, every recorded callback stack is good and `segments` succeeds on
it) and at the whole-run level (any chunk stream, any fuel). -/
theorem c10_callback_stack_frames :
    (∀ (hasCb : Bool) (ts : List Token) (b' : BState),
        buildSteps (initBState hasCb) ts = .ok b' →
        ∀ e ∈ b'.callbacks,
          (∀ f ∈ e.stackAtCall, frameOk f = true) ∧
          ∃ l, segments e.stackAtCall = .ok l) ∧
    (∀ (chunks : List JStr) (hasCb : Bool) (fuel : Nat),
        ∀ e ∈ (run chunks hasCb fuel).final.p.tk.builder.callbacks,
          (∀ f ∈ e.stackAtCall, frameOk f = true) ∧
          ∃ l, segments e.stackAtCall = .ok l) := by
  constructor
  · intro hasCb ts b' hok e he
    have hb := buildSteps_BInv initBState_BInv hok
    have hg : GoodFrames e.stackAtCall := hb.2 e he
    exact ⟨hg, segments_ok hg⟩
  · intro chunks hasCb fuel e he
    have hb := @run_BInv chunks hasCb fuel
    have hg : GoodFrames e.stackAtCall := hb.2 e he
    exact ⟨hg, segments_ok hg⟩

/-- Witness for C10 at the concrete parse of `"[1]"` with a callback: the
first recorded callback (for the completed `1`) has stack
`[InArray [1]]`, whose frames are all good and whose `segments` call
succeeds. -/
theorem c10_callback_stack_frames_witness :
    (∀ f ∈ (⟨JsonValue.num (jstr "1"),
             [Frame.inArray [JsonValue.num (jstr "1")]]⟩ : CbEntry).stackAtCall,
       frameOk f = true) ∧
    ∃ l, segments (⟨JsonValue.num (jstr "1"),
             [Frame.inArray [JsonValue.num (jstr "1")]]⟩ : CbEntry).stackAtCall = .ok l := by
  have hc : (run [jstr "[1]"] true 50).final.p.tk.builder.callbacks =
      [⟨JsonValue.num (jstr "1"), [Frame.inArray [JsonValue.num (jstr "1")]]⟩,
       ⟨JsonValue.arr [JsonValue.num (jstr "1")], []⟩] := by
    with_unfolding_all rfl
  have hmem : (⟨JsonValue.num (jstr "1"),
      [Frame.inArray [JsonValue.num (jstr "1")]]⟩ : CbEntry) ∈
      (run [jstr "[1]"] true 50).final.p.tk.builder.callbacks := by
    rw [hc]
    exact List.mem_cons_self _ _
  exact c10_callback_stack_frames.2 [jstr "[1]"] true 50 _ hmem

theorem handleValueToken_progressed {b b' : BState} {t : Token}
    (h : handleValueToken b t = .ok b') : b'.progressed = true := by
  cases hst : b.stack with
  | nil => simp [handleValueToken, currentState, hst] at h
  | cons f rest =>
    cases f with
    | initial =>
        by_cases hp : b.progressed = true <;>
          cases t <;>
            simp [handleValueToken, currentState, hst, progressValue, docb, hp] at h <;>
            (try split at h) <;>
            cases h <;>
            first
              | rfl
              | simp [hp]
              | simp [hp, apply_ite BState.progressed]
    | inString acc => simp [handleValueToken, currentState, hst] at h
    | inObjKey pk e => simp [handleValueToken, currentState, hst] at h
    | inArray items =>
        by_cases hp : b.progressed = true <;>
          cases t <;>
            simp [handleValueToken, currentState, hst, progressValue, docb, hp] at h <;>
            (try split at h) <;>
            cases h <;>
            first
              | rfl
              | simp [hp]
              | simp [hp, apply_ite BState.progressed]
    | inObjValue k e =>
        by_cases hp : b.progressed = true <;>
          cases t <;>
            simp [handleValueToken, currentState, hst, progressValue, docb, hp] at h <;>
            (try split at h) <;>
            cases h <;>
            first
              | rfl
              | simp [hp]
              | simp [hp, apply_ite BState.progressed]

theorem handleStringStart_progressed {b b' : BState}
    (h : handleStringStart b = .ok b') :
    b'.progressed =
      if (b.stack.head?).elim false Frame.isObjKey then b.progressed else true := by
  cases hst : b.stack with
  | nil => simp [handleStringStart, currentState, hst] at h
  | cons f rest =>
    cases f with
    | initial =>
        by_cases hp : b.progressed = true <;>
          simp [handleStringStart, currentState, hst, progressValue, Frame.isObjKey, hp] at h <;>
          cases h <;>
          first
            | simp [hst, Frame.isObjKey, hp]
            | simp [hst, Frame.isObjKey, hp, apply_ite BState.progressed]
            | rfl
    | inString acc => simp [handleStringStart, currentState, hst] at h
    | inArray items =>
        by_cases hp : b.progressed = true <;>
          simp [handleStringStart, currentState, hst, progressValue, Frame.isObjKey, hp] at h <;>
          cases h <;>
          first
            | simp [hst, Frame.isObjKey, hp]
            | simp [hst, Frame.isObjKey, hp, apply_ite BState.progressed]
            | rfl
    | inObjKey pk e =>
        by_cases hp : b.progressed = true <;>
          simp [handleStringStart, currentState, hst, progressValue, Frame.isObjKey, hp] at h <;>
          cases h <;>
          first
            | simp [hst, Frame.isObjKey, hp]
            | simp [hst, Frame.isObjKey, hp, apply_ite BState.progressed]
            | rfl
    | inObjValue k e =>
        by_cases hp : b.progressed = true <;>
          simp [handleStringStart, currentState, hst, progressValue, Frame.isObjKey, hp] at h <;>
          cases h <;>
          first
            | simp [hst, Frame.isObjKey, hp]
            | simp [hst, Frame.isObjKey, hp, apply_ite BState.progressed]
            | rfl

theorem handleStringMiddle_progressed {b b' : BState} {s : JStr}
    (h : handleStringMiddle b s = .ok b') :
    b'.progressed =
      if (b.stack[1]?).elim false Frame.isObjKey then b.progressed else true := by
  cases hst : b.stack with
  | nil => simp [handleStringMiddle, currentState, hst] at h
  | cons f rest =>
    cases f with
    | inString acc =>
        cases rest with
        | nil =>
            by_cases hp : b.progressed = true <;>
              simp [handleStringMiddle, currentState, hst, updateStringParent, hp] at h <;>
              cases h <;>
              simp [hst, hp]
        | cons g rest' =>
            cases g with
            | initial =>
                simp [handleStringMiddle, currentState, hst, updateStringParent,
                      apply_ite BState.stack, ite_self] at h
            | inString acc2 =>
                simp [handleStringMiddle, currentState, hst, updateStringParent,
                      apply_ite BState.stack, ite_self] at h
            | inArray items =>
                by_cases hp : b.progressed = true <;>
                  simp [handleStringMiddle, currentState, hst, updateStringParent,
                        Frame.isObjKey, hp] at h <;>
                  cases h <;>
                  simp [hst, Frame.isObjKey, hp]
            | inObjKey pk e =>
                by_cases hp : b.progressed = true <;>
                  simp [handleStringMiddle, currentState, hst, updateStringParent,
                        Frame.isObjKey, hp] at h <;>
                  cases h <;>
                  simp [hst, Frame.isObjKey, hp]
            | inObjValue k e =>
                by_cases hp : b.progressed = true <;>
                  simp [handleStringMiddle, currentState, hst, updateStringParent,
                        Frame.isObjKey, hp] at h <;>
                  cases h <;>
                  simp [hst, Frame.isObjKey, hp]
    | initial =>
        simp [handleStringMiddle, currentState, hst, apply_ite BState.stack, ite_self] at h
    | inArray items =>
        simp [handleStringMiddle, currentState, hst, apply_ite BState.stack, ite_self] at h
    | inObjKey pk e =>
        simp [handleStringMiddle, currentState, hst, apply_ite BState.stack, ite_self] at h
    | inObjValue k e =>
        simp [handleStringMiddle, currentState, hst, apply_ite BState.stack, ite_self] at h

theorem handleStringEnd_progressed {b b' : BState}
    (h : handleStringEnd b = .ok b') : b'.progressed = b.progressed := by
  cases hst : b.stack with
  | nil => simp [handleStringEnd, currentState, hst] at h
  | cons f rest =>
    cases f with
    | inString acc =>
        cases rest with
        | nil =>
            by_cases hcf : b.hasCb <;>
              simp [handleStringEnd, currentState, hst, updateStringParent, docb, hcf] at h <;>
              cases h <;>
              rfl
        | cons g rest' =>
            cases g <;>
              by_cases hcf : b.hasCb <;>
                simp [handleStringEnd, currentState, hst, updateStringParent, docb, hcf] at h <;>
                cases h <;>
                rfl
    | initial => simp [handleStringEnd, currentState, hst] at h
    | inArray items => simp [handleStringEnd, currentState, hst] at h
    | inObjKey pk e => simp [handleStringEnd, currentState, hst] at h
    | inObjValue k e => simp [handleStringEnd, currentState, hst] at h

theorem handleArrayEnd_progressed {b b' : BState}
    (h : handleArrayEnd b = .ok b') : b'.progressed = b.progressed := by
  cases hst : b.stack with
  | nil => simp [handleArrayEnd, currentState, hst] at h
  | cons f rest =>
    cases f with
    | inArray items =>
        cases rest with
        | nil =>
            by_cases hcf : b.hasCb <;>
              simp [handleArrayEnd, currentState, hst, writeBackOnPop, docb, hcf] at h <;>
              cases h <;>
              rfl
        | cons g rest' =>
            cases g with
            | inObjKey pk e =>
                cases pk <;>
                  by_cases hcf : b.hasCb <;>
                    simp [handleArrayEnd, currentState, hst, writeBackOnPop, docb, hcf] at h <;>
                    cases h <;>
                    rfl
            | _ =>
                by_cases hcf : b.hasCb <;>
                  simp [handleArrayEnd, currentState, hst, writeBackOnPop, docb, hcf] at h <;>
                  cases h <;>
                  rfl
    | initial => simp [handleArrayEnd, currentState, hst] at h
    | inString acc => simp [handleArrayEnd, currentState, hst] at h
    | inObjKey pk e => simp [handleArrayEnd, currentState, hst] at h
    | inObjValue k e => simp [handleArrayEnd, currentState, hst] at h

theorem handleObjectEnd_progressed {b b' : BState}
    (h : handleObjectEnd b = .ok b') : b'.progressed = b.progressed := by
  cases hst : b.stack with
  | nil => simp [handleObjectEnd, currentState, hst] at h
  | cons f rest =>
    cases f with
    | inObjKey pk e =>
        cases rest with
        | nil =>
            by_cases hcf : b.hasCb <;>
              simp [handleObjectEnd, currentState, hst, writeBackOnPop, docb, hcf] at h <;>
              cases h <;>
              rfl
        | cons g rest' =>
            cases g with
            | inObjKey pk2 e2 =>
                cases pk2 <;>
                  by_cases hcf : b.hasCb <;>
                    simp [handleObjectEnd, currentState, hst, writeBackOnPop, docb, hcf] at h <;>
                    cases h <;>
                    rfl
            | _ =>
                by_cases hcf : b.hasCb <;>
                  simp [handleObjectEnd, currentState, hst, writeBackOnPop, docb, hcf] at h <;>
                  cases h <;>
                  rfl
    | inObjValue k e =>
        cases rest with
        | nil =>
            by_cases hcf : b.hasCb <;>
              simp [handleObjectEnd, currentState, hst, writeBackOnPop, docb, hcf] at h <;>
              cases h <;>
              rfl
        | cons g rest' =>
            cases g with
            | inObjKey pk2 e2 =>
                cases pk2 <;>
                  by_cases hcf : b.hasCb <;>
                    simp [handleObjectEnd, currentState, hst, writeBackOnPop, docb, hcf] at h <;>
                    cases h <;>
                    rfl
            | _ =>
                by_cases hcf : b.hasCb <;>
                  simp [handleObjectEnd, currentState, hst, writeBackOnPop, docb, hcf] at h <;>
                  cases h <;>
                  rfl
    | initial => simp [handleObjectEnd, currentState, hst] at h
    | inString acc => simp [handleObjectEnd, currentState, hst] at h
    | inArray items => simp [handleObjectEnd, currentState, hst] at h

theorem nextLoop_step_shape {fuel : Nat} {p : PState} {tk1 : TkState} {v : JsonValue}
    (hpump : pump fuel { p.tk with builder := { p.tk.builder with progressed := false } } = .ok tk1)
    (hcv : currentValue tk1.builder = some v) :
    (tk1.builder.progressed = true →
       nextLoop (fuel + 1) p = .ok (.yieldVal v, { p with tk := tk1 })) ∧
    (tk1.builder.progressed = false →
       nextLoop (fuel + 1) p =
         (if tk1.builder.stack.isEmpty then
            (match pump fuel tk1 with
             | .fuelOut => Res.fuelOut
             | .failed e => Res.failed e
             | .ok tk2 => Res.ok (.doneRes, { tk := tk2, finished := true }))
          else nextLoop fuel { p with tk := tk1 })) := by
  constructor
  · intro hprog
    rw [nextLoop]
    simp only [hpump, hcv, hprog, if_true]
  · intro hprog
    rw [nextLoop]
    simp only [hpump, hcv, hprog, Bool.false_eq_true, if_false]

/-- **C6.**  The builder's `progressed` flag is set by every successful
`Null`, `Boolean`, `Number`, `ArrayStart` and `ObjectStart` token; by a
`StringStart` token unless the current top frame is `InObjectExpectingKey`
(in which case it is left as it was); by a `StringMiddle` token unless the
frame below the top `InString` frame — the source's `stateStack.at(-2)`,
`stack[1]?` in this top-first model — is `InObjectExpectingKey`; and is
never set (left unchanged) by `StringEnd`, `ArrayEnd` and `ObjectEnd`
tokens.  Finally, the driver yields a value right after a pump if and only
if `progressed` is then true: when the pump returns with `progressed`
true, `Parser.next` resolves by yielding the current value; when it
returns with `progressed` false, the iteration yields nothing — it either
finishes (empty builder stack, after the end-of-content pump) or loops to
pump again. -/
theorem c6_progressed_discipline :
    (∀ (b b' : BState), handleToken b .tnull = .ok b' → b'.progressed = true) ∧
    (∀ (b b' : BState) (v : Bool), handleToken b (.tbool v) = .ok b' → b'.progressed = true) ∧
    (∀ (b b' : BState) (s : JStr), handleToken b (.tnum s) = .ok b' → b'.progressed = true) ∧
    (∀ (b b' : BState), handleToken b .arrayStart = .ok b' → b'.progressed = true) ∧
    (∀ (b b' : BState), handleToken b .objectStart = .ok b' → b'.progressed = true) ∧
    (∀ (b b' : BState), handleToken b .stringStart = .ok b' →
       b'.progressed =
         if (b.stack.head?).elim false Frame.isObjKey then b.progressed else true) ∧
    (∀ (b b' : BState) (s : JStr), handleToken b (.stringMiddle s) = .ok b' →
       b'.progressed =
         if (b.stack[1]?).elim false Frame.isObjKey then b.progressed else true) ∧
    (∀ (b b' : BState), handleToken b .stringEnd = .ok b' →
       b'.progressed = b.progressed) ∧
    (∀ (b b' : BState), handleToken b .arrayEnd = .ok b' →
       b'.progressed = b.progressed) ∧
    (∀ (b b' : BState), handleToken b .objectEnd = .ok b' →
       b'.progressed = b.progressed) ∧
    (∀ (fuel : Nat) (p : PState) (tk1 : TkState) (v : JsonValue),
       pump fuel { p.tk with builder := { p.tk.builder with progressed := false } } = .ok tk1 →
       currentValue tk1.builder = some v →
       (tk1.builder.progressed = true →
          nextLoop (fuel + 1) p = .ok (.yieldVal v, { p with tk := tk1 })) ∧
       (tk1.builder.progressed = false →
          nextLoop (fuel + 1) p =
            (if tk1.builder.stack.isEmpty then
               (match pump fuel tk1 with
                | .fuelOut => Res.fuelOut
                | .failed e => Res.failed e
                | .ok tk2 => Res.ok (.doneRes, { tk := tk2, finished := true }))
             else nextLoop fuel { p with tk := tk1 }))) := by
  refine ⟨?_, ?_, ?_, ?_, ?_, ?_, ?_, ?_, ?_, ?_, ?_⟩
  · intro b b' h
    exact handleValueToken_progressed (by rwa [handleToken] at h)
  · intro b b' v h
    exact handleValueToken_progressed (by rwa [handleToken] at h)
  · intro b b' s h
    exact handleValueToken_progressed (by rwa [handleToken] at h)
  · intro b b' h
    exact handleValueToken_progressed (by rwa [handleToken] at h)
  · intro b b' h
    exact handleValueToken_progressed (by rwa [handleToken] at h)
  · intro b b' h
    exact handleStringStart_progressed (by rwa [handleToken] at h)
  · intro b b' s h
    exact handleStringMiddle_progressed (by rwa [handleToken] at h)
  · intro b b' h
    exact handleStringEnd_progressed (by rwa [handleToken] at h)
  · intro b b' h
    exact handleArrayEnd_progressed (by rwa [handleToken] at h)
  · intro b b' h
    exact handleObjectEnd_progressed (by rwa [handleToken] at h)
  · intro fuel p tk1 v hpump hcv
    exact nextLoop_step_shape hpump hcv

/-- Witness for C6: a `Null` token handled from the fresh builder state
leaves `progressed` set. -/
theorem c6_progressed_discipline_witness :
    (BState.mk [] (some .null) true false []).progressed = true := by
  have h : handleToken (initBState false) .tnull =
      .ok (BState.mk [] (some .null) true false []) := by
    with_unfolding_all rfl
  exact c6_progressed_discipline.1 (initBState false) _ h

/-! ## The refinement order on emitted values (spec properties P1-P5)

`Grows v w` captures one or more growth steps of the in-progress tree:
scalars are final, strings extend on the right, arrays grow by extending
existing elements pointwise and appending new ones, objects keep their
entries in insertion order (keys unchanged, values growing) and append new
entries at the end.  `GrowsList` and `GrowsEntries` are its pointwise
liftings to element lists and entry lists. -/
mutual
inductive Grows : JsonValue → JsonValue → Prop where
  | null : Grows .null .null
  | bool (b : Bool) : Grows (.bool b) (.bool b)
  | num (s : JStr) : Grows (.num s) (.num s)
  | str {s t : JStr} : s <+: t → Grows (.str s) (.str t)
  | arr {a b c : List JsonValue} :
      GrowsList a b → Grows (.arr a) (.arr (b ++ c))
  | obj {e f g : List (JStr × JsonValue)} :
      GrowsEntries e f → Grows (.obj e) (.obj (f ++ g))

inductive GrowsList : List JsonValue → List JsonValue → Prop where
  | nil : GrowsList [] []
  | cons {x y : JsonValue} {xs ys : List JsonValue} :
      Grows x y → GrowsList xs ys → GrowsList (x :: xs) (y :: ys)

inductive GrowsEntries :
    List (JStr × JsonValue) → List (JStr × JsonValue) → Prop where
  | nil : GrowsEntries [] []
  | cons {k : JStr} {v w : JsonValue} {es fs : List (JStr × JsonValue)} :
      Grows v w → GrowsEntries es fs → GrowsEntries ((k, v) :: es) ((k, w) :: fs)
end

/-- The value the consumer observes through `toplevelValue` (defaulting the
pre-first-value `none` to `null`; every state this development applies it
to has a defined value). -/
def obsVal (b : BState) : JsonValue := (currentValue b).getD .null

/-- An `InObjectExpectingValue` frame's key is not yet among its entries
(true in every reachable state of a run that completes no duplicate
key). -/
def frameFresh : Frame → Bool
  | .inObjValue k e => (e.find? (fun p => p.1 = k)).isNone
  | _ => true

/-- The frame directly above an `InObjectExpectingValue` frame is always the
`InString` of the pending value (value containers re-file the parent as
`InObjectExpectingKey` before pushing). -/
def aboveOk : Frame → Frame → Bool
  | f, .inObjValue _ _ => match f with | .inString _ => true | _ => false
  | _, _ => true

def shapeOk : List Frame → Bool
  | [] => true
  | [_] => true
  | f :: g :: rest => aboveOk f g && shapeOk (g :: rest)

/-- The state invariant for value growth: no `Initial` on top (the first
value token has been consumed), only container frames below the top,
pending object values at fresh keys, and the `aboveOk` stack shape. -/
def GInv (b : BState) : Prop :=
  b.stack.head? ≠ some Frame.initial ∧
  GoodFrames b.stack.tail ∧
  (∀ f ∈ b.stack, frameFresh f = true) ∧
  shapeOk b.stack = true

/-- The step condition under which growth holds: a `StringEnd` completing
an object key requires the key to be fresh (no duplicate key). -/
def freshStepOk (b : BState) : Token → Bool
  | .stringEnd =>
      match b.stack with
      | .inString acc :: .inObjKey _ e :: _ => (e.find? (fun p => p.1 = acc)).isNone
      | _ => true
  | _ => true

/-- `freshStepOk` along a whole token sequence. -/
def freshAlong (b : BState) : List Token → Bool
  | [] => true
  | t :: ts =>
      freshStepOk b t &&
        (match handleToken b t with
         | .error _ => true
         | .ok b1 => freshAlong b1 ts)

theorem setEntry_fresh_append {e : List (JStr × JsonValue)} {k : JStr} {v : JsonValue}
    (h : (e.find? (fun p => p.1 = k)).isNone) : setEntry e k v = e ++ [(k, v)] := by
  induction e with
  | nil => rfl
  | cons p rest ih =>
      rw [List.find?_cons] at h
      by_cases hk : p.1 = k
      · simp [hk] at h
      · have hdec : (decide (p.1 = k)) = false := by simpa using hk
        rw [hdec] at h
        cases p with
        | mk k' v' =>
            simp only [setEntry, List.cons_append]
            rw [if_neg (by simpa using hk)]
            rw [ih h]

theorem GrowsList_refl_mem {l : List JsonValue}
    (h : ∀ x ∈ l, Grows x x) : GrowsList l l := by
  induction l with
  | nil => exact .nil
  | cons x xs ih =>
      exact .cons (h x (by simp)) (ih (fun y hy => h y (by simp [hy])))

theorem GrowsEntries_refl_mem {l : List (JStr × JsonValue)}
    (h : ∀ p ∈ l, Grows p.2 p.2) : GrowsEntries l l := by
  induction l with
  | nil => exact .nil
  | cons p ps ih =>
      cases p with
      | mk k v =>
          exact .cons (h (k, v) (by simp))
            (ih (fun q hq => h q (by simp [hq])))

theorem Grows_refl : ∀ (v : JsonValue), Grows v v := by
  have main : ∀ (n : Nat) (v : JsonValue), sizeOf v ≤ n → Grows v v := by
    intro n
    induction n with
    | zero =>
        intro v h
        cases v <;> simp at h
    | succ n ih =>
        intro v h
        cases v with
        | null => exact .null
        | bool b => exact .bool b
        | num s => exact .num s
        | str s => exact .str (List.prefix_refl s)
        | arr items =>
            have hf : GrowsList items items := by
              refine GrowsList_refl_mem (fun x hx => ih x ?_)
              have hlt := List.sizeOf_lt_of_mem hx
              simp only [JsonValue.arr.sizeOf_spec] at h
              omega
            have h2 := @Grows.arr items items [] hf
            simpa using h2
        | obj e =>
            have hf : GrowsEntries e e := by
              refine GrowsEntries_refl_mem (fun p hp => ih p.2 ?_)
              have hlt := List.sizeOf_lt_of_mem hp
              have hlt2 : sizeOf p.2 < sizeOf p := by
                cases p with
                | mk a bb =>
                    first
                      | (simp
                         omega)
                      | simp
              simp only [JsonValue.obj.sizeOf_spec] at h
              omega
            have h2 := @Grows.obj e e [] hf
            simpa using h2
  exact fun v => main (sizeOf v) v (Nat.le_refl _)

theorem GrowsList_append_split {b c d : List JsonValue}
    (h : GrowsList (b ++ c) d) :
    ∃ d1 d2, d = d1 ++ d2 ∧ GrowsList b d1 ∧ GrowsList c d2 := by
  induction b generalizing d with
  | nil => exact ⟨[], d, rfl, .nil, h⟩
  | cons x b' ih =>
      cases h with
      | cons hxy hrest =>
          obtain ⟨d1, d2, hd, h1, h2⟩ := ih hrest
          exact ⟨_ :: d1, d2, by rw [hd]; rfl, .cons hxy h1, h2⟩

theorem GrowsEntries_append_split {b c d : List (JStr × JsonValue)}
    (h : GrowsEntries (b ++ c) d) :
    ∃ d1 d2, d = d1 ++ d2 ∧ GrowsEntries b d1 ∧ GrowsEntries c d2 := by
  induction b generalizing d with
  | nil => exact ⟨[], d, rfl, .nil, h⟩
  | cons p b' ih =>
      cases p with
      | mk k v =>
          cases h with
          | cons hxy hrest =>
              obtain ⟨d1, d2, hd, h1, h2⟩ := ih hrest
              exact ⟨_ :: d1, d2, by rw [hd]; rfl, .cons hxy h1, h2⟩

theorem GrowsList_compose_mem {a : List JsonValue} : ∀ {b c : List JsonValue},
    (∀ x ∈ a, ∀ y z, Grows x y → Grows y z → Grows x z) →
    GrowsList a b → GrowsList b c → GrowsList a c := by
  induction a with
  | nil =>
      intro b c hmem hab hbc
      cases hab
      cases hbc
      exact .nil
  | cons x a' ih =>
      intro b c hmem hab hbc
      cases hab with
      | cons hxy hab' =>
          cases hbc with
          | cons hyz hbc' =>
              exact .cons (hmem _ (by simp) _ _ hxy hyz)
                (ih (fun z hz => hmem z (by simp [hz])) hab' hbc')

theorem GrowsEntries_compose_mem {a : List (JStr × JsonValue)} :
    ∀ {b c : List (JStr × JsonValue)},
    (∀ p ∈ a, ∀ y z, Grows p.2 y → Grows y z → Grows p.2 z) →
    GrowsEntries a b → GrowsEntries b c → GrowsEntries a c := by
  induction a with
  | nil =>
      intro b c hmem hab hbc
      cases hab
      cases hbc
      exact .nil
  | cons p a' ih =>
      intro b c hmem hab hbc
      cases p with
      | mk k v =>
          cases hab with
          | cons hxy hab' =>
              cases hbc with
              | cons hyz hbc' =>
                  exact .cons (hmem (k, v) (by simp) _ _ hxy hyz)
                    (ih (fun q hq => hmem q (by simp [hq])) hab' hbc')

theorem Grows_trans : ∀ {u v w : JsonValue}, Grows u v → Grows v w → Grows u w := by
  have main : ∀ (n : Nat) (u v w : JsonValue), sizeOf u ≤ n →
      Grows u v → Grows v w → Grows u w := by
    intro n
    induction n with
    | zero =>
        intro u v w h
        cases u <;> simp at h
    | succ n ih =>
        intro u v w hs huv hvw
        cases huv with
        | null => exact hvw
        | bool b => exact hvw
        | num s => exact hvw
        | str hpre =>
            cases hvw with
            | str hpre2 => exact .str (hpre.trans hpre2)
        | arr hab =>
            rename_i a b c
            cases hvw with
            | arr hbd =>
                rename_i d e2
                obtain ⟨d1, d2, hd, h1, h2⟩ := GrowsList_append_split hbd
                have hsz : ∀ x ∈ a, ∀ y z, Grows x y → Grows y z → Grows x z := by
                  intro x hx y z h1' h2'
                  refine ih x y z ?_ h1' h2'
                  have hlt := List.sizeOf_lt_of_mem hx
                  simp only [JsonValue.arr.sizeOf_spec] at hs
                  omega
                have had1 : GrowsList a d1 := GrowsList_compose_mem hsz hab h1
                have h3 := @Grows.arr a d1 (d2 ++ e2) had1
                rw [hd, List.append_assoc]
                exact h3
        | obj heb =>
            rename_i e f g
            cases hvw with
            | obj hfd =>
                rename_i d g2
                obtain ⟨d1, d2, hd, h1, h2⟩ := GrowsEntries_append_split hfd
                have hsz : ∀ p ∈ e, ∀ y z, Grows p.2 y → Grows y z → Grows p.2 z := by
                  intro p hp y z h1' h2'
                  refine ih p.2 y z ?_ h1' h2'
                  have hlt := List.sizeOf_lt_of_mem hp
                  have hlt2 : sizeOf p.2 < sizeOf p := by
                    cases p with
                    | mk a bb =>
                        first
                          | (simp
                             omega)
                          | simp
                  simp only [JsonValue.obj.sizeOf_spec] at hs
                  omega
                have had1 : GrowsEntries e d1 := GrowsEntries_compose_mem hsz heb h1
                have h3 := @Grows.obj e d1 (d2 ++ g2) had1
                rw [hd, List.append_assoc]
                exact h3
  exact fun {u v w} h1 h2 => main (sizeOf u) u v w (Nat.le_refl _) h1 h2

theorem GrowsList_refl (l : List JsonValue) : GrowsList l l :=
  GrowsList_refl_mem (fun x _ => Grows_refl x)

theorem GrowsEntries_refl (l : List (JStr × JsonValue)) : GrowsEntries l l :=
  GrowsEntries_refl_mem (fun p _ => Grows_refl p.2)

theorem GrowsList_snoc_grow {l : List JsonValue} {x y : JsonValue}
    (h : Grows x y) : GrowsList (l ++ [x]) (l ++ [y]) := by
  induction l with
  | nil => exact .cons h .nil
  | cons z zs ih => exact .cons (Grows_refl z) ih

theorem Grows_arr_snoc (items : List JsonValue) (v : JsonValue) :
    Grows (.arr items) (.arr (items ++ [v])) :=
  @Grows.arr items items [v] (GrowsList_refl items)

theorem Grows_obj_snoc (e : List (JStr × JsonValue)) (k : JStr) (v : JsonValue) :
    Grows (.obj e) (.obj (e ++ [(k, v)])) :=
  @Grows.obj e e [(k, v)] (GrowsEntries_refl e)

theorem setEntry_align {e : List (JStr × JsonValue)} {k : JStr} {x y : JsonValue}
    (h : Grows x y) : GrowsEntries (setEntry e k x) (setEntry e k y) := by
  induction e with
  | nil => exact .cons h .nil
  | cons p rest ih =>
      cases p with
      | mk k' v' =>
          by_cases hk : k' = k
          · simp only [setEntry, if_pos hk]
            exact .cons h (GrowsEntries_refl rest)
          · simp only [setEntry, if_neg hk]
            exact .cons (Grows_refl v') ih

theorem plugChild_grows (f : Frame) {x y : JsonValue} (h : Grows x y) :
    Grows (plugChild f x) (plugChild f y) := by
  cases f with
  | initial => exact h
  | inString acc => exact Grows_refl _
  | inArray items =>
      have h2 := @Grows.arr (items ++ [x]) (items ++ [y]) [] (GrowsList_snoc_grow h)
      simpa [plugChild] using h2
  | inObjKey pk e =>
      cases pk with
      | none => exact Grows_refl _
      | some k =>
          have h2 := @Grows.obj (setEntry e k x) (setEntry e k y) [] (setEntry_align h)
          simpa [plugChild] using h2
  | inObjValue k e =>
      have h2 := @Grows.obj (setEntry e k x) (setEntry e k y) [] (setEntry_align h)
      simpa [plugChild] using h2

theorem rollDown_grows {x y : JsonValue} (h : Grows x y) :
    ∀ (fs : List Frame), Grows (rollDown x fs) (rollDown y fs) := by
  intro fs
  induction fs generalizing x y with
  | nil => exact h
  | cons f rest ih => exact ih (plugChild_grows f h)

theorem GrowsEntries_find {k : JStr} {e : List (JStr × JsonValue)} :
    ∀ {f : List (JStr × JsonValue)} {pr : JStr × JsonValue},
    GrowsEntries e f → e.find? (fun p => p.1 = k) = some pr →
    ∃ qr, f.find? (fun p => p.1 = k) = some qr ∧ Grows pr.2 qr.2 := by
  induction e with
  | nil =>
      intro f pr hef hfind
      simp at hfind
  | cons p e' ih =>
      intro f pr hef hfind
      cases p with
      | mk k' v =>
          cases hef with
          | cons hvw hef' =>
              rename_i w fs
              by_cases hk : k' = k
              · have hdec : (decide (k' = k)) = true := by simpa using hk
                simp only [List.find?_cons, hdec] at hfind
                cases hfind
                refine ⟨(k', w), ?_, hvw⟩
                simp only [List.find?_cons, hdec]
              · have hdec : (decide (k' = k)) = false := by simpa using hk
                simp only [List.find?_cons, hdec] at hfind
                obtain ⟨qr, hq, hg⟩ := ih hef' hfind
                refine ⟨qr, ?_, hg⟩
                simp only [List.find?_cons, hdec]
                exact hq

theorem find?_append_left {α : Type} {l1 l2 : List α} {p : α → Bool} {x : α}
    (h : l1.find? p = some x) : (l1 ++ l2).find? p = some x := by
  induction l1 with
  | nil => simp at h
  | cons y ys ih =>
      by_cases hy : p y = true
      · simp only [List.find?_cons, hy] at h
        simp only [List.cons_append, List.find?_cons, hy]
        exact h
      · have hyf : p y = false := by simpa using hy
        simp only [List.find?_cons, hyf] at h
        simp only [List.cons_append, List.find?_cons, hyf]
        exact ih h

theorem GrowsList_getElem? {a : List JsonValue} :
    ∀ {b : List JsonValue} {i : Nat} {x : JsonValue},
    GrowsList a b → a[i]? = some x → ∃ y, b[i]? = some y ∧ Grows x y := by
  induction a with
  | nil =>
      intro b i x hab hget
      simp at hget
  | cons z a' ih =>
      intro b i x hab hget
      cases hab with
      | cons hzy hab' =>
          rename_i y ys
          cases i with
          | zero =>
              simp at hget
              cases hget
              exact ⟨y, by simp, hzy⟩
          | succ i =>
              simp at hget
              obtain ⟨w, hw, hg⟩ := ih hab' hget
              exact ⟨w, by simpa using hw, hg⟩

theorem getElem?_append_left_of_some {α : Type} {l1 l2 : List α} {i : Nat} {x : α}
    (h : l1[i]? = some x) : (l1 ++ l2)[i]? = some x := by
  have hi : i < l1.length := by
    by_contra hcon
    rw [List.getElem?_eq_none (by omega)] at h
    cases h
  rw [List.getElem?_append, if_pos hi]
  exact h

/-- Strings at a fixed tree position only grow (as prefixes) along the
refinement order. -/
theorem getAtPath_prefix_of_grows :
    ∀ (p : List Seg) {v w : JsonValue} {s t : JStr},
    Grows v w → getAtPath v p = some (.str s) → getAtPath w p = some (.str t) →
    s <+: t := by
  intro p
  induction p with
  | nil =>
      intro v w s t hg hv hw
      simp [getAtPath] at hv hw
      rw [hv] at hg
      cases hg with
      | str hpre =>
          cases hw
          exact hpre
  | cons seg rest ih =>
      intro v w s t hg hv hw
      cases seg with
      | key k =>
          cases v with
          | obj e =>
              cases hg with
              | obj hef =>
                  rename_i f g
                  rw [getAtPath] at hv hw
                  cases hfind : e.find? (fun p => p.1 = k) with
                  | none => rw [hfind] at hv; cases hv
                  | some pr =>
                      rw [hfind] at hv
                      obtain ⟨qr, hq, hgr⟩ := GrowsEntries_find hef hfind
                      rw [find?_append_left hq] at hw
                      exact ih hgr hv hw
          | null => simp [getAtPath] at hv
          | bool b2 => simp [getAtPath] at hv
          | num s2 => simp [getAtPath] at hv
          | str s2 => simp [getAtPath] at hv
          | arr a2 => simp [getAtPath] at hv
      | idx i =>
          cases v with
          | arr a =>
              cases hg with
              | arr hab =>
                  rename_i b c
                  rw [getAtPath] at hv hw
                  by_cases hneg : i < 0
                  · rw [if_pos hneg] at hv
                    cases hv
                  · rw [if_neg hneg] at hv hw
                    cases hget : a[i.toNat]? with
                    | none => rw [hget] at hv; cases hv
                    | some x =>
                        rw [hget] at hv
                        obtain ⟨y, hy, hgr⟩ := GrowsList_getElem? hab hget
                        rw [getElem?_append_left_of_some hy] at hw
                        exact ih hgr hv hw
          | null => simp [getAtPath] at hv
          | bool b2 => simp [getAtPath] at hv
          | num s2 => simp [getAtPath] at hv
          | str s2 => simp [getAtPath] at hv
          | obj e2 => simp [getAtPath] at hv

theorem aboveOk_any {f f' g : Frame} (h : aboveOk f g = true)
    (hf : ∀ acc, f ≠ Frame.inString acc) : aboveOk f' g = true := by
  cases g with
  | inObjValue k e =>
      cases f with
      | inString acc => exact absurd rfl (hf acc)
      | initial => simp [aboveOk] at h
      | inArray i2 => simp [aboveOk] at h
      | inObjKey p2 e2 => simp [aboveOk] at h
      | inObjValue k2 e2 => simp [aboveOk] at h
  | initial => cases f' <;> rfl
  | inString acc => cases f' <;> rfl
  | inArray items => cases f' <;> rfl
  | inObjKey pk e => cases f' <;> rfl

theorem shapeOk_tail {f : Frame} {rest : List Frame}
    (h : shapeOk (f :: rest) = true) : shapeOk rest = true := by
  cases rest with
  | nil => rfl
  | cons g r =>
      simp only [shapeOk, Bool.and_eq_true] at h
      exact h.2

theorem shapeOk_head {f g : Frame} {r : List Frame}
    (h : shapeOk (f :: g :: r) = true) : aboveOk f g = true := by
  simp only [shapeOk, Bool.and_eq_true] at h
  exact h.1

theorem shapeOk_cons_of {f : Frame} {rest : List Frame} (hr : shapeOk rest = true)
    (hh : ∀ g r2, rest = g :: r2 → aboveOk f g = true) : shapeOk (f :: rest) = true := by
  cases rest with
  | nil => rfl
  | cons g r =>
      simp only [shapeOk, Bool.and_eq_true]
      exact ⟨hh g r rfl, hr⟩

theorem aboveOk_str (acc : JStr) (g : Frame) : aboveOk (.inString acc) g = true := by
  cases g <;> rfl

theorem obsVal_stack_nonInitial {b : BState} {f : Frame} {rest : List Frame}
    (hb : b.stack = f :: rest) (hf : f ≠ .initial)
    (hnk : ∀ acc pk e r2, b.stack = .inString acc :: .inObjKey pk e :: r2 → False) :
    obsVal b = rollDown (frameValue f) rest := by
  rw [obsVal, currentValue, hb]
  cases f with
  | initial => exact absurd rfl hf
  | inString acc =>
      cases rest with
      | nil => rfl
      | cons g r2 =>
          cases g with
          | inObjKey pk e => exact absurd (hb.trans rfl) (fun hh => hnk acc pk e r2 hh)
          | initial => rfl
          | inString a2 => rfl
          | inArray i2 => rfl
          | inObjValue k2 e2 => rfl
  | inArray items => cases rest with | nil => rfl | cons g r2 => rfl
  | inObjKey pk e => cases rest with | nil => rfl | cons g r2 => rfl
  | inObjValue k e => cases rest with | nil => rfl | cons g r2 => rfl

theorem GInv_grows_arr_snoc {b b' : BState} {items : List JsonValue}
    {rest : List Frame} {v : JsonValue}
    (hb : b.stack = .inArray items :: rest)
    (hb' : b'.stack = .inArray (items ++ [v]) :: rest)
    (htail : GoodFrames rest) (hfr : ∀ g ∈ rest, frameFresh g = true)
    (hshape : shapeOk (Frame.inArray items :: rest) = true) :
    GInv b' ∧ Grows (obsVal b) (obsVal b') := by
  refine ⟨⟨by simp [hb'], by simpa [hb'] using htail, ?_, ?_⟩, ?_⟩
  · intro g hg
    rw [hb'] at hg
    rcases List.mem_cons.mp hg with hg | hg
    · rw [hg]; rfl
    · exact hfr g hg
  · rw [hb']
    refine shapeOk_cons_of (shapeOk_tail hshape) ?_
    intro g r2 hr
    rw [hr] at hshape
    exact aboveOk_any (shapeOk_head hshape) (fun acc hacc => by cases hacc)
  · rw [obsVal_stack_nonInitial hb (by simp) (by intro acc pk e r2 hh; rw [hb] at hh; cases hh),
        obsVal_stack_nonInitial hb' (by simp) (by intro acc pk e r2 hh; rw [hb'] at hh; cases hh)]
    exact rollDown_grows (Grows_arr_snoc items v) rest

theorem GInv_grows_push_arr {b b' : BState} {items : List JsonValue}
    {rest : List Frame} {c : Frame}
    (hb : b.stack = .inArray items :: rest)
    (hb' : b'.stack = c :: .inArray items :: rest)
    (hcinit : c ≠ .initial) (hcfresh : frameFresh c = true)
    (htail : GoodFrames rest) (hfr : ∀ g ∈ rest, frameFresh g = true)
    (hshape : shapeOk (Frame.inArray items :: rest) = true) :
    GInv b' ∧ Grows (obsVal b) (obsVal b') := by
  refine ⟨⟨by rw [hb']; simpa using hcinit, ?_, ?_, ?_⟩, ?_⟩
  · rw [hb']
    intro g hg
    rcases List.mem_cons.mp hg with hg | hg
    · rw [hg]; rfl
    · exact htail g hg
  · intro g hg
    rw [hb'] at hg
    rcases List.mem_cons.mp hg with hg | hg
    · rw [hg]; exact hcfresh
    · rcases List.mem_cons.mp hg with hg | hg
      · rw [hg]; rfl
      · exact hfr g hg
  · rw [hb']
    refine shapeOk_cons_of hshape ?_
    intro g r2 hr
    cases hr
    cases c <;> rfl
  · rw [obsVal_stack_nonInitial hb (by simp) (by intro acc pk e r2 hh; rw [hb] at hh; cases hh),
        obsVal_stack_nonInitial hb' hcinit
          (by intro acc pk e r2 hh; rw [hb'] at hh; cases hh)]
    rw [rollDown]
    have hpc : plugChild (.inArray items) (frameValue c) = .arr (items ++ [frameValue c]) := rfl
    rw [hpc]
    exact rollDown_grows (Grows_arr_snoc items (frameValue c)) rest

theorem GInv_grows_objv_atomic {b b' : BState} {k : JStr}
    {e : List (JStr × JsonValue)} {rest : List Frame} {v : JsonValue}
    (hb : b.stack = .inObjValue k e :: rest)
    (hb' : b'.stack = .inObjKey (some k) (setEntry e k v) :: rest)
    (hkfresh : (e.find? (fun p => p.1 = k)).isNone = true)
    (htail : GoodFrames rest) (hfr : ∀ g ∈ rest, frameFresh g = true)
    (hshape : shapeOk (Frame.inObjValue k e :: rest) = true) :
    GInv b' ∧ Grows (obsVal b) (obsVal b') := by
  refine ⟨⟨by simp [hb'], by simpa [hb'] using htail, ?_, ?_⟩, ?_⟩
  · intro g hg
    rw [hb'] at hg
    rcases List.mem_cons.mp hg with hg | hg
    · rw [hg]; rfl
    · exact hfr g hg
  · rw [hb']
    refine shapeOk_cons_of (shapeOk_tail hshape) ?_
    intro g r2 hr
    rw [hr] at hshape
    exact aboveOk_any (shapeOk_head hshape) (fun acc hacc => by cases hacc)
  · rw [obsVal_stack_nonInitial hb (by simp) (by intro acc pk e2 r2 hh; rw [hb] at hh; cases hh),
        obsVal_stack_nonInitial hb' (by simp) (by intro acc pk e2 r2 hh; rw [hb'] at hh; cases hh)]
    have hfv : frameValue (Frame.inObjKey (some k) (setEntry e k v)) = .obj (e ++ [(k, v)]) := by
      rw [frameValue, setEntry_fresh_append hkfresh]
    rw [hfv]
    exact rollDown_grows (Grows_obj_snoc e k v) rest

theorem GInv_grows_push_objk {b b' : BState} {k : JStr}
    {e : List (JStr × JsonValue)} {rest : List Frame} {c : Frame}
    (hb : b.stack = .inObjValue k e :: rest)
    (hb' : b'.stack = c :: .inObjKey (some k) e :: rest)
    (hcinit : c ≠ .initial) (hcstr : ∀ acc, c ≠ .inString acc)
    (hcfresh : frameFresh c = true)
    (hkfresh : (e.find? (fun p => p.1 = k)).isNone = true)
    (htail : GoodFrames rest) (hfr : ∀ g ∈ rest, frameFresh g = true)
    (hshape : shapeOk (Frame.inObjValue k e :: rest) = true) :
    GInv b' ∧ Grows (obsVal b) (obsVal b') := by
  have hnewshape : shapeOk (Frame.inObjKey (some k) e :: rest) = true := by
    refine shapeOk_cons_of (shapeOk_tail hshape) ?_
    intro g r2 hr
    rw [hr] at hshape
    exact aboveOk_any (shapeOk_head hshape) (fun acc hacc => by cases hacc)
  refine ⟨⟨by rw [hb']; simpa using hcinit, ?_, ?_, ?_⟩, ?_⟩
  · rw [hb']
    intro g hg
    rcases List.mem_cons.mp hg with hg | hg
    · rw [hg]; rfl
    · exact htail g hg
  · intro g hg
    rw [hb'] at hg
    rcases List.mem_cons.mp hg with hg | hg
    · rw [hg]; exact hcfresh
    · rcases List.mem_cons.mp hg with hg | hg
      · rw [hg]; rfl
      · exact hfr g hg
  · rw [hb']
    refine shapeOk_cons_of hnewshape ?_
    intro g r2 hr
    cases hr
    cases c <;> rfl
  · rw [obsVal_stack_nonInitial hb (by simp) (by intro acc pk e2 r2 hh; rw [hb] at hh; cases hh)]
    have hobs' : obsVal b' = rollDown (frameValue c) (Frame.inObjKey (some k) e :: rest) := by
      refine obsVal_stack_nonInitial hb' hcinit ?_
      intro acc pk e2 r2 hh
      rw [hb'] at hh
      cases hh
      exact absurd rfl (hcstr _)
    rw [hobs', rollDown]
    have hpc : plugChild (.inObjKey (some k) e) (frameValue c) =
        .obj (e ++ [(k, frameValue c)]) := by
      rw [plugChild, setEntry_fresh_append hkfresh]
    rw [hpc]
    exact rollDown_grows (Grows_obj_snoc e k (frameValue c)) rest

theorem GInv_grows_keystring {b b' : BState} {pk : Option JStr}
    {e : List (JStr × JsonValue)} {rest : List Frame} {acc : JStr}
    (hb : b.stack = .inObjKey pk e :: rest)
    (hb' : b'.stack = .inString acc :: .inObjKey pk e :: rest)
    (htail : GoodFrames rest) (hfr : ∀ g ∈ rest, frameFresh g = true)
    (hshape : shapeOk (Frame.inObjKey pk e :: rest) = true) :
    GInv b' ∧ Grows (obsVal b) (obsVal b') := by
  refine ⟨⟨by simp [hb'], ?_, ?_, ?_⟩, ?_⟩
  · rw [hb']
    intro g hg
    rcases List.mem_cons.mp hg with hg | hg
    · rw [hg]; rfl
    · exact htail g hg
  · intro g hg
    rw [hb'] at hg
    rcases List.mem_cons.mp hg with hg | hg
    · rw [hg]; rfl
    · rcases List.mem_cons.mp hg with hg | hg
      · rw [hg]; rfl
      · exact hfr g hg
  · rw [hb']
    refine shapeOk_cons_of hshape ?_
    intro g r2 hr
    exact aboveOk_str acc g
  · have hobs : obsVal b = rollDown (.obj e) rest :=
      obsVal_stack_nonInitial hb (by simp)
        (by intro a2 p2 e2 r2 hh; rw [hb] at hh; cases hh)
    have hobs' : obsVal b' = rollDown (.obj e) rest := by
      simp [obsVal, currentValue, hb', stackValue]
    rw [hobs, hobs']
    exact Grows_refl _

theorem GInv_grows_str_over_objv {b b' : BState} {k : JStr}
    {e : List (JStr × JsonValue)} {rest : List Frame}
    (hb : b.stack = .inObjValue k e :: rest)
    (hb' : b'.stack = .inString [] :: .inObjValue k e :: rest)
    (hkfresh : (e.find? (fun p => p.1 = k)).isNone = true)
    (htail : GoodFrames rest) (hfr : ∀ g ∈ rest, frameFresh g = true)
    (hshape : shapeOk (Frame.inObjValue k e :: rest) = true) :
    GInv b' ∧ Grows (obsVal b) (obsVal b') := by
  refine ⟨⟨by simp [hb'], ?_, ?_, ?_⟩, ?_⟩
  · rw [hb']
    intro g hg
    rcases List.mem_cons.mp hg with hg | hg
    · rw [hg]; rfl
    · exact htail g hg
  · intro g hg
    rw [hb'] at hg
    rcases List.mem_cons.mp hg with hg | hg
    · rw [hg]; rfl
    · rcases List.mem_cons.mp hg with hg | hg
      · rw [hg]; exact hkfresh
      · exact hfr g hg
  · rw [hb']
    refine shapeOk_cons_of hshape ?_
    intro g r2 hr
    exact aboveOk_str [] g
  · rw [obsVal_stack_nonInitial hb (by simp)
          (by intro a2 p2 e2 r2 hh; rw [hb] at hh; cases hh),
        obsVal_stack_nonInitial hb' (by simp)
          (by intro a2 p2 e2 r2 hh; rw [hb'] at hh; cases hh)]
    rw [rollDown]
    have hpc : plugChild (.inObjValue k e) (frameValue (Frame.inString [])) =
        .obj (e ++ [(k, .str [])]) := by
      rw [frameValue, plugChild, setEntry_fresh_append hkfresh]
    rw [hpc]
    exact rollDown_grows (Grows_obj_snoc e k (.str [])) rest

theorem handleValueToken_grows {b b' : BState} {t : Token}
    (hG : GInv b) (h : handleValueToken b t = .ok b') :
    GInv b' ∧ Grows (obsVal b) (obsVal b') := by
  obtain ⟨hhead, htail, hfr, hshape⟩ := hG
  cases hst : b.stack with
  | nil => simp [handleValueToken, currentState, hst] at h
  | cons f rest =>
    have htail' : GoodFrames rest := by
      rw [hst] at htail
      simpa using htail
    have hfr' : ∀ g ∈ rest, frameFresh g = true := fun g hg => hfr g (by simp [hst, hg])
    have hshape' : shapeOk (f :: rest) = true := by
      rw [hst] at hshape
      exact hshape
    cases f with
    | initial =>
        rw [hst] at hhead
        simp at hhead
    | inString acc => simp [handleValueToken, currentState, hst] at h
    | inObjKey pk e => simp [handleValueToken, currentState, hst] at h
    | inArray items =>
        cases t with
        | tnull =>
            by_cases hp : b.progressed = true <;> by_cases hcf : b.hasCb <;>
              simp [handleValueToken, currentState, hst, progressValue, docb, hp, hcf] at h <;>
              cases h <;>
              exact GInv_grows_arr_snoc hst rfl htail' hfr' hshape'
        | tbool v =>
            by_cases hp : b.progressed = true <;> by_cases hcf : b.hasCb <;>
              simp [handleValueToken, currentState, hst, progressValue, docb, hp, hcf] at h <;>
              cases h <;>
              exact GInv_grows_arr_snoc hst rfl htail' hfr' hshape'
        | tnum s =>
            by_cases hp : b.progressed = true <;> by_cases hcf : b.hasCb <;>
              simp [handleValueToken, currentState, hst, progressValue, docb, hp, hcf] at h <;>
              cases h <;>
              exact GInv_grows_arr_snoc hst rfl htail' hfr' hshape'
        | arrayStart =>
            by_cases hp : b.progressed = true <;>
              simp [handleValueToken, currentState, hst, progressValue, hp] at h <;>
              cases h <;>
              exact GInv_grows_push_arr hst rfl (by simp) rfl htail' hfr' hshape'
        | objectStart =>
            by_cases hp : b.progressed = true <;>
              simp [handleValueToken, currentState, hst, progressValue, hp] at h <;>
              cases h <;>
              exact GInv_grows_push_arr hst rfl (by simp) rfl htail' hfr' hshape'
        | stringStart =>
            by_cases hp : b.progressed = true <;>
              simp [handleValueToken, currentState, hst, progressValue, hp] at h <;>
              cases h <;>
              exact GInv_grows_push_arr hst rfl (by simp) rfl htail' hfr' hshape'
        | stringMiddle s => simp [handleValueToken, currentState, hst, progressValue] at h
        | stringEnd => simp [handleValueToken, currentState, hst, progressValue] at h
        | arrayEnd => simp [handleValueToken, currentState, hst, progressValue] at h
        | objectEnd => simp [handleValueToken, currentState, hst, progressValue] at h
    | inObjValue k e =>
        have hkfresh : (e.find? (fun p => p.1 = k)).isNone = true := by
          have h2 := hfr (.inObjValue k e) (by simp [hst])
          simpa [frameFresh] using h2
        cases t with
        | tnull =>
            by_cases hp : b.progressed = true <;> by_cases hcf : b.hasCb <;>
              simp [handleValueToken, currentState, hst, progressValue, docb, hp, hcf] at h <;>
              cases h <;>
              exact GInv_grows_objv_atomic hst rfl hkfresh htail' hfr' hshape'
        | tbool v =>
            by_cases hp : b.progressed = true <;> by_cases hcf : b.hasCb <;>
              simp [handleValueToken, currentState, hst, progressValue, docb, hp, hcf] at h <;>
              cases h <;>
              exact GInv_grows_objv_atomic hst rfl hkfresh htail' hfr' hshape'
        | tnum s =>
            by_cases hp : b.progressed = true <;> by_cases hcf : b.hasCb <;>
              simp [handleValueToken, currentState, hst, progressValue, docb, hp, hcf] at h <;>
              cases h <;>
              exact GInv_grows_objv_atomic hst rfl hkfresh htail' hfr' hshape'
        | arrayStart =>
            by_cases hp : b.progressed = true <;>
              simp [handleValueToken, currentState, hst, progressValue, hp] at h <;>
              cases h <;>
              exact GInv_grows_push_objk hst rfl (by simp) (by intro acc hacc; cases hacc)
                rfl hkfresh htail' hfr' hshape'
        | objectStart =>
            by_cases hp : b.progressed = true <;>
              simp [handleValueToken, currentState, hst, progressValue, hp] at h <;>
              cases h <;>
              exact GInv_grows_push_objk hst rfl (by simp) (by intro acc hacc; cases hacc)
                rfl hkfresh htail' hfr' hshape'
        | stringStart =>
            by_cases hp : b.progressed = true <;>
              simp [handleValueToken, currentState, hst, progressValue, hp] at h <;>
              cases h <;>
              exact GInv_grows_str_over_objv hst rfl hkfresh htail' hfr' hshape'
        | stringMiddle s => simp [handleValueToken, currentState, hst, progressValue] at h
        | stringEnd => simp [handleValueToken, currentState, hst, progressValue] at h
        | arrayEnd => simp [handleValueToken, currentState, hst, progressValue] at h
        | objectEnd => simp [handleValueToken, currentState, hst, progressValue] at h

theorem GInv_grows_strmid {b b' : BState} {acc s2 : JStr} {rest : List Frame}
    (hb : b.stack = .inString acc :: rest)
    (hb' : b'.stack = .inString (acc ++ s2) :: rest)
    (htail : GoodFrames rest) (hfr : ∀ g ∈ rest, frameFresh g = true)
    (hshape : shapeOk (Frame.inString acc :: rest) = true) :
    GInv b' ∧ Grows (obsVal b) (obsVal b') := by
  refine ⟨⟨by simp [hb'], by simpa [hb'] using htail, ?_, ?_⟩, ?_⟩
  · intro g hg
    rw [hb'] at hg
    rcases List.mem_cons.mp hg with hg | hg
    · rw [hg]; rfl
    · exact hfr g hg
  · rw [hb']
    refine shapeOk_cons_of (shapeOk_tail hshape) ?_
    intro g r2 hr
    exact aboveOk_str _ g
  · cases rest with
    | nil =>
        have h1 : obsVal b = .str acc := by
          simp [obsVal, currentValue, hb, stackValue, frameValue, rollDown]
        have h2 : obsVal b' = .str (acc ++ s2) := by
          simp [obsVal, currentValue, hb', stackValue, frameValue, rollDown]
        rw [h1, h2]
        exact .str (List.prefix_append acc s2)
    | cons g r2 =>
        cases g with
        | inObjKey pk e =>
            have h1 : obsVal b = rollDown (.obj e) r2 := by
              simp [obsVal, currentValue, hb, stackValue]
            have h2 : obsVal b' = rollDown (.obj e) r2 := by
              simp [obsVal, currentValue, hb', stackValue]
            rw [h1, h2]
            exact Grows_refl _
        | initial =>
            have h1 : obsVal b = rollDown (.str acc) (Frame.initial :: r2) := by
              simp [obsVal, currentValue, hb, stackValue, frameValue]
            have h2 : obsVal b' = rollDown (.str (acc ++ s2)) (Frame.initial :: r2) := by
              simp [obsVal, currentValue, hb', stackValue, frameValue]
            rw [h1, h2]
            exact rollDown_grows (.str (List.prefix_append acc s2)) _
        | inString a2 =>
            have h1 : obsVal b = rollDown (.str acc) (Frame.inString a2 :: r2) := by
              simp [obsVal, currentValue, hb, stackValue, frameValue]
            have h2 : obsVal b' = rollDown (.str (acc ++ s2)) (Frame.inString a2 :: r2) := by
              simp [obsVal, currentValue, hb', stackValue, frameValue]
            rw [h1, h2]
            exact rollDown_grows (.str (List.prefix_append acc s2)) _
        | inArray items =>
            have h1 : obsVal b = rollDown (.str acc) (Frame.inArray items :: r2) := by
              simp [obsVal, currentValue, hb, stackValue, frameValue]
            have h2 : obsVal b' = rollDown (.str (acc ++ s2)) (Frame.inArray items :: r2) := by
              simp [obsVal, currentValue, hb', stackValue, frameValue]
            rw [h1, h2]
            exact rollDown_grows (.str (List.prefix_append acc s2)) _
        | inObjValue k e =>
            have h1 : obsVal b = rollDown (.str acc) (Frame.inObjValue k e :: r2) := by
              simp [obsVal, currentValue, hb, stackValue, frameValue]
            have h2 : obsVal b' = rollDown (.str (acc ++ s2)) (Frame.inObjValue k e :: r2) := by
              simp [obsVal, currentValue, hb', stackValue, frameValue]
            rw [h1, h2]
            exact rollDown_grows (.str (List.prefix_append acc s2)) _

theorem GInv_grows_pop {b b' : BState} {f0 : Frame} {rest : List Frame} {v : JsonValue}
    (hb : b.stack = f0 :: rest)
    (hf0init : f0 ≠ .initial)
    (hnk : ∀ acc pk e r2, b.stack = .inString acc :: .inObjKey pk e :: r2 → False)
    (hfv : frameValue f0 = v)
    (hcase :
      (rest = [] ∧ b'.stack = [] ∧ b'.toplevel = some v) ∨
      (∃ items2 r2, rest = .inArray items2 :: r2 ∧
        b'.stack = .inArray (items2 ++ [v]) :: r2) ∨
      (∃ k2 e2 r2, rest = .inObjKey (some k2) e2 :: r2 ∧
        b'.stack = .inObjKey (some k2) (setEntry e2 k2 v) :: r2) ∨
      (∃ e2 r2, rest = .inObjKey none e2 :: r2 ∧
        b'.stack = .inObjKey none e2 :: r2) ∨
      (∃ k2 e2 r2, rest = .inObjValue k2 e2 :: r2 ∧
        b'.stack = .inObjKey (some k2) (setEntry e2 k2 v) :: r2))
    (htail : GoodFrames rest) (hfr : ∀ g ∈ rest, frameFresh g = true)
    (hshape : shapeOk (f0 :: rest) = true) :
    GInv b' ∧ Grows (obsVal b) (obsVal b') := by
  have hobs : obsVal b = rollDown v rest := by
    rw [obsVal_stack_nonInitial hb hf0init hnk, hfv]
  rcases hcase with ⟨hr, hs', ht'⟩ | ⟨items2, r2, hr, hs'⟩ |
    ⟨k2, e2, r2, hr, hs'⟩ | ⟨e2, r2, hr, hs'⟩ | ⟨k2, e2, r2, hr, hs'⟩
  · refine ⟨⟨by simp [hs'], by simp [hs', GoodFrames], by simp [hs'], by simp [hs', shapeOk]⟩, ?_⟩
    have h2 : obsVal b' = v := by
      simp [obsVal, currentValue, hs', ht']
    rw [hobs, hr, h2]
    exact Grows_refl _
  · subst hr
    refine ⟨⟨by simp [hs'], ?_, ?_, ?_⟩, ?_⟩
    · rw [hs']
      intro g hg
      exact htail g (by simp; right; simpa using hg)
    · intro g hg
      rw [hs'] at hg
      rcases List.mem_cons.mp hg with hg | hg
      · rw [hg]; rfl
      · exact hfr g (by simp [hg])
    · rw [hs']
      refine shapeOk_cons_of (shapeOk_tail (shapeOk_tail hshape)) ?_
      intro g r3 hr3
      have hsh2 := shapeOk_tail hshape
      rw [hr3] at hsh2
      exact aboveOk_any (shapeOk_head hsh2) (fun acc hacc => by cases hacc)
    · have h2 : obsVal b' = rollDown (.arr (items2 ++ [v])) r2 := by
        simp [obsVal, currentValue, hs', stackValue, frameValue]
      rw [hobs, h2, rollDown]
      exact Grows_refl _
  · subst hr
    refine ⟨⟨by simp [hs'], ?_, ?_, ?_⟩, ?_⟩
    · rw [hs']
      intro g hg
      exact htail g (by simp; right; simpa using hg)
    · intro g hg
      rw [hs'] at hg
      rcases List.mem_cons.mp hg with hg | hg
      · rw [hg]; rfl
      · exact hfr g (by simp [hg])
    · rw [hs']
      refine shapeOk_cons_of (shapeOk_tail (shapeOk_tail hshape)) ?_
      intro g r3 hr3
      have hsh2 := shapeOk_tail hshape
      rw [hr3] at hsh2
      exact aboveOk_any (shapeOk_head hsh2) (fun acc hacc => by cases hacc)
    · have h2 : obsVal b' = rollDown (.obj (setEntry e2 k2 v)) r2 := by
        simp [obsVal, currentValue, hs', stackValue, frameValue]
      rw [hobs, h2, rollDown]
      exact Grows_refl _
  · subst hr
    refine ⟨⟨by simp [hs'], ?_, ?_, ?_⟩, ?_⟩
    · rw [hs']
      intro g hg
      exact htail g (List.mem_cons_of_mem _ (by simpa using hg))
    · intro g hg
      rw [hs'] at hg
      exact hfr g hg
    · rw [hs']
      exact shapeOk_tail hshape
    · have h2 : obsVal b' = rollDown (.obj e2) r2 := by
        simp [obsVal, currentValue, hs', stackValue, frameValue]
      rw [hobs, h2, rollDown]
      have hpc : plugChild (.inObjKey none e2) v = .obj e2 := rfl
      rw [hpc]
      exact Grows_refl _
  · subst hr
    refine ⟨⟨by simp [hs'], ?_, ?_, ?_⟩, ?_⟩
    · rw [hs']
      intro g hg
      exact htail g (by simp; right; simpa using hg)
    · intro g hg
      rw [hs'] at hg
      rcases List.mem_cons.mp hg with hg | hg
      · rw [hg]; rfl
      · exact hfr g (by simp [hg])
    · rw [hs']
      refine shapeOk_cons_of (shapeOk_tail (shapeOk_tail hshape)) ?_
      intro g r3 hr3
      have hsh2 := shapeOk_tail hshape
      rw [hr3] at hsh2
      exact aboveOk_any (shapeOk_head hsh2) (fun acc hacc => by cases hacc)
    · have h2 : obsVal b' = rollDown (.obj (setEntry e2 k2 v)) r2 := by
        simp [obsVal, currentValue, hs', stackValue, frameValue]
      rw [hobs, h2, rollDown]
      exact Grows_refl _

theorem GInv_grows_keyend {b b' : BState} {acc : JStr} {pk : Option JStr}
    {e : List (JStr × JsonValue)} {r2 : List Frame}
    (hb : b.stack = .inString acc :: .inObjKey pk e :: r2)
    (hb' : b'.stack = .inObjValue acc e :: r2)
    (hkfresh : (e.find? (fun p => p.1 = acc)).isNone = true)
    (htail : GoodFrames (Frame.inObjKey pk e :: r2))
    (hfr : ∀ g ∈ Frame.inObjKey pk e :: r2, frameFresh g = true)
    (hshape : shapeOk (Frame.inString acc :: Frame.inObjKey pk e :: r2) = true) :
    GInv b' ∧ Grows (obsVal b) (obsVal b') := by
  refine ⟨⟨by simp [hb'], ?_, ?_, ?_⟩, ?_⟩
  · rw [hb']
    intro g hg
    exact htail g (List.mem_cons_of_mem _ (by simpa using hg))
  · intro g hg
    rw [hb'] at hg
    rcases List.mem_cons.mp hg with hg | hg
    · rw [hg]
      simpa [frameFresh] using hkfresh
    · exact hfr g (List.mem_cons_of_mem _ hg)
  · rw [hb']
    refine shapeOk_cons_of (shapeOk_tail (shapeOk_tail hshape)) ?_
    intro g r3 hr3
    have hsh2 := shapeOk_tail hshape
    rw [hr3] at hsh2
    exact aboveOk_any (shapeOk_head hsh2) (fun a2 hacc => by cases hacc)
  · have h1 : obsVal b = rollDown (.obj e) r2 := by
      simp [obsVal, currentValue, hb, stackValue]
    have h2 : obsVal b' = rollDown (.obj e) r2 := by
      simp [obsVal, currentValue, hb', stackValue, frameValue]
    rw [h1, h2]
    exact Grows_refl _

theorem handleStringStart_grows {b b' : BState}
    (hG : GInv b) (h : handleStringStart b = .ok b') :
    GInv b' ∧ Grows (obsVal b) (obsVal b') := by
  obtain ⟨hhead, htail, hfr, hshape⟩ := hG
  cases hst : b.stack with
  | nil => simp [handleStringStart, currentState, hst] at h
  | cons f rest =>
    have htail' : GoodFrames rest := by
      rw [hst] at htail
      simpa using htail
    have hfr' : ∀ g ∈ rest, frameFresh g = true := fun g hg => hfr g (by simp [hst, hg])
    have hshape' : shapeOk (f :: rest) = true := by
      rw [hst] at hshape
      exact hshape
    cases f with
    | initial =>
        rw [hst] at hhead
        simp at hhead
    | inString acc => simp [handleStringStart, currentState, hst] at h
    | inArray items =>
        by_cases hp : b.progressed = true <;>
          simp [handleStringStart, currentState, hst, progressValue, Frame.isObjKey, hp] at h <;>
          cases h <;>
          exact GInv_grows_push_arr hst rfl (by simp) rfl htail' hfr' hshape'
    | inObjKey pk e =>
        by_cases hp : b.progressed = true <;>
          simp [handleStringStart, currentState, hst, progressValue, Frame.isObjKey, hp] at h <;>
          cases h <;>
          exact GInv_grows_keystring hst rfl htail' hfr' hshape'
    | inObjValue k e =>
        have hkfresh : (e.find? (fun p => p.1 = k)).isNone = true := by
          have h2 := hfr (.inObjValue k e) (by simp [hst])
          simpa [frameFresh] using h2
        by_cases hp : b.progressed = true <;>
          simp [handleStringStart, currentState, hst, progressValue, Frame.isObjKey, hp] at h <;>
          cases h <;>
          exact GInv_grows_str_over_objv hst rfl hkfresh htail' hfr' hshape'

theorem handleStringMiddle_grows {b b' : BState} {s : JStr}
    (hG : GInv b) (h : handleStringMiddle b s = .ok b') :
    GInv b' ∧ Grows (obsVal b) (obsVal b') := by
  obtain ⟨hhead, htail, hfr, hshape⟩ := hG
  cases hst : b.stack with
  | nil => simp [handleStringMiddle, currentState, hst] at h
  | cons f rest =>
    have htail' : GoodFrames rest := by
      rw [hst] at htail
      simpa using htail
    have hfr' : ∀ g ∈ rest, frameFresh g = true := fun g hg => hfr g (by simp [hst, hg])
    have hshape' : shapeOk (f :: rest) = true := by
      rw [hst] at hshape
      exact hshape
    cases f with
    | inString acc =>
        cases rest with
        | nil =>
            by_cases hp : b.progressed = true <;>
              simp [handleStringMiddle, currentState, hst, updateStringParent, hp] at h <;>
              cases h <;>
              exact GInv_grows_strmid hst rfl htail' hfr' hshape'
        | cons g rest' =>
            cases g with
            | initial =>
                simp [handleStringMiddle, currentState, hst, updateStringParent,
                      apply_ite BState.stack, ite_self] at h
            | inString acc2 =>
                simp [handleStringMiddle, currentState, hst, updateStringParent,
                      apply_ite BState.stack, ite_self] at h
            | inArray items =>
                by_cases hp : b.progressed = true <;>
                  simp [handleStringMiddle, currentState, hst, updateStringParent,
                        Frame.isObjKey, hp] at h <;>
                  cases h <;>
                  exact GInv_grows_strmid hst rfl htail' hfr' hshape'
            | inObjKey pk e =>
                by_cases hp : b.progressed = true <;>
                  simp [handleStringMiddle, currentState, hst, updateStringParent,
                        Frame.isObjKey, hp] at h <;>
                  cases h <;>
                  exact GInv_grows_strmid hst rfl htail' hfr' hshape'
            | inObjValue k e =>
                by_cases hp : b.progressed = true <;>
                  simp [handleStringMiddle, currentState, hst, updateStringParent,
                        Frame.isObjKey, hp] at h <;>
                  cases h <;>
                  exact GInv_grows_strmid hst rfl htail' hfr' hshape'
    | initial =>
        rw [hst] at hhead
        simp at hhead
    | inArray items =>
        simp [handleStringMiddle, currentState, hst, apply_ite BState.stack, ite_self] at h
    | inObjKey pk e =>
        simp [handleStringMiddle, currentState, hst, apply_ite BState.stack, ite_self] at h
    | inObjValue k e =>
        simp [handleStringMiddle, currentState, hst, apply_ite BState.stack, ite_self] at h

theorem handleStringEnd_grows {b b' : BState}
    (hG : GInv b) (hfresh : freshStepOk b .stringEnd = true)
    (h : handleStringEnd b = .ok b') :
    GInv b' ∧ Grows (obsVal b) (obsVal b') := by
  obtain ⟨hhead, htail, hfr, hshape⟩ := hG
  cases hst : b.stack with
  | nil => simp [handleStringEnd, currentState, hst] at h
  | cons f rest =>
    have htail' : GoodFrames rest := by
      rw [hst] at htail
      simpa using htail
    have hfr' : ∀ g ∈ rest, frameFresh g = true := fun g hg => hfr g (by simp [hst, hg])
    have hshape' : shapeOk (f :: rest) = true := by
      rw [hst] at hshape
      exact hshape
    cases f with
    | inString acc =>
        cases rest with
        | nil =>
            by_cases hcf : b.hasCb <;>
              simp [handleStringEnd, currentState, hst, updateStringParent, docb, hcf] at h <;>
              cases h <;>
              exact GInv_grows_pop hst (by simp)
                (by intro a2 p2 e2 r2 hh; rw [hst] at hh; simp at hh)
                rfl (Or.inl ⟨rfl, rfl, rfl⟩) htail' hfr' hshape'
        | cons g rest' =>
            cases g with
            | initial =>
                simp [handleStringEnd, currentState, hst, updateStringParent] at h
            | inString acc2 =>
                simp [handleStringEnd, currentState, hst, updateStringParent] at h
            | inArray items =>
                by_cases hcf : b.hasCb <;>
                  simp [handleStringEnd, currentState, hst, updateStringParent, docb, hcf] at h <;>
                  cases h <;>
                  exact GInv_grows_pop hst (by simp)
                    (by intro a2 p2 e2 r2 hh; rw [hst] at hh; simp at hh)
                    rfl (Or.inr (Or.inl ⟨items, rest', rfl, rfl⟩)) htail' hfr' hshape'
            | inObjValue k e =>
                by_cases hcf : b.hasCb <;>
                  simp [handleStringEnd, currentState, hst, updateStringParent, docb, hcf] at h <;>
                  cases h <;>
                  exact GInv_grows_pop hst (by simp)
                    (by intro a2 p2 e2 r2 hh; rw [hst] at hh; simp at hh)
                    rfl (Or.inr (Or.inr (Or.inr (Or.inr ⟨k, e, rest', rfl, rfl⟩))))
                    htail' hfr' hshape'
            | inObjKey pk e =>
                have hkfresh : (e.find? (fun p => p.1 = acc)).isNone = true := by
                  rw [freshStepOk, hst] at hfresh
                  exact hfresh
                simp [handleStringEnd, currentState, hst, updateStringParent] at h
                cases h
                exact GInv_grows_keyend hst rfl hkfresh htail' hfr' hshape'
    | initial =>
        rw [hst] at hhead
        simp at hhead
    | inArray items => simp [handleStringEnd, currentState, hst] at h
    | inObjKey pk e => simp [handleStringEnd, currentState, hst] at h
    | inObjValue k e => simp [handleStringEnd, currentState, hst] at h

theorem handleArrayEnd_grows {b b' : BState}
    (hG : GInv b) (h : handleArrayEnd b = .ok b') :
    GInv b' ∧ Grows (obsVal b) (obsVal b') := by
  obtain ⟨hhead, htail, hfr, hshape⟩ := hG
  cases hst : b.stack with
  | nil => simp [handleArrayEnd, currentState, hst] at h
  | cons f rest =>
    have htail' : GoodFrames rest := by
      rw [hst] at htail
      simpa using htail
    have hfr' : ∀ g ∈ rest, frameFresh g = true := fun g hg => hfr g (by simp [hst, hg])
    have hshape' : shapeOk (f :: rest) = true := by
      rw [hst] at hshape
      exact hshape
    cases f with
    | inArray items =>
        cases rest with
        | nil =>
            by_cases hcf : b.hasCb <;>
              simp [handleArrayEnd, currentState, hst, writeBackOnPop, docb, hcf] at h <;>
              cases h <;>
              exact GInv_grows_pop hst (by simp)
                (by intro a2 p2 e2 r2 hh; rw [hst] at hh; simp at hh)
                rfl (Or.inl ⟨rfl, rfl, rfl⟩) htail' hfr' hshape'
        | cons g rest' =>
            cases g with
            | initial =>
                have hg2 : frameOk Frame.initial = true := htail' _ (by simp)
                simp [frameOk] at hg2
            | inString acc2 =>
                have hg2 : frameOk (Frame.inString acc2) = true := htail' _ (by simp)
                simp [frameOk] at hg2
            | inObjValue k2 e2 =>
                have hsh := shapeOk_head hshape'
                simp [aboveOk] at hsh
            | inArray items2 =>
                by_cases hcf : b.hasCb <;>
                  simp [handleArrayEnd, currentState, hst, writeBackOnPop, docb, hcf] at h <;>
                  cases h <;>
                  exact GInv_grows_pop hst (by simp)
                    (by intro a2 p2 e2 r2 hh; rw [hst] at hh; simp at hh)
                    rfl (Or.inr (Or.inl ⟨items2, rest', rfl, rfl⟩)) htail' hfr' hshape'
            | inObjKey pk2 e2 =>
                cases pk2 with
                | some k2 =>
                    by_cases hcf : b.hasCb <;>
                      simp [handleArrayEnd, currentState, hst, writeBackOnPop, docb, hcf] at h <;>
                      cases h <;>
                      exact GInv_grows_pop hst (by simp)
                        (by intro a2 p2 e2 r2 hh; rw [hst] at hh; simp at hh)
                        rfl (Or.inr (Or.inr (Or.inl ⟨k2, e2, rest', rfl, rfl⟩)))
                        htail' hfr' hshape'
                | none =>
                    by_cases hcf : b.hasCb <;>
                      simp [handleArrayEnd, currentState, hst, writeBackOnPop, docb, hcf] at h <;>
                      cases h <;>
                      exact GInv_grows_pop hst (by simp)
                        (by intro a2 p2 e2 r2 hh; rw [hst] at hh; simp at hh)
                        rfl (Or.inr (Or.inr (Or.inr (Or.inl ⟨e2, rest', rfl, rfl⟩))))
                        htail' hfr' hshape'
    | initial =>
        rw [hst] at hhead
        simp at hhead
    | inString acc => simp [handleArrayEnd, currentState, hst] at h
    | inObjKey pk e => simp [handleArrayEnd, currentState, hst] at h
    | inObjValue k e => simp [handleArrayEnd, currentState, hst] at h

theorem handleObjectEnd_grows {b b' : BState}
    (hG : GInv b) (h : handleObjectEnd b = .ok b') :
    GInv b' ∧ Grows (obsVal b) (obsVal b') := by
  obtain ⟨hhead, htail, hfr, hshape⟩ := hG
  cases hst : b.stack with
  | nil => simp [handleObjectEnd, currentState, hst] at h
  | cons f rest =>
    have htail' : GoodFrames rest := by
      rw [hst] at htail
      simpa using htail
    have hfr' : ∀ g ∈ rest, frameFresh g = true := fun g hg => hfr g (by simp [hst, hg])
    have hshape' : shapeOk (f :: rest) = true := by
      rw [hst] at hshape
      exact hshape
    cases f with
    | inObjKey pk e =>
        cases rest with
        | nil =>
            by_cases hcf : b.hasCb <;>
              simp [handleObjectEnd, currentState, hst, writeBackOnPop, docb, hcf] at h <;>
              cases h <;>
              exact GInv_grows_pop hst (by simp)
                (by intro a2 p2 e2 r2 hh; rw [hst] at hh; simp at hh)
                rfl (Or.inl ⟨rfl, rfl, rfl⟩) htail' hfr' hshape'
        | cons g rest' =>
            cases g with
            | initial =>
                have hg2 : frameOk Frame.initial = true := htail' _ (by simp)
                simp [frameOk] at hg2
            | inString acc2 =>
                have hg2 : frameOk (Frame.inString acc2) = true := htail' _ (by simp)
                simp [frameOk] at hg2
            | inObjValue k2 e2 =>
                have hsh := shapeOk_head hshape'
                simp [aboveOk] at hsh
            | inArray items2 =>
                by_cases hcf : b.hasCb <;>
                  simp [handleObjectEnd, currentState, hst, writeBackOnPop, docb, hcf] at h <;>
                  cases h <;>
                  exact GInv_grows_pop hst (by simp)
                    (by intro a2 p2 e2 r2 hh; rw [hst] at hh; simp at hh)
                    rfl (Or.inr (Or.inl ⟨items2, rest', rfl, rfl⟩)) htail' hfr' hshape'
            | inObjKey pk2 e2 =>
                cases pk2 with
                | some k2 =>
                    by_cases hcf : b.hasCb <;>
                      simp [handleObjectEnd, currentState, hst, writeBackOnPop, docb, hcf] at h <;>
                      cases h <;>
                      exact GInv_grows_pop hst (by simp)
                        (by intro a2 p2 e2 r2 hh; rw [hst] at hh; simp at hh)
                        rfl (Or.inr (Or.inr (Or.inl ⟨k2, e2, rest', rfl, rfl⟩)))
                        htail' hfr' hshape'
                | none =>
                    by_cases hcf : b.hasCb <;>
                      simp [handleObjectEnd, currentState, hst, writeBackOnPop, docb, hcf] at h <;>
                      cases h <;>
                      exact GInv_grows_pop hst (by simp)
                        (by intro a2 p2 e2 r2 hh; rw [hst] at hh; simp at hh)
                        rfl (Or.inr (Or.inr (Or.inr (Or.inl ⟨e2, rest', rfl, rfl⟩))))
                        htail' hfr' hshape'
    | inObjValue k e =>
        cases rest with
        | nil =>
            by_cases hcf : b.hasCb <;>
              simp [handleObjectEnd, currentState, hst, writeBackOnPop, docb, hcf] at h <;>
              cases h <;>
              exact GInv_grows_pop hst (by simp)
                (by intro a2 p2 e2 r2 hh; rw [hst] at hh; simp at hh)
                rfl (Or.inl ⟨rfl, rfl, rfl⟩) htail' hfr' hshape'
        | cons g rest' =>
            cases g with
            | initial =>
                have hg2 : frameOk Frame.initial = true := htail' _ (by simp)
                simp [frameOk] at hg2
            | inString acc2 =>
                have hg2 : frameOk (Frame.inString acc2) = true := htail' _ (by simp)
                simp [frameOk] at hg2
            | inObjValue k2 e2 =>
                have hsh := shapeOk_head hshape'
                simp [aboveOk] at hsh
            | inArray items2 =>
                by_cases hcf : b.hasCb <;>
                  simp [handleObjectEnd, currentState, hst, writeBackOnPop, docb, hcf] at h <;>
                  cases h <;>
                  exact GInv_grows_pop hst (by simp)
                    (by intro a2 p2 e2 r2 hh; rw [hst] at hh; simp at hh)
                    rfl (Or.inr (Or.inl ⟨items2, rest', rfl, rfl⟩)) htail' hfr' hshape'
            | inObjKey pk2 e2 =>
                cases pk2 with
                | some k2 =>
                    by_cases hcf : b.hasCb <;>
                      simp [handleObjectEnd, currentState, hst, writeBackOnPop, docb, hcf] at h <;>
                      cases h <;>
                      exact GInv_grows_pop hst (by simp)
                        (by intro a2 p2 e2 r2 hh; rw [hst] at hh; simp at hh)
                        rfl (Or.inr (Or.inr (Or.inl ⟨k2, e2, rest', rfl, rfl⟩)))
                        htail' hfr' hshape'
                | none =>
                    by_cases hcf : b.hasCb <;>
                      simp [handleObjectEnd, currentState, hst, writeBackOnPop, docb, hcf] at h <;>
                      cases h <;>
                      exact GInv_grows_pop hst (by simp)
                        (by intro a2 p2 e2 r2 hh; rw [hst] at hh; simp at hh)
                        rfl (Or.inr (Or.inr (Or.inr (Or.inl ⟨e2, rest', rfl, rfl⟩))))
                        htail' hfr' hshape'
    | initial =>
        rw [hst] at hhead
        simp at hhead
    | inString acc => simp [handleObjectEnd, currentState, hst] at h
    | inArray items => simp [handleObjectEnd, currentState, hst] at h

theorem handleToken_grows {b b' : BState} {t : Token}
    (hG : GInv b) (hfresh : freshStepOk b t = true)
    (h : handleToken b t = .ok b') :
    GInv b' ∧ Grows (obsVal b) (obsVal b') := by
  cases t with
  | tnull => exact handleValueToken_grows hG (by rwa [handleToken] at h)
  | tbool v => exact handleValueToken_grows hG (by rwa [handleToken] at h)
  | tnum s => exact handleValueToken_grows hG (by rwa [handleToken] at h)
  | stringStart => exact handleStringStart_grows hG (by rwa [handleToken] at h)
  | stringMiddle s => exact handleStringMiddle_grows hG (by rwa [handleToken] at h)
  | stringEnd => exact handleStringEnd_grows hG hfresh (by rwa [handleToken] at h)
  | arrayStart => exact handleValueToken_grows hG (by rwa [handleToken] at h)
  | arrayEnd => exact handleArrayEnd_grows hG (by rwa [handleToken] at h)
  | objectStart => exact handleValueToken_grows hG (by rwa [handleToken] at h)
  | objectEnd => exact handleObjectEnd_grows hG (by rwa [handleToken] at h)

theorem buildSteps_grows {ts : List Token} {b b' : BState}
    (hG : GInv b) (hfresh : freshAlong b ts = true)
    (h : buildSteps b ts = .ok b') :
    GInv b' ∧ Grows (obsVal b) (obsVal b') := by
  induction ts generalizing b with
  | nil =>
      simp [buildSteps] at h
      rw [← h]
      exact ⟨hG, Grows_refl _⟩
  | cons t ts ih =>
      rw [buildSteps] at h
      cases hh : handleToken b t with
      | error e =>
          rw [hh] at h
          cases h
      | ok b1 =>
          rw [hh] at h
          rw [freshAlong, hh, Bool.and_eq_true] at hfresh
          obtain ⟨hG1, hgr1⟩ := handleToken_grows hG hfresh.1 hh
          obtain ⟨hG2, hgr2⟩ := ih hG1 hfresh.2 h
          exact ⟨hG2, Grows_trans hgr1 hgr2⟩

/-- A chunk stream delivering the given text one UTF-16 code unit at a
time. -/
def perCharChunks (s : String) : List JStr := (jstr s).map (fun c => [c])

/-- **C5 counterexample.**  Two refutations of the claimed *strict* prefix
growth of strings at a fixed position across consecutive emitted values.
(1) Strictness fails on the valid document `["a","b"]` delivered one
character at a time: consecutive yields `["a"]` and `["a",""]` hold the
same string `"a"` at position `[0]` (progress happened elsewhere).
(2) On a valid document with a duplicate key, `{"a":"x","a":"y"}` per
character, consecutive yields `{"a":"x"}` and `{"a":""}` hold `"x"` and
then `""` at position `["a"]` — not even a non-strict prefix: the second
binding's value restarts the slot. -/
theorem c5_strict_prefix_counterexample :
    ((run (perCharChunks "[\"a\",\"b\"]") false 40).yields[2]? =
        some (.arr [.str (jstr "a")]) ∧
     (run (perCharChunks "[\"a\",\"b\"]") false 40).yields[3]? =
        some (.arr [.str (jstr "a"), .str []]) ∧
     getAtPath (.arr [.str (jstr "a")]) [.idx 0] = some (.str (jstr "a")) ∧
     getAtPath (.arr [.str (jstr "a"), .str []]) [.idx 0] = some (.str (jstr "a")) ∧
     ¬ StrictPrefix (jstr "a") (jstr "a")) ∧
    ((run (perCharChunks "\x7b\"a\":\"x\",\"a\":\"y\"\x7d") false 60).yields[2]? =
        some (.obj [(jstr "a", .str (jstr "x"))]) ∧
     (run (perCharChunks "\x7b\"a\":\"x\",\"a\":\"y\"\x7d") false 60).yields[3]? =
        some (.obj [(jstr "a", .str [])]) ∧
     getAtPath (.obj [(jstr "a", .str (jstr "x"))]) [.key (jstr "a")] =
        some (.str (jstr "x")) ∧
     getAtPath (.obj [(jstr "a", .str [])]) [.key (jstr "a")] =
        some (.str []) ∧
     ¬ (jstr "x" <+: ([] : JStr))) := by
  refine ⟨⟨?_, ?_, rfl, rfl, ?_⟩, ⟨?_, ?_, rfl, rfl, by decide⟩⟩
  · with_unfolding_all rfl
  · with_unfolding_all rfl
  · intro hsp
    exact hsp.2 rfl
  · with_unfolding_all rfl
  · with_unfolding_all rfl

/-- **C5 amended.**  Strings at a fixed tree position never shrink, but the
growth is not strict, and it requires freshness of completed object keys.
(1) Along any token sequence in which every `StringEnd` that completes an
*object key* completes a fresh key (`freshAlong` — automatic for documents
without duplicate keys), the observable top-level value evolves by the
refinement order `Grows`, which grows strings only on the right.
(2) Consequently, if a position `p` holds a string `s` before and a string
`t` after, then `s` is a (not necessarily strict) prefix of `t`.
(3) Strictness genuinely fails: on `["a","b"]` per character, consecutive
yields hold the identical string `"a"` at position `[0]`. -/
theorem c5_amended :
    (∀ (b b' : BState) (ts : List Token),
        GInv b → freshAlong b ts = true → buildSteps b ts = .ok b' →
        GInv b' ∧ Grows (obsVal b) (obsVal b')) ∧
    (∀ (p : List Seg) (v w : JsonValue) (s t : JStr),
        Grows v w → getAtPath v p = some (.str s) → getAtPath w p = some (.str t) →
        s <+: t) ∧
    ((run (perCharChunks "[\"a\",\"b\"]") false 40).yields[2]? =
        some (.arr [.str (jstr "a")]) ∧
     (run (perCharChunks "[\"a\",\"b\"]") false 40).yields[3]? =
        some (.arr [.str (jstr "a"), .str []]) ∧
     jstr "a" <+: jstr "a") := by
  refine ⟨?_, ?_, ?_, ?_, by decide⟩
  · intro b b' ts hG hfresh h
    exact buildSteps_grows hG hfresh h
  · intro p v w s t hg hv hw
    exact getAtPath_prefix_of_grows p hg hv hw
  · with_unfolding_all rfl
  · with_unfolding_all rfl

/-- Witness for the amended C5: a `Null` token appended to an open array
grows the observable value from `[]` to `[null]`, preserving the
invariant. -/
theorem c5_amended_witness :
    GInv (BState.mk [Frame.inArray [JsonValue.null]] none true false []) ∧
    Grows (obsVal (BState.mk [Frame.inArray []] none false false []))
      (obsVal (BState.mk [Frame.inArray [JsonValue.null]] none true false [])) := by
  refine c5_amended.1 (BState.mk [Frame.inArray []] none false false []) _ [Token.tnull]
    ⟨by simp, ?_, ?_, rfl⟩ rfl ?_
  · intro g hg
    simp at hg
  · intro g hg
    simp at hg
    rw [hg]
    rfl
  · with_unfolding_all rfl

/-! ## Post-order traversal (the comparison notion of the callback-order
claim, following the spec's words: children before parents, children in
stream order, each child tagged with its path). -/
mutual
def postOrder : JsonValue → List Seg → List (JsonValue × List Seg)
  | .arr items, p => postOrderArr items p 0 ++ [(.arr items, p)]
  | .obj e, p => postOrderObj e p ++ [(.obj e, p)]
  | v, p => [(v, p)]
termination_by v _ => sizeOf v
decreasing_by
  all_goals simp_wf
  all_goals omega

def postOrderArr : List JsonValue → List Seg → Int → List (JsonValue × List Seg)
  | [], _, _ => []
  | x :: xs, p, i => postOrder x (p ++ [.idx i]) ++ postOrderArr xs p (i + 1)
termination_by xs _ _ => sizeOf xs
decreasing_by
  all_goals simp_wf
  all_goals omega

def postOrderObj : List (JStr × JsonValue) → List Seg → List (JsonValue × List Seg)
  | [], _ => []
  | (k, v) :: es, p => postOrder v (p ++ [.key k]) ++ postOrderObj es p
termination_by es _ => sizeOf es
decreasing_by
  all_goals simp_wf
  all_goals omega
end

/-- The observable (value, path) sequence of the completion callbacks of a
run, paths computed by `CompleteValueInfo.segments()` on the recorded
stacks. -/
def cbsOf (r : RunOut) : List (JsonValue × Except String (List Seg)) :=
  r.final.p.tk.builder.callbacks.map (fun e => (e.value, segments e.stackAtCall))

set_option maxRecDepth 8000 in
/-- **C7 counterexample.**  On the valid document `{"a":1,"a":2}` (single
chunk, with a callback) the callback sequence has three entries — the
overridden first binding's `1` is reported at its own completion — while
the post-order traversal of the final parsed tree `{"a":2}` has only two;
so the claimed identity with the post-order traversal fails on valid
documents with duplicate keys. -/
theorem c7_postorder_counterexample :
    cbsOf (run [jstr "\x7b\"a\":1,\"a\":2\x7d"] true 100) =
      [(.num (jstr "1"), .ok [.key (jstr "a")]),
       (.num (jstr "2"), .ok [.key (jstr "a")]),
       (.obj [(jstr "a", .num (jstr "2"))], .ok [])] ∧
    (run [jstr "\x7b\"a\":1,\"a\":2\x7d"] true 100).yields =
      [.obj [(jstr "a", .num (jstr "2"))]] ∧
    ((postOrder (.obj [(jstr "a", .num (jstr "2"))]) []).map
        (fun q => (q.1, (Except.ok q.2 : Except String (List Seg))))) =
      [(.num (jstr "2"), .ok [.key (jstr "a")]),
       (.obj [(jstr "a", .num (jstr "2"))], .ok [])] ∧
    cbsOf (run [jstr "\x7b\"a\":1,\"a\":2\x7d"] true 100) ≠
      ((postOrder (.obj [(jstr "a", .num (jstr "2"))]) []).map
        (fun q => (q.1, (Except.ok q.2 : Except String (List Seg))))) := by
  have h1 : cbsOf (run [jstr "\x7b\"a\":1,\"a\":2\x7d"] true 100) =
      [(.num (jstr "1"), .ok [.key (jstr "a")]),
       (.num (jstr "2"), .ok [.key (jstr "a")]),
       (.obj [(jstr "a", .num (jstr "2"))], .ok [])] := by
    with_unfolding_all rfl
  have h3 : ((postOrder (.obj [(jstr "a", .num (jstr "2"))]) []).map
        (fun q => (q.1, (Except.ok q.2 : Except String (List Seg))))) =
      [(.num (jstr "2"), .ok [.key (jstr "a")]),
       (.obj [(jstr "a", .num (jstr "2"))], .ok [])] := by
    with_unfolding_all rfl
  refine ⟨h1, by with_unfolding_all rfl, h3, ?_⟩
  intro hcon
  rw [h1, h3] at hcon
  have hlen := congrArg List.length hcon
  simp at hlen


/-! ## Completion order is post-order (the corrected callback-order claim)

`reported st p` lists, for a bottom-first stack, every value already
reported by the completion callback, in completion order with its path:
each frame's completed children (a pending child lives in the frame above
and is not yet among them) contribute their full post-order traversals in
stream order, rooted at the frame's accumulated path. -/

/-- The path segment a frame contributes for its pending child (none for
the root, for a pending *key* string, and for `InString`, which never has
children). -/
def childSegs : Frame → List Seg
  | .inArray items => [.idx (items.length : Int)]
  | .inObjKey (some k) _ => [.key k]
  | .inObjValue k _ => [.key k]
  | _ => []

/-- The path accumulated below the top frame (bottom-first list). -/
def belowPath : List Frame → List Seg
  | [] => []
  | f :: rest => childSegs f ++ belowPath rest

/-- Completed values already reported, bottom-first, in completion order
with their paths. -/
def reported : List Frame → List Seg → List (JsonValue × List Seg)
  | [], _ => []
  | f :: rest, p =>
      (match f with
       | .inArray items => postOrderArr items p 0
       | .inObjKey _ e => postOrderObj e p
       | .inObjValue _ e => postOrderObj e p
       | _ => []) ++
      reported rest (p ++ childSegs f)

def mapOkSeg (l : List (JsonValue × List Seg)) :
    List (JsonValue × Except String (List Seg)) :=
  l.map (fun q => (q.1, .ok q.2))

/-- The observable (value, path) callback sequence of a builder state. -/
def cbSeq (b : BState) : List (JsonValue × Except String (List Seg)) :=
  b.callbacks.map (fun e => (e.value, segments e.stackAtCall))

/-- The callback record matches the completion order: everything below the
pending spine reported already, the whole post-order once the document has
completed. -/
def cbOk (b : BState) : Prop :=
  match b.stack with
  | [] =>
      match b.toplevel with
      | some v => cbSeq b = mapOkSeg (postOrder v [])
      | none => b.callbacks = []
  | st => cbSeq b = mapOkSeg (reported st.reverse [])

/-- Stack-shape conditions for the completion-order invariant: above a
pending object value or a keyless `InObjectExpectingKey` only the pending
(value or key) string may sit, and a non-string frame above
`InObjectExpectingKey (some k)` is the pending value for `k`, whose key is
still fresh. -/
def aboveOk2 : Frame → Frame → Bool
  | f, .inObjValue _ _ => match f with | .inString _ => true | _ => false
  | f, .inObjKey none _ => match f with | .inString _ => true | _ => false
  | f, .inObjKey (some k) e =>
      match f with
      | .inString _ => true
      | _ => (e.find? (fun p => p.1 = k)).isNone
  | _, _ => true

def shapeOk2 : List Frame → Bool
  | [] => true
  | [_] => true
  | f :: g :: rest => aboveOk2 f g && shapeOk2 (g :: rest)

/-- The full invariant for the completion-order theorem. -/
def PInv (b : BState) : Prop :=
  b.hasCb = true ∧
  WFStack b.stack ∧
  (∀ f ∈ b.stack, frameFresh f = true) ∧
  shapeOk2 b.stack = true ∧
  cbOk b

theorem postOrderArr_snoc (items : List JsonValue) (p : List Seg) (v : JsonValue) :
    ∀ (i : Int), postOrderArr (items ++ [v]) p i =
      postOrderArr items p i ++ postOrder v (p ++ [.idx (i + items.length)]) := by
  induction items with
  | nil =>
      intro i
      simp [postOrderArr]
  | cons x xs ih =>
      intro i
      rw [List.cons_append, postOrderArr, postOrderArr, ih (i + 1), List.append_assoc]
      have hi : i + 1 + (xs.length : Int) = i + ((xs.length : Int) + 1) := by omega
      rw [hi]
      norm_num

theorem postOrderObj_snoc (e : List (JStr × JsonValue)) (p : List Seg)
    (k : JStr) (v : JsonValue) :
    postOrderObj (e ++ [(k, v)]) p =
      postOrderObj e p ++ postOrder v (p ++ [.key k]) := by
  induction e with
  | nil => simp [postOrderObj]
  | cons q es ih =>
      cases q with
      | mk k2 v2 =>
          rw [List.cons_append, postOrderObj, postOrderObj, ih, List.append_assoc]

theorem belowPath_append (l1 l2 : List Frame) :
    belowPath (l1 ++ l2) = belowPath l1 ++ belowPath l2 := by
  induction l1 with
  | nil => simp [belowPath]
  | cons f rest ih => rw [List.cons_append, belowPath, belowPath, ih, List.append_assoc]

theorem reported_append (l1 l2 : List Frame) :
    ∀ (p : List Seg),
      reported (l1 ++ l2) p = reported l1 p ++ reported l2 (p ++ belowPath l1) := by
  induction l1 with
  | nil =>
      intro p
      simp [reported, belowPath]
  | cons f rest ih =>
      intro p
      cases f <;>
        simp [List.cons_append, List.append_eq, reported, ih, belowPath, List.append_assoc]

theorem segOfFrame_true_good {f : Frame} (h : frameOk f = true) :
    segOfFrame f true = .ok (childSegs f).head? := by
  cases f with
  | initial => simp [frameOk] at h
  | inString acc => simp [frameOk] at h
  | inArray items => rfl
  | inObjKey pk e => cases pk <;> rfl
  | inObjValue k e => rfl

theorem SFB_append_good {f0 : Frame} {res : List Seg} :
    ∀ {l : List Frame}, (∀ f ∈ l, frameOk f = true) →
    segmentsFromBottom [f0] = .ok res →
    segmentsFromBottom (l ++ [f0]) = .ok (belowPath l ++ res) := by
  intro l
  induction l with
  | nil =>
      intro _ hf0
      simpa [belowPath] using hf0
  | cons f l' ih =>
      intro hgood hf0
      have hf : frameOk f = true := hgood f (by simp)
      have hrec := ih (fun g hg => hgood g (by simp [hg])) hf0
      rw [List.cons_append, segmentsFromBottom]
      have hne : (!(l' ++ [f0]).isEmpty) = true := by simp
      rw [hne, segOfFrame_true_good hf, hrec]
      cases f with
      | initial => simp [frameOk] at hf
      | inString acc => simp [frameOk] at hf
      | inArray items =>
          simp [childSegs, belowPath, Bind.bind, Except.bind, Pure.pure, Except.pure]
      | inObjKey pk e =>
          cases pk <;>
            simp [childSegs, belowPath, Bind.bind, Except.bind, Pure.pure, Except.pure]
      | inObjValue k e =>
          simp [childSegs, belowPath, Bind.bind, Except.bind, Pure.pure, Except.pure]

theorem segments_top_general {f0 : Frame} {rest : List Frame} {res : List Seg}
    (hrest : GoodFrames rest) (hf0 : segmentsFromBottom [f0] = .ok res) :
    segments (f0 :: rest) = .ok (belowPath rest.reverse ++ res) := by
  rw [segments, List.reverse_cons]
  exact SFB_append_good (fun f hf => hrest f (by simpa using hf)) hf0

theorem mapOkSeg_append (a b : List (JsonValue × List Seg)) :
    mapOkSeg (a ++ b) = mapOkSeg a ++ mapOkSeg b := by
  simp [mapOkSeg]

theorem reported_top_arr (rev : List Frame) (items : List JsonValue) :
    reported (rev ++ [.inArray items]) [] =
      reported rev [] ++ postOrderArr items (belowPath rev) 0 := by
  rw [reported_append]
  simp [reported]

theorem reported_top_objk (rev : List Frame) (pk : Option JStr)
    (e : List (JStr × JsonValue)) :
    reported (rev ++ [.inObjKey pk e]) [] =
      reported rev [] ++ postOrderObj e (belowPath rev) := by
  rw [reported_append]
  simp [reported]

theorem reported_top_objv (rev : List Frame) (k : JStr)
    (e : List (JStr × JsonValue)) :
    reported (rev ++ [.inObjValue k e]) [] =
      reported rev [] ++ postOrderObj e (belowPath rev) := by
  rw [reported_append]
  simp [reported]

theorem reported_top_inString (rev : List Frame) (acc : JStr) :
    reported (rev ++ [.inString acc]) [] = reported rev [] := by
  rw [reported_append]
  simp [reported]

theorem reported_top_initial (rev : List Frame) :
    reported (rev ++ [.initial]) [] = reported rev [] := by
  rw [reported_append]
  simp [reported]

theorem shapeOk2_tail {f : Frame} {rest : List Frame}
    (h : shapeOk2 (f :: rest) = true) : shapeOk2 rest = true := by
  cases rest with
  | nil => rfl
  | cons g r =>
      simp only [shapeOk2, Bool.and_eq_true] at h
      exact h.2

theorem shapeOk2_head {f g : Frame} {r : List Frame}
    (h : shapeOk2 (f :: g :: r) = true) : aboveOk2 f g = true := by
  simp only [shapeOk2, Bool.and_eq_true] at h
  exact h.1

theorem shapeOk2_cons_of {f : Frame} {rest : List Frame} (hr : shapeOk2 rest = true)
    (hh : ∀ g r2, rest = g :: r2 → aboveOk2 f g = true) : shapeOk2 (f :: rest) = true := by
  cases rest with
  | nil => rfl
  | cons g r =>
      simp only [shapeOk2, Bool.and_eq_true]
      exact ⟨hh g r rfl, hr⟩

theorem aboveOk2_str (acc : JStr) (g : Frame) : aboveOk2 (.inString acc) g = true := by
  cases g with
  | inObjKey pk e => cases pk <;> rfl
  | _ => rfl

theorem aboveOk2_nonstr_any {f f' g : Frame} (h : aboveOk2 f g = true)
    (hf : ∀ acc, f ≠ Frame.inString acc) (hf' : ∀ acc, f' ≠ Frame.inString acc) :
    aboveOk2 f' g = true := by
  cases g with
  | inObjValue k e =>
      cases f with
      | inString acc => exact absurd rfl (hf acc)
      | initial => simp [aboveOk2] at h
      | inArray i2 => simp [aboveOk2] at h
      | inObjKey p2 e2 => simp [aboveOk2] at h
      | inObjValue k2 e2 => simp [aboveOk2] at h
  | inObjKey pk e =>
      cases pk with
      | none =>
          cases f with
          | inString acc => exact absurd rfl (hf acc)
          | initial => simp [aboveOk2] at h
          | inArray i2 => simp [aboveOk2] at h
          | inObjKey p2 e2 => simp [aboveOk2] at h
          | inObjValue k2 e2 => simp [aboveOk2] at h
      | some k =>
          have hiso : (e.find? (fun p => p.1 = k)).isNone = true := by
            cases f with
            | inString acc => exact absurd rfl (hf acc)
            | initial => simpa [aboveOk2] using h
            | inArray i2 => simpa [aboveOk2] using h
            | inObjKey p2 e2 => simpa [aboveOk2] using h
            | inObjValue k2 e2 => simpa [aboveOk2] using h
          cases f' with
          | inString acc => exact absurd rfl (hf' acc)
          | initial => simpa [aboveOk2] using hiso
          | inArray i2 => simpa [aboveOk2] using hiso
          | inObjKey p2 e2 => simpa [aboveOk2] using hiso
          | inObjValue k2 e2 => simpa [aboveOk2] using hiso
  | initial => cases f' <;> rfl
  | inString acc => cases f' <;> rfl
  | inArray items => cases f' <;> rfl

theorem aboveOk2_over_arr (f : Frame) (items : List JsonValue) :
    aboveOk2 f (.inArray items) = true := by
  cases f <;> rfl

theorem aboveOk2_over_objk_fresh {f : Frame} {k : JStr} {e : List (JStr × JsonValue)}
    (h : (e.find? (fun p => p.1 = k)).isNone = true) :
    aboveOk2 f (.inObjKey (some k) e) = true := by
  cases f <;> simp [aboveOk2, h]

theorem SFB_arr_snocframe (items : List JsonValue) (v : JsonValue) :
    segmentsFromBottom [Frame.inArray (items ++ [v])] =
      .ok [.idx (items.length : Int)] := by
  have hl : (((items ++ [v]).length : Int) - 1) = (items.length : Int) := by
    simp
  simp [segmentsFromBottom, segOfFrame, Bind.bind, Except.bind, Pure.pure, Except.pure, hl]

theorem SFB_single_objk (k : JStr) (e : List (JStr × JsonValue)) :
    segmentsFromBottom [Frame.inObjKey (some k) e] = .ok [.key k] := by
  simp [segmentsFromBottom, segOfFrame, Bind.bind, Except.bind, Pure.pure, Except.pure]

theorem SFB_single_objv (k : JStr) (e : List (JStr × JsonValue)) :
    segmentsFromBottom [Frame.inObjValue k e] = .ok [.key k] := by
  simp [segmentsFromBottom, segOfFrame, Bind.bind, Except.bind, Pure.pure, Except.pure]

theorem cbSeq_append_entry (b : BState) (v : JsonValue) (st : List Frame) :
    ((b.callbacks ++ [(⟨v, st⟩ : CbEntry)]).map (fun e => (e.value, segments e.stackAtCall))) =
      cbSeq b ++ [(v, segments st)] := by
  simp [cbSeq]

theorem WFStack_tail_of_cons {f : Frame} {rest : List Frame}
    (hwf : WFStack (f :: rest)) (hf : f ≠ Frame.initial) : GoodFrames rest := by
  rcases hwf with h1 | ⟨h2, h3⟩
  · exact absurd (List.cons.injEq _ _ _ _ ▸ h1).1 hf
  · simpa using h3

theorem PInv_step_arr_atomic {b b' : BState} {items : List JsonValue}
    {rest : List Frame} {v : JsonValue}
    (hP : PInv b)
    (hb : b.stack = .inArray items :: rest)
    (hb' : b'.stack = .inArray (items ++ [v]) :: rest)
    (hcb' : b'.callbacks =
      b.callbacks ++ [(⟨v, .inArray (items ++ [v]) :: rest⟩ : CbEntry)])
    (hhc : b'.hasCb = true)
    (hatom : ∀ p : List Seg, postOrder v p = [(v, p)]) :
    PInv b' := by
  obtain ⟨hhcb, hwf, hfr, hsh, hcb⟩ := hP
  have htail : GoodFrames rest := by
    rw [hb] at hwf
    exact WFStack_tail_of_cons hwf (by simp)
  have hsh' : shapeOk2 (Frame.inArray items :: rest) = true := by
    rw [hb] at hsh
    exact hsh
  refine ⟨hhc, ?_, ?_, ?_, ?_⟩
  · rw [hb']
    exact Or.inr ⟨by simp, by simpa using htail⟩
  · intro g hg
    rw [hb'] at hg
    rcases List.mem_cons.mp hg with hg | hg
    · rw [hg]; rfl
    · exact hfr g (by simp [hb, hg])
  · rw [hb']
    refine shapeOk2_cons_of (shapeOk2_tail hsh') ?_
    intro g r2 hr
    rw [hr] at hsh'
    exact aboveOk2_nonstr_any (shapeOk2_head hsh') (fun acc hh => by cases hh)
      (fun acc hh => by cases hh)
  · have hcbeq : cbSeq b = mapOkSeg (reported (Frame.inArray items :: rest).reverse []) := by
      simp only [cbOk, hb] at hcb
      exact hcb
    have hnew : cbSeq b' =
        cbSeq b ++ [(v, segments (Frame.inArray (items ++ [v]) :: rest))] := by
      rw [cbSeq, hcb']
      exact cbSeq_append_entry b v _
    simp only [cbOk, hb']
    rw [hnew, hcbeq,
        segments_top_general htail (SFB_arr_snocframe items v),
        List.reverse_cons, List.reverse_cons,
        reported_top_arr, reported_top_arr,
        postOrderArr_snoc items (belowPath rest.reverse) v 0,
        hatom, mapOkSeg_append, mapOkSeg_append, mapOkSeg_append]
    simp [mapOkSeg, List.append_assoc]

theorem PInv_step_objv_atomic {b b' : BState} {k : JStr}
    {e : List (JStr × JsonValue)} {rest : List Frame} {v : JsonValue}
    (hP : PInv b)
    (hb : b.stack = .inObjValue k e :: rest)
    (hb' : b'.stack = .inObjKey (some k) (setEntry e k v) :: rest)
    (hcb' : b'.callbacks =
      b.callbacks ++ [(⟨v, .inObjKey (some k) (setEntry e k v) :: rest⟩ : CbEntry)])
    (hhc : b'.hasCb = true)
    (hatom : ∀ p : List Seg, postOrder v p = [(v, p)]) :
    PInv b' := by
  obtain ⟨hhcb, hwf, hfr, hsh, hcb⟩ := hP
  have htail : GoodFrames rest := by
    rw [hb] at hwf
    exact WFStack_tail_of_cons hwf (by simp)
  have hsh' : shapeOk2 (Frame.inObjValue k e :: rest) = true := by
    rw [hb] at hsh
    exact hsh
  have hkfresh : (e.find? (fun p => p.1 = k)).isNone = true := by
    have h2 := hfr (.inObjValue k e) (by simp [hb])
    simpa [frameFresh] using h2
  have hset : setEntry e k v = e ++ [(k, v)] := setEntry_fresh_append hkfresh
  refine ⟨hhc, ?_, ?_, ?_, ?_⟩
  · rw [hb']
    exact Or.inr ⟨by simp, by simpa using htail⟩
  · intro g hg
    rw [hb'] at hg
    rcases List.mem_cons.mp hg with hg | hg
    · rw [hg]; rfl
    · exact hfr g (by simp [hb, hg])
  · rw [hb']
    refine shapeOk2_cons_of (shapeOk2_tail hsh') ?_
    intro g r2 hr
    rw [hr] at hsh'
    exact aboveOk2_nonstr_any (shapeOk2_head hsh') (fun acc hh => by cases hh)
      (fun acc hh => by cases hh)
  · have hcbeq : cbSeq b = mapOkSeg (reported (Frame.inObjValue k e :: rest).reverse []) := by
      simp only [cbOk, hb] at hcb
      exact hcb
    have hnew : cbSeq b' =
        cbSeq b ++ [(v, segments (Frame.inObjKey (some k) (setEntry e k v) :: rest))] := by
      rw [cbSeq, hcb']
      exact cbSeq_append_entry b v _
    simp only [cbOk, hb']
    rw [hnew, hcbeq,
        segments_top_general htail (SFB_single_objk k (setEntry e k v)),
        List.reverse_cons, List.reverse_cons,
        reported_top_objk, reported_top_objv, hset,
        postOrderObj_snoc, hatom, mapOkSeg_append, mapOkSeg_append, mapOkSeg_append]
    simp [mapOkSeg, List.append_assoc]

theorem PInv_step_objv_strend {b b' : BState} {k acc : JStr}
    {e : List (JStr × JsonValue)} {rest : List Frame}
    (hP : PInv b)
    (hb : b.stack = .inString acc :: .inObjValue k e :: rest)
    (hb' : b'.stack = .inObjKey (some k) (setEntry e k (.str acc)) :: rest)
    (hcb' : b'.callbacks = b.callbacks ++
      [(⟨.str acc, .inObjValue k (setEntry e k (.str acc)) :: rest⟩ : CbEntry)])
    (hhc : b'.hasCb = true) :
    PInv b' := by
  obtain ⟨hhcb, hwf, hfr, hsh, hcb⟩ := hP
  have htail0 : GoodFrames (Frame.inObjValue k e :: rest) := by
    rw [hb] at hwf
    exact WFStack_tail_of_cons hwf (by simp)
  have htail : GoodFrames rest := fun g hg => htail0 g (by simp [hg])
  have hsh' : shapeOk2 (Frame.inString acc :: Frame.inObjValue k e :: rest) = true := by
    rw [hb] at hsh
    exact hsh
  have hkfresh : (e.find? (fun p => p.1 = k)).isNone = true := by
    have h2 := hfr (.inObjValue k e) (by simp [hb])
    simpa [frameFresh] using h2
  have hset : setEntry e k (.str acc) = e ++ [(k, .str acc)] :=
    setEntry_fresh_append hkfresh
  refine ⟨hhc, ?_, ?_, ?_, ?_⟩
  · rw [hb']
    exact Or.inr ⟨by simp, by simpa using htail⟩
  · intro g hg
    rw [hb'] at hg
    rcases List.mem_cons.mp hg with hg | hg
    · rw [hg]; rfl
    · exact hfr g (by simp [hb, hg])
  · rw [hb']
    have hsh2 := shapeOk2_tail hsh'
    refine shapeOk2_cons_of (shapeOk2_tail hsh2) ?_
    intro g r2 hr
    rw [hr] at hsh2
    exact aboveOk2_nonstr_any (shapeOk2_head hsh2) (fun a2 hh => by cases hh)
      (fun a2 hh => by cases hh)
  · have hcbeq : cbSeq b =
        mapOkSeg (reported (Frame.inString acc :: Frame.inObjValue k e :: rest).reverse []) := by
      simp only [cbOk, hb] at hcb
      exact hcb
    have hnew : cbSeq b' =
        cbSeq b ++ [(.str acc,
          segments (Frame.inObjValue k (setEntry e k (.str acc)) :: rest))] := by
      rw [cbSeq, hcb']
      exact cbSeq_append_entry b _ _
    simp only [cbOk, hb']
    rw [hnew, hcbeq,
        segments_top_general htail (SFB_single_objv k (setEntry e k (.str acc))),
        List.reverse_cons, List.reverse_cons, List.reverse_cons, List.append_assoc,
        reported_top_objk, hset, postOrderObj_snoc]
    have hrepold : reported (rest.reverse ++ ([Frame.inObjValue k e] ++ [Frame.inString acc])) [] =
        reported rest.reverse [] ++ postOrderObj e (belowPath rest.reverse) := by
      rw [← List.append_assoc, reported_top_inString, reported_top_objv]
    rw [hrepold, mapOkSeg_append, mapOkSeg_append, mapOkSeg_append]
    simp [mapOkSeg, postOrder, List.append_assoc]

theorem PInv_step_push_over_arr {b b' : BState} {items : List JsonValue}
    {rest : List Frame} {c : Frame}
    (hP : PInv b)
    (hb : b.stack = .inArray items :: rest)
    (hb' : b'.stack = c :: .inArray items :: rest)
    (hcb' : b'.callbacks = b.callbacks)
    (hhc : b'.hasCb = true)
    (hcinit : c ≠ .initial) (hcfresh : frameFresh c = true)
    (hcnochild : ∀ p, reported [c] p = []) :
    PInv b' := by
  obtain ⟨hhcb, hwf, hfr, hfsh, hcb⟩ := hP
  have htail : GoodFrames rest := by
    rw [hb] at hwf
    exact WFStack_tail_of_cons hwf (by simp)
  have hsh' : shapeOk2 (Frame.inArray items :: rest) = true := by
    rw [hb] at hfsh
    exact hfsh
  refine ⟨hhc, ?_, ?_, ?_, ?_⟩
  · rw [hb']
    refine Or.inr ⟨by simpa using hcinit, ?_⟩
    intro g hg
    rcases List.mem_cons.mp (by simpa using hg) with hg | hg
    · rw [hg]; rfl
    · exact htail g hg
  · intro g hg
    rw [hb'] at hg
    rcases List.mem_cons.mp hg with hg | hg
    · rw [hg]; exact hcfresh
    · rcases List.mem_cons.mp hg with hg | hg
      · rw [hg]; rfl
      · exact hfr g (by simp [hb, hg])
  · rw [hb']
    refine shapeOk2_cons_of hsh' ?_
    intro g r2 hr
    cases hr
    exact aboveOk2_over_arr c items
  · have hcbeq : cbSeq b = mapOkSeg (reported (Frame.inArray items :: rest).reverse []) := by
      simp only [cbOk, hb] at hcb
      exact hcb
    simp only [cbOk, hb']
    have hnew : cbSeq b' = cbSeq b := by
      rw [cbSeq, hcb']
      rfl
    have hrepnew : reported ((rest.reverse ++ [Frame.inArray items]) ++ [c]) [] =
        reported (rest.reverse ++ [Frame.inArray items]) [] := by
      rw [reported_append, hcnochild]
      exact List.append_nil _
    rw [hnew, hcbeq]
    simp only [List.reverse_cons]
    rw [hrepnew]

theorem PInv_step_push_over_objv {b b' : BState} {k : JStr}
    {e : List (JStr × JsonValue)} {rest : List Frame} {c : Frame}
    (hP : PInv b)
    (hb : b.stack = .inObjValue k e :: rest)
    (hb' : b'.stack = c :: .inObjKey (some k) e :: rest)
    (hcb' : b'.callbacks = b.callbacks)
    (hhc : b'.hasCb = true)
    (hcinit : c ≠ .initial) (hcfresh : frameFresh c = true)
    (hcnochild : ∀ p, reported [c] p = []) :
    PInv b' := by
  obtain ⟨hhcb, hwf, hfr, hfsh, hcb⟩ := hP
  have htail : GoodFrames rest := by
    rw [hb] at hwf
    exact WFStack_tail_of_cons hwf (by simp)
  have hsh' : shapeOk2 (Frame.inObjValue k e :: rest) = true := by
    rw [hb] at hfsh
    exact hfsh
  have hkfresh : (e.find? (fun p => p.1 = k)).isNone = true := by
    have h2 := hfr (.inObjValue k e) (by simp [hb])
    simpa [frameFresh] using h2
  refine ⟨hhc, ?_, ?_, ?_, ?_⟩
  · rw [hb']
    refine Or.inr ⟨by simpa using hcinit, ?_⟩
    intro g hg
    rcases List.mem_cons.mp (by simpa using hg) with hg | hg
    · rw [hg]; rfl
    · exact htail g hg
  · intro g hg
    rw [hb'] at hg
    rcases List.mem_cons.mp hg with hg | hg
    · rw [hg]; exact hcfresh
    · rcases List.mem_cons.mp hg with hg | hg
      · rw [hg]; rfl
      · exact hfr g (by simp [hb, hg])
  · rw [hb']
    have hshnew : shapeOk2 (Frame.inObjKey (some k) e :: rest) = true := by
      refine shapeOk2_cons_of (shapeOk2_tail hsh') ?_
      intro g r2 hr
      rw [hr] at hsh'
      exact aboveOk2_nonstr_any (shapeOk2_head hsh') (fun acc hh => by cases hh)
        (fun acc hh => by cases hh)
    refine shapeOk2_cons_of hshnew ?_
    intro g r2 hr
    cases hr
    exact aboveOk2_over_objk_fresh hkfresh
  · have hcbeq : cbSeq b = mapOkSeg (reported (Frame.inObjValue k e :: rest).reverse []) := by
      simp only [cbOk, hb] at hcb
      exact hcb
    simp only [cbOk, hb']
    have hnew : cbSeq b' = cbSeq b := by
      rw [cbSeq, hcb']
      rfl
    have hrepnew : reported ((rest.reverse ++ [Frame.inObjKey (some k) e]) ++ [c]) [] =
        reported rest.reverse [] ++ postOrderObj e (belowPath rest.reverse) := by
      rw [reported_append, hcnochild]
      rw [List.append_nil]
      exact reported_top_objk rest.reverse (some k) e
    rw [hnew, hcbeq]
    simp only [List.reverse_cons]
    rw [hrepnew, reported_top_objv]

theorem PInv_step_keystring {b b' : BState} {pk : Option JStr}
    {e : List (JStr × JsonValue)} {rest : List Frame} {acc : JStr}
    (hP : PInv b)
    (hb : b.stack = .inObjKey pk e :: rest)
    (hb' : b'.stack = .inString acc :: .inObjKey pk e :: rest)
    (hcb' : b'.callbacks = b.callbacks)
    (hhc : b'.hasCb = true) :
    PInv b' := by
  obtain ⟨hhcb, hwf, hfr, hfsh, hcb⟩ := hP
  have htail : GoodFrames rest := by
    rw [hb] at hwf
    exact WFStack_tail_of_cons hwf (by simp)
  have hsh' : shapeOk2 (Frame.inObjKey pk e :: rest) = true := by
    rw [hb] at hfsh
    exact hfsh
  refine ⟨hhc, ?_, ?_, ?_, ?_⟩
  · rw [hb']
    refine Or.inr ⟨by simp, ?_⟩
    intro g hg
    rcases List.mem_cons.mp (by simpa using hg) with hg | hg
    · rw [hg]; rfl
    · exact htail g hg
  · intro g hg
    rw [hb'] at hg
    rcases List.mem_cons.mp hg with hg | hg
    · rw [hg]; rfl
    · rcases List.mem_cons.mp hg with hg | hg
      · rw [hg]; rfl
      · exact hfr g (by simp [hb, hg])
  · rw [hb']
    refine shapeOk2_cons_of hsh' ?_
    intro g r2 hr
    exact aboveOk2_str acc g
  · have hcbeq : cbSeq b = mapOkSeg (reported (Frame.inObjKey pk e :: rest).reverse []) := by
      simp only [cbOk, hb] at hcb
      exact hcb
    simp only [cbOk, hb']
    have hnew : cbSeq b' = cbSeq b := by
      rw [cbSeq, hcb']
      rfl
    rw [hnew, hcbeq, List.reverse_cons, List.reverse_cons, List.reverse_cons,
        List.append_assoc, reported_append, reported_append]
    simp [reported]

theorem PInv_step_strmid {b b' : BState} {acc s2 : JStr} {rest : List Frame}
    (hP : PInv b)
    (hb : b.stack = .inString acc :: rest)
    (hb' : b'.stack = .inString (acc ++ s2) :: rest)
    (hcb' : b'.callbacks = b.callbacks)
    (hhc : b'.hasCb = true) :
    PInv b' := by
  obtain ⟨hhcb, hwf, hfr, hfsh, hcb⟩ := hP
  have htail : GoodFrames rest := by
    rw [hb] at hwf
    exact WFStack_tail_of_cons hwf (by simp)
  have hsh' : shapeOk2 (Frame.inString acc :: rest) = true := by
    rw [hb] at hfsh
    exact hfsh
  refine ⟨hhc, ?_, ?_, ?_, ?_⟩
  · rw [hb']
    exact Or.inr ⟨by simp, by simpa using htail⟩
  · intro g hg
    rw [hb'] at hg
    rcases List.mem_cons.mp hg with hg | hg
    · rw [hg]; rfl
    · exact hfr g (by simp [hb, hg])
  · rw [hb']
    refine shapeOk2_cons_of (shapeOk2_tail hsh') ?_
    intro g r2 hr
    exact aboveOk2_str _ g
  · have hcbeq : cbSeq b = mapOkSeg (reported (Frame.inString acc :: rest).reverse []) := by
      simp only [cbOk, hb] at hcb
      exact hcb
    simp only [cbOk, hb']
    have hnew : cbSeq b' = cbSeq b := by
      rw [cbSeq, hcb']
      rfl
    rw [hnew, hcbeq, List.reverse_cons, List.reverse_cons,
        reported_top_inString, reported_top_inString]

theorem PInv_step_keyend {b b' : BState} {acc : JStr} {pk : Option JStr}
    {e : List (JStr × JsonValue)} {rest : List Frame}
    (hP : PInv b)
    (hb : b.stack = .inString acc :: .inObjKey pk e :: rest)
    (hb' : b'.stack = .inObjValue acc e :: rest)
    (hcb' : b'.callbacks = b.callbacks)
    (hhc : b'.hasCb = true)
    (hkfresh : (e.find? (fun p => p.1 = acc)).isNone = true) :
    PInv b' := by
  obtain ⟨hhcb, hwf, hfr, hfsh, hcb⟩ := hP
  have htail0 : GoodFrames (Frame.inObjKey pk e :: rest) := by
    rw [hb] at hwf
    exact WFStack_tail_of_cons hwf (by simp)
  have htail : GoodFrames rest := fun g hg => htail0 g (by simp [hg])
  have hsh' : shapeOk2 (Frame.inString acc :: Frame.inObjKey pk e :: rest) = true := by
    rw [hb] at hfsh
    exact hfsh
  refine ⟨hhc, ?_, ?_, ?_, ?_⟩
  · rw [hb']
    exact Or.inr ⟨by simp, by simpa using htail⟩
  · intro g hg
    rw [hb'] at hg
    rcases List.mem_cons.mp hg with hg | hg
    · rw [hg]
      simpa [frameFresh] using hkfresh
    · exact hfr g (by simp [hb, hg])
  · rw [hb']
    have hsh2 := shapeOk2_tail hsh'
    refine shapeOk2_cons_of (shapeOk2_tail hsh2) ?_
    intro g r2 hr
    rw [hr] at hsh2
    exact aboveOk2_nonstr_any (shapeOk2_head hsh2) (fun a2 hh => by cases hh)
      (fun a2 hh => by cases hh)
  · have hcbeq : cbSeq b =
        mapOkSeg (reported (Frame.inString acc :: Frame.inObjKey pk e :: rest).reverse []) := by
      simp only [cbOk, hb] at hcb
      exact hcb
    simp only [cbOk, hb']
    have hnew : cbSeq b' = cbSeq b := by
      rw [cbSeq, hcb']
      rfl
    rw [hnew, hcbeq, List.reverse_cons, List.reverse_cons, List.reverse_cons,
        List.append_assoc, reported_append, reported_top_objv, reported_append]
    simp [reported]

theorem PInv_step_pop {b b' : BState} {f0 : Frame} {rest : List Frame} {v : JsonValue}
    (chunk : List Seg → List (JsonValue × List Seg))
    (hP : PInv b)
    (hb : b.stack = f0 :: rest)
    (hhc : b'.hasCb = true)
    (hpo : ∀ p, postOrder v p = chunk p ++ [(v, p)])
    (hrep : ∀ rev, reported (rev ++ [f0]) [] = reported rev [] ++ chunk (belowPath rev))
    (hcase :
      (rest = [] ∧ b'.stack = [] ∧ b'.toplevel = some v ∧
        b'.callbacks = b.callbacks ++ [(⟨v, []⟩ : CbEntry)]) ∨
      (∃ items2 r2, rest = .inArray items2 :: r2 ∧
        b'.stack = .inArray (items2 ++ [v]) :: r2 ∧
        b'.callbacks = b.callbacks ++
          [(⟨v, .inArray (items2 ++ [v]) :: r2⟩ : CbEntry)]) ∨
      (∃ k2 e2 r2, rest = .inObjKey (some k2) e2 :: r2 ∧
        (e2.find? (fun q => q.1 = k2)).isNone = true ∧
        b'.stack = .inObjKey (some k2) (setEntry e2 k2 v) :: r2 ∧
        b'.callbacks = b.callbacks ++
          [(⟨v, .inObjKey (some k2) (setEntry e2 k2 v) :: r2⟩ : CbEntry)])) :
    PInv b' := by
  obtain ⟨hhcb, hwf, hfr, hfsh, hcb⟩ := hP
  rcases hcase with ⟨hr, hs', ht', hcb'⟩ | ⟨items2, r2, hr, hs', hcb'⟩ |
    ⟨k2, e2, r2, hr, hk2, hs', hcb'⟩
  · subst hr
    have hcbeq : cbSeq b = mapOkSeg (reported ([f0].reverse) []) := by
      simp only [cbOk, hb] at hcb
      exact hcb
    refine ⟨hhc, by rw [hs']; exact WFStack_nil, by simp [hs'],
      by simp [hs', shapeOk2], ?_⟩
    simp only [cbOk, hs', ht']
    have hnew : cbSeq b' = cbSeq b ++ [(v, segments ([] : List Frame))] := by
      rw [cbSeq, hcb']
      exact cbSeq_append_entry b v _
    have hseg : segments ([] : List Frame) = .ok [] := rfl
    have h0 : reported [f0].reverse [] = chunk [] := by
      have h1 := hrep []
      simpa [reported, belowPath] using h1
    rw [hnew, hcbeq, hseg, hpo, h0, mapOkSeg_append]
    simp [mapOkSeg]
  · subst hr
    have htail0 : GoodFrames (Frame.inArray items2 :: r2) := by
      rw [hb] at hwf
      rcases hwf with h1 | ⟨h2, h3⟩
      · simp at h1
      · simpa using h3
    have htail : GoodFrames r2 := fun g hg => htail0 g (by simp [hg])
    have hsh' : shapeOk2 (f0 :: Frame.inArray items2 :: r2) = true := by
      rw [hb] at hfsh
      exact hfsh
    refine ⟨hhc, ?_, ?_, ?_, ?_⟩
    · rw [hs']
      exact Or.inr ⟨by simp, by simpa using htail⟩
    · intro g hg
      rw [hs'] at hg
      rcases List.mem_cons.mp hg with hg | hg
      · rw [hg]; rfl
      · exact hfr g (by simp [hb, hg])
    · rw [hs']
      have hsh2 := shapeOk2_tail hsh'
      refine shapeOk2_cons_of (shapeOk2_tail hsh2) ?_
      intro g r3 hr3
      rw [hr3] at hsh2
      exact aboveOk2_nonstr_any (shapeOk2_head hsh2) (fun acc hh => by cases hh)
        (fun acc hh => by cases hh)
    · have hcbeq : cbSeq b =
          mapOkSeg (reported ((f0 :: Frame.inArray items2 :: r2).reverse) []) := by
        simp only [cbOk, hb] at hcb
        exact hcb
      simp only [cbOk, hs']
      have hnew : cbSeq b' =
          cbSeq b ++ [(v, segments (Frame.inArray (items2 ++ [v]) :: r2))] := by
        rw [cbSeq, hcb']
        exact cbSeq_append_entry b v _
      have hbp : belowPath (r2.reverse ++ [Frame.inArray items2]) =
          belowPath r2.reverse ++ [.idx (items2.length : Int)] := by
        rw [belowPath_append]
        simp [belowPath, childSegs]
      have hold : reported ((f0 :: Frame.inArray items2 :: r2).reverse) [] =
          reported r2.reverse [] ++ postOrderArr items2 (belowPath r2.reverse) 0 ++
            chunk (belowPath r2.reverse ++ [.idx (items2.length : Int)]) := by
        rw [List.reverse_cons, List.reverse_cons, List.append_assoc]
        rw [show [Frame.inArray items2] ++ [f0] =
              ([Frame.inArray items2] ++ [f0] : List Frame) from rfl]
        rw [← List.append_assoc, hrep, reported_top_arr, hbp]
      have hnewrep : reported ((Frame.inArray (items2 ++ [v]) :: r2).reverse) [] =
          reported r2.reverse [] ++ postOrderArr items2 (belowPath r2.reverse) 0 ++
            (chunk (belowPath r2.reverse ++ [.idx (items2.length : Int)]) ++
              [(v, belowPath r2.reverse ++ [.idx (items2.length : Int)])]) := by
        rw [List.reverse_cons, reported_top_arr,
            postOrderArr_snoc items2 (belowPath r2.reverse) v 0]
        have hz : ((0 : Int) + (items2.length : Int)) = (items2.length : Int) := by omega
        rw [hz, hpo, List.append_assoc]
      rw [hnew, hcbeq,
          segments_top_general htail (SFB_arr_snocframe items2 v),
          hold, hnewrep, mapOkSeg_append, mapOkSeg_append, mapOkSeg_append,
          mapOkSeg_append]
      simp [mapOkSeg, List.append_assoc]
  · subst hr
    have htail0 : GoodFrames (Frame.inObjKey (some k2) e2 :: r2) := by
      rw [hb] at hwf
      rcases hwf with h1 | ⟨h2, h3⟩
      · simp at h1
      · simpa using h3
    have htail : GoodFrames r2 := fun g hg => htail0 g (by simp [hg])
    have hsh' : shapeOk2 (f0 :: Frame.inObjKey (some k2) e2 :: r2) = true := by
      rw [hb] at hfsh
      exact hfsh
    have hset : setEntry e2 k2 v = e2 ++ [(k2, v)] := setEntry_fresh_append hk2
    refine ⟨hhc, ?_, ?_, ?_, ?_⟩
    · rw [hs']
      exact Or.inr ⟨by simp, by simpa using htail⟩
    · intro g hg
      rw [hs'] at hg
      rcases List.mem_cons.mp hg with hg | hg
      · rw [hg]; rfl
      · exact hfr g (by simp [hb, hg])
    · rw [hs']
      have hsh2 := shapeOk2_tail hsh'
      refine shapeOk2_cons_of (shapeOk2_tail hsh2) ?_
      intro g r3 hr3
      rw [hr3] at hsh2
      exact aboveOk2_nonstr_any (shapeOk2_head hsh2) (fun acc hh => by cases hh)
        (fun acc hh => by cases hh)
    · have hcbeq : cbSeq b =
          mapOkSeg (reported ((f0 :: Frame.inObjKey (some k2) e2 :: r2).reverse) []) := by
        simp only [cbOk, hb] at hcb
        exact hcb
      simp only [cbOk, hs']
      have hnew : cbSeq b' =
          cbSeq b ++ [(v, segments (Frame.inObjKey (some k2) (setEntry e2 k2 v) :: r2))] := by
        rw [cbSeq, hcb']
        exact cbSeq_append_entry b v _
      have hbp : belowPath (r2.reverse ++ [Frame.inObjKey (some k2) e2]) =
          belowPath r2.reverse ++ [.key k2] := by
        rw [belowPath_append]
        simp [belowPath, childSegs]
      have hold : reported ((f0 :: Frame.inObjKey (some k2) e2 :: r2).reverse) [] =
          reported r2.reverse [] ++ postOrderObj e2 (belowPath r2.reverse) ++
            chunk (belowPath r2.reverse ++ [.key k2]) := by
        rw [List.reverse_cons, List.reverse_cons, List.append_assoc]
        rw [← List.append_assoc, hrep, reported_top_objk, hbp]
      have hnewrep : reported ((Frame.inObjKey (some k2) (setEntry e2 k2 v) :: r2).reverse) [] =
          reported r2.reverse [] ++ postOrderObj e2 (belowPath r2.reverse) ++
            (chunk (belowPath r2.reverse ++ [.key k2]) ++
              [(v, belowPath r2.reverse ++ [.key k2])]) := by
        rw [List.reverse_cons, reported_top_objk, hset,
            postOrderObj_snoc, hpo, List.append_assoc]
      rw [hnew, hcbeq,
          segments_top_general htail (SFB_single_objk k2 (setEntry e2 k2 v)),
          hold, hnewrep, mapOkSeg_append, mapOkSeg_append, mapOkSeg_append,
          mapOkSeg_append]
      simp [mapOkSeg, List.append_assoc]

theorem aboveOk2_objk_fresh_of_nonstr {f : Frame} {k : JStr} {e : List (JStr × JsonValue)}
    (h : aboveOk2 f (.inObjKey (some k) e) = true)
    (hf : ∀ acc, f ≠ Frame.inString acc) :
    (e.find? (fun p => p.1 = k)).isNone = true := by
  cases f with
  | inString acc => exact absurd rfl (hf acc)
  | initial => simpa [aboveOk2] using h
  | inArray i2 => simpa [aboveOk2] using h
  | inObjKey p2 e2 => simpa [aboveOk2] using h
  | inObjValue k2 e2 => simpa [aboveOk2] using h

theorem PInv_step_root_atomic {b b' : BState} {v : JsonValue}
    (hP : PInv b)
    (hb : b.stack = [.initial])
    (hb' : b'.stack = [])
    (ht' : b'.toplevel = some v)
    (hcb' : b'.callbacks = b.callbacks ++ [(⟨v, []⟩ : CbEntry)])
    (hhc : b'.hasCb = true)
    (hatom : ∀ p : List Seg, postOrder v p = [(v, p)]) :
    PInv b' := by
  obtain ⟨hhcb, hwf, hfr, hfsh, hcb⟩ := hP
  have hcbeq : cbSeq b = [] := by
    simp only [cbOk, hb] at hcb
    simpa [reported, mapOkSeg] using hcb
  refine ⟨hhc, by rw [hb']; exact WFStack_nil, by simp [hb'], by simp [hb', shapeOk2], ?_⟩
  simp only [cbOk, hb', ht']
  have hnew : cbSeq b' = cbSeq b ++ [(v, segments ([] : List Frame))] := by
    rw [cbSeq, hcb']
    exact cbSeq_append_entry b v _
  have hseg : segments ([] : List Frame) = .ok [] := rfl
  rw [hnew, hcbeq, hatom, hseg]
  simp [mapOkSeg]

theorem PInv_step_root_push {b b' : BState} {c : Frame}
    (hP : PInv b)
    (hb : b.stack = [.initial])
    (hb' : b'.stack = [c])
    (hcb' : b'.callbacks = b.callbacks)
    (hhc : b'.hasCb = true)
    (hcinit : c ≠ .initial) (hcfresh : frameFresh c = true)
    (hcnochild : ∀ p, reported [c] p = []) :
    PInv b' := by
  obtain ⟨hhcb, hwf, hfr, hfsh, hcb⟩ := hP
  have hcbeq : cbSeq b = [] := by
    simp only [cbOk, hb] at hcb
    simpa [reported, mapOkSeg] using hcb
  refine ⟨hhc, ?_, ?_, ?_, ?_⟩
  · rw [hb']
    exact Or.inr ⟨by simpa using hcinit, by simp [GoodFrames]⟩
  · intro g hg
    rw [hb'] at hg
    simp at hg
    rw [hg]
    exact hcfresh
  · rw [hb']
    rfl
  · simp only [cbOk, hb']
    have hnew : cbSeq b' = cbSeq b := by
      rw [cbSeq, hcb']
      rfl
    rw [hnew, hcbeq]
    simp [hcnochild, mapOkSeg]

theorem PInv_step_push_str_objv {b b' : BState} {k : JStr}
    {e : List (JStr × JsonValue)} {rest : List Frame}
    (hP : PInv b)
    (hb : b.stack = .inObjValue k e :: rest)
    (hb' : b'.stack = .inString [] :: .inObjValue k e :: rest)
    (hcb' : b'.callbacks = b.callbacks)
    (hhc : b'.hasCb = true) :
    PInv b' := by
  obtain ⟨hhcb, hwf, hfr, hfsh, hcb⟩ := hP
  have htail : GoodFrames rest := by
    rw [hb] at hwf
    exact WFStack_tail_of_cons hwf (by simp)
  have hsh' : shapeOk2 (Frame.inObjValue k e :: rest) = true := by
    rw [hb] at hfsh
    exact hfsh
  refine ⟨hhc, ?_, ?_, ?_, ?_⟩
  · rw [hb']
    refine Or.inr ⟨by simp, ?_⟩
    intro g hg
    rcases List.mem_cons.mp (by simpa using hg) with hg | hg
    · rw [hg]; rfl
    · exact htail g hg
  · intro g hg
    rw [hb'] at hg
    rcases List.mem_cons.mp hg with hg | hg
    · rw [hg]; rfl
    · exact hfr g (by simp [hb, hg])
  · rw [hb']
    refine shapeOk2_cons_of hsh' ?_
    intro g r2 hr
    exact aboveOk2_str [] g
  · have hcbeq : cbSeq b = mapOkSeg (reported (Frame.inObjValue k e :: rest).reverse []) := by
      simp only [cbOk, hb] at hcb
      exact hcb
    simp only [cbOk, hb']
    have hnew : cbSeq b' = cbSeq b := by
      rw [cbSeq, hcb']
      rfl
    have hrepnew : reported ((rest.reverse ++ [Frame.inObjValue k e]) ++ [Frame.inString []]) [] =
        reported (rest.reverse ++ [Frame.inObjValue k e]) [] := by
      rw [reported_top_inString]
    rw [hnew, hcbeq]
    simp only [List.reverse_cons]
    rw [hrepnew]

theorem handleValueToken_PInv {b b' : BState} {t : Token}
    (hP : PInv b) (h : handleValueToken b t = .ok b') : PInv b' := by
  have hhcb := hP.1
  have hwf := hP.2.1
  cases hst : b.stack with
  | nil => simp [handleValueToken, currentState, hst] at h
  | cons f rest =>
    cases f with
    | initial =>
        have hrnil : rest = [] := by
          rcases hwf with h1 | ⟨h2, _⟩
          · rw [hst] at h1
            exact (List.cons.injEq _ _ _ _ ▸ h1).2
          · rw [hst] at h2
            simp at h2
        subst hrnil
        by_cases hp : b.progressed = true <;>
          cases t <;>
            simp [handleValueToken, currentState, hst, progressValue, docb, hp, hhcb] at h <;>
            cases h <;>
            first
              | exact PInv_step_root_atomic hP hst rfl rfl rfl (by simp [hhcb])
                  (fun p => by simp [postOrder])
              | exact PInv_step_root_push hP hst rfl rfl (by simp [hhcb]) (by simp) rfl
                  (fun p => by simp [reported, postOrderArr, postOrderObj])
    | inString acc => simp [handleValueToken, currentState, hst] at h
    | inObjKey pk e => simp [handleValueToken, currentState, hst] at h
    | inArray items =>
        by_cases hp : b.progressed = true <;>
          cases t <;>
            simp [handleValueToken, currentState, hst, progressValue, docb, hp, hhcb] at h <;>
            cases h <;>
            first
              | exact PInv_step_arr_atomic hP hst rfl rfl (by simp [hhcb])
                  (fun p => by simp [postOrder])
              | exact PInv_step_push_over_arr hP hst rfl rfl (by simp [hhcb]) (by simp) rfl
                  (fun p => by simp [reported, postOrderArr, postOrderObj])
    | inObjValue k e =>
        by_cases hp : b.progressed = true <;>
          cases t <;>
            simp [handleValueToken, currentState, hst, progressValue, docb, hp, hhcb] at h <;>
            cases h <;>
            first
              | exact PInv_step_objv_atomic hP hst rfl rfl (by simp [hhcb])
                  (fun p => by simp [postOrder])
              | exact PInv_step_push_over_objv hP hst rfl rfl (by simp [hhcb]) (by simp) rfl
                  (fun p => by simp [reported, postOrderArr, postOrderObj])
              | exact PInv_step_push_str_objv hP hst rfl rfl (by simp [hhcb])

theorem handleStringStart_PInv {b b' : BState}
    (hP : PInv b) (h : handleStringStart b = .ok b') : PInv b' := by
  have hhcb := hP.1
  have hwf := hP.2.1
  cases hst : b.stack with
  | nil => simp [handleStringStart, currentState, hst] at h
  | cons f rest =>
    cases f with
    | initial =>
        have hrnil : rest = [] := by
          rcases hwf with h1 | ⟨h2, _⟩
          · rw [hst] at h1
            exact (List.cons.injEq _ _ _ _ ▸ h1).2
          · rw [hst] at h2
            simp at h2
        subst hrnil
        by_cases hp : b.progressed = true <;>
          simp [handleStringStart, currentState, hst, progressValue, Frame.isObjKey, hp] at h <;>
          cases h <;>
          exact PInv_step_root_push hP hst rfl rfl (by simp [hhcb]) (by simp) rfl
            (fun p => by simp [reported])
    | inString acc => simp [handleStringStart, currentState, hst] at h
    | inArray items =>
        by_cases hp : b.progressed = true <;>
          simp [handleStringStart, currentState, hst, progressValue, Frame.isObjKey, hp] at h <;>
          cases h <;>
          exact PInv_step_push_over_arr hP hst rfl rfl (by simp [hhcb]) (by simp) rfl
            (fun p => by simp [reported])
    | inObjKey pk e =>
        by_cases hp : b.progressed = true <;>
          simp [handleStringStart, currentState, hst, progressValue, Frame.isObjKey, hp] at h <;>
          cases h <;>
          exact PInv_step_keystring hP hst rfl rfl (by simp [hhcb])
    | inObjValue k e =>
        by_cases hp : b.progressed = true <;>
          simp [handleStringStart, currentState, hst, progressValue, Frame.isObjKey, hp] at h <;>
          cases h <;>
          exact PInv_step_push_str_objv hP hst rfl rfl (by simp [hhcb])

theorem handleStringMiddle_PInv {b b' : BState} {s : JStr}
    (hP : PInv b) (h : handleStringMiddle b s = .ok b') : PInv b' := by
  have hhcb := hP.1
  cases hst : b.stack with
  | nil => simp [handleStringMiddle, currentState, hst] at h
  | cons f rest =>
    cases f with
    | inString acc =>
        cases rest with
        | nil =>
            by_cases hp : b.progressed = true <;>
              simp [handleStringMiddle, currentState, hst, updateStringParent, hp] at h <;>
              cases h <;>
              exact PInv_step_strmid hP hst rfl rfl (by simp [hhcb])
        | cons g rest' =>
            cases g with
            | initial =>
                simp [handleStringMiddle, currentState, hst, updateStringParent,
                      apply_ite BState.stack, ite_self] at h
            | inString acc2 =>
                simp [handleStringMiddle, currentState, hst, updateStringParent,
                      apply_ite BState.stack, ite_self] at h
            | inArray items =>
                by_cases hp : b.progressed = true <;>
                  simp [handleStringMiddle, currentState, hst, updateStringParent,
                        Frame.isObjKey, hp] at h <;>
                  cases h <;>
                  exact PInv_step_strmid hP hst rfl rfl (by simp [hhcb])
            | inObjKey pk e =>
                by_cases hp : b.progressed = true <;>
                  simp [handleStringMiddle, currentState, hst, updateStringParent,
                        Frame.isObjKey, hp] at h <;>
                  cases h <;>
                  exact PInv_step_strmid hP hst rfl rfl (by simp [hhcb])
            | inObjValue k e =>
                by_cases hp : b.progressed = true <;>
                  simp [handleStringMiddle, currentState, hst, updateStringParent,
                        Frame.isObjKey, hp] at h <;>
                  cases h <;>
                  exact PInv_step_strmid hP hst rfl rfl (by simp [hhcb])
    | initial =>
        simp [handleStringMiddle, currentState, hst, apply_ite BState.stack, ite_self] at h
    | inArray items =>
        simp [handleStringMiddle, currentState, hst, apply_ite BState.stack, ite_self] at h
    | inObjKey pk e =>
        simp [handleStringMiddle, currentState, hst, apply_ite BState.stack, ite_self] at h
    | inObjValue k e =>
        simp [handleStringMiddle, currentState, hst, apply_ite BState.stack, ite_self] at h

theorem handleStringEnd_PInv {b b' : BState}
    (hP : PInv b) (hfresh : freshStepOk b .stringEnd = true)
    (h : handleStringEnd b = .ok b') : PInv b' := by
  have hhcb := hP.1
  cases hst : b.stack with
  | nil => simp [handleStringEnd, currentState, hst] at h
  | cons f rest =>
    cases f with
    | inString acc =>
        cases rest with
        | nil =>
            simp [handleStringEnd, currentState, hst, updateStringParent, docb, hhcb] at h
            cases h
            exact PInv_step_pop (fun _ => []) hP hst (by simp [hhcb])
              (fun p => by simp [postOrder])
              (fun rev => by simp [reported_top_inString])
              (Or.inl ⟨rfl, rfl, rfl, rfl⟩)
        | cons g rest' =>
            cases g with
            | initial =>
                simp [handleStringEnd, currentState, hst, updateStringParent] at h
            | inString acc2 =>
                simp [handleStringEnd, currentState, hst, updateStringParent] at h
            | inArray items =>
                simp [handleStringEnd, currentState, hst, updateStringParent, docb, hhcb] at h
                cases h
                exact PInv_step_pop (fun _ => []) hP hst (by simp [hhcb])
                  (fun p => by simp [postOrder])
                  (fun rev => by simp [reported_top_inString])
                  (Or.inr (Or.inl ⟨items, rest', rfl, rfl, rfl⟩))
            | inObjValue k e =>
                simp [handleStringEnd, currentState, hst, updateStringParent, docb, hhcb] at h
                cases h
                exact PInv_step_objv_strend hP hst rfl rfl (by simp [hhcb])
            | inObjKey pk e =>
                have hkfresh : (e.find? (fun p => p.1 = acc)).isNone = true := by
                  rw [freshStepOk, hst] at hfresh
                  exact hfresh
                simp [handleStringEnd, currentState, hst, updateStringParent] at h
                cases h
                exact PInv_step_keyend hP hst rfl rfl (by simp [hhcb]) hkfresh
    | initial => simp [handleStringEnd, currentState, hst] at h
    | inArray items => simp [handleStringEnd, currentState, hst] at h
    | inObjKey pk e => simp [handleStringEnd, currentState, hst] at h
    | inObjValue k e => simp [handleStringEnd, currentState, hst] at h

theorem handleArrayEnd_PInv {b b' : BState}
    (hP : PInv b) (h : handleArrayEnd b = .ok b') : PInv b' := by
  have hhcb := hP.1
  cases hst : b.stack with
  | nil => simp [handleArrayEnd, currentState, hst] at h
  | cons f rest =>
    cases f with
    | inArray items =>
        cases rest with
        | nil =>
            simp [handleArrayEnd, currentState, hst, writeBackOnPop, docb, hhcb] at h
            cases h
            exact PInv_step_pop (fun p => postOrderArr items p 0) hP hst (by simp [hhcb])
              (fun p => by simp [postOrder])
              (fun rev => reported_top_arr rev items)
              (Or.inl ⟨rfl, rfl, rfl, rfl⟩)
        | cons g rest' =>
            have htail0 : GoodFrames (g :: rest') := by
              have hwf := hP.2.1
              rw [hst] at hwf
              rcases hwf with h1 | ⟨h2, h3⟩
              · simp at h1
              · simpa using h3
            have hsh' : shapeOk2 (Frame.inArray items :: g :: rest') = true := by
              have hf := hP.2.2.2.1
              rw [hst] at hf
              exact hf
            cases g with
            | initial =>
                have hg2 : frameOk Frame.initial = true := htail0 _ (by simp)
                simp [frameOk] at hg2
            | inString acc2 =>
                have hg2 : frameOk (Frame.inString acc2) = true := htail0 _ (by simp)
                simp [frameOk] at hg2
            | inObjValue k2 e2 =>
                have hsh2 := shapeOk2_head hsh'
                simp [aboveOk2] at hsh2
            | inArray items2 =>
                simp [handleArrayEnd, currentState, hst, writeBackOnPop, docb, hhcb] at h
                cases h
                exact PInv_step_pop (fun p => postOrderArr items p 0) hP hst (by simp [hhcb])
                  (fun p => by simp [postOrder])
                  (fun rev => reported_top_arr rev items)
                  (Or.inr (Or.inl ⟨items2, rest', rfl, rfl, rfl⟩))
            | inObjKey pk2 e2 =>
                cases pk2 with
                | none =>
                    have hsh2 := shapeOk2_head hsh'
                    simp [aboveOk2] at hsh2
                | some k2 =>
                    have hk2 : (e2.find? (fun q => q.1 = k2)).isNone = true :=
                      aboveOk2_objk_fresh_of_nonstr (shapeOk2_head hsh')
                        (fun acc hh => by cases hh)
                    simp [handleArrayEnd, currentState, hst, writeBackOnPop, docb, hhcb] at h
                    cases h
                    exact PInv_step_pop (fun p => postOrderArr items p 0) hP hst (by simp [hhcb])
                      (fun p => by simp [postOrder])
                      (fun rev => reported_top_arr rev items)
                      (Or.inr (Or.inr ⟨k2, e2, rest', rfl, hk2, rfl, rfl⟩))
    | initial => simp [handleArrayEnd, currentState, hst] at h
    | inString acc => simp [handleArrayEnd, currentState, hst] at h
    | inObjKey pk e => simp [handleArrayEnd, currentState, hst] at h
    | inObjValue k e => simp [handleArrayEnd, currentState, hst] at h

theorem handleObjectEnd_PInv {b b' : BState}
    (hP : PInv b) (h : handleObjectEnd b = .ok b') : PInv b' := by
  have hhcb := hP.1
  cases hst : b.stack with
  | nil => simp [handleObjectEnd, currentState, hst] at h
  | cons f rest =>
    cases f with
    | inObjKey pk e =>
        cases rest with
        | nil =>
            simp [handleObjectEnd, currentState, hst, writeBackOnPop, docb, hhcb] at h
            cases h
            exact PInv_step_pop (fun p => postOrderObj e p) hP hst (by simp [hhcb])
              (fun p => by simp [postOrder])
              (fun rev => reported_top_objk rev pk e)
              (Or.inl ⟨rfl, rfl, rfl, rfl⟩)
        | cons g rest' =>
            have htail0 : GoodFrames (g :: rest') := by
              have hwf := hP.2.1
              rw [hst] at hwf
              rcases hwf with h1 | ⟨h2, h3⟩
              · simp at h1
              · simpa using h3
            have hsh' : shapeOk2 (Frame.inObjKey pk e :: g :: rest') = true := by
              have hf := hP.2.2.2.1
              rw [hst] at hf
              exact hf
            cases g with
            | initial =>
                have hg2 : frameOk Frame.initial = true := htail0 _ (by simp)
                simp [frameOk] at hg2
            | inString acc2 =>
                have hg2 : frameOk (Frame.inString acc2) = true := htail0 _ (by simp)
                simp [frameOk] at hg2
            | inObjValue k2 e2 =>
                have hsh2 := shapeOk2_head hsh'
                simp [aboveOk2] at hsh2
            | inArray items2 =>
                simp [handleObjectEnd, currentState, hst, writeBackOnPop, docb, hhcb] at h
                cases h
                exact PInv_step_pop (fun p => postOrderObj e p) hP hst (by simp [hhcb])
                  (fun p => by simp [postOrder])
                  (fun rev => reported_top_objk rev pk e)
                  (Or.inr (Or.inl ⟨items2, rest', rfl, rfl, rfl⟩))
            | inObjKey pk2 e2 =>
                cases pk2 with
                | none =>
                    have hsh2 := shapeOk2_head hsh'
                    simp [aboveOk2] at hsh2
                | some k2 =>
                    have hk2 : (e2.find? (fun q => q.1 = k2)).isNone = true :=
                      aboveOk2_objk_fresh_of_nonstr (shapeOk2_head hsh')
                        (fun acc hh => by cases hh)
                    simp [handleObjectEnd, currentState, hst, writeBackOnPop, docb, hhcb] at h
                    cases h
                    exact PInv_step_pop (fun p => postOrderObj e p) hP hst (by simp [hhcb])
                      (fun p => by simp [postOrder])
                      (fun rev => reported_top_objk rev pk e)
                      (Or.inr (Or.inr ⟨k2, e2, rest', rfl, hk2, rfl, rfl⟩))
    | inObjValue k e =>
        cases rest with
        | nil =>
            simp [handleObjectEnd, currentState, hst, writeBackOnPop, docb, hhcb] at h
            cases h
            exact PInv_step_pop (fun p => postOrderObj e p) hP hst (by simp [hhcb])
              (fun p => by simp [postOrder])
              (fun rev => reported_top_objv rev k e)
              (Or.inl ⟨rfl, rfl, rfl, rfl⟩)
        | cons g rest' =>
            have htail0 : GoodFrames (g :: rest') := by
              have hwf := hP.2.1
              rw [hst] at hwf
              rcases hwf with h1 | ⟨h2, h3⟩
              · simp at h1
              · simpa using h3
            have hsh' : shapeOk2 (Frame.inObjValue k e :: g :: rest') = true := by
              have hf := hP.2.2.2.1
              rw [hst] at hf
              exact hf
            cases g with
            | initial =>
                have hg2 : frameOk Frame.initial = true := htail0 _ (by simp)
                simp [frameOk] at hg2
            | inString acc2 =>
                have hg2 : frameOk (Frame.inString acc2) = true := htail0 _ (by simp)
                simp [frameOk] at hg2
            | inObjValue k2 e2 =>
                have hsh2 := shapeOk2_head hsh'
                simp [aboveOk2] at hsh2
            | inArray items2 =>
                simp [handleObjectEnd, currentState, hst, writeBackOnPop, docb, hhcb] at h
                cases h
                exact PInv_step_pop (fun p => postOrderObj e p) hP hst (by simp [hhcb])
                  (fun p => by simp [postOrder])
                  (fun rev => reported_top_objv rev k e)
                  (Or.inr (Or.inl ⟨items2, rest', rfl, rfl, rfl⟩))
            | inObjKey pk2 e2 =>
                cases pk2 with
                | none =>
                    have hsh2 := shapeOk2_head hsh'
                    simp [aboveOk2] at hsh2
                | some k2 =>
                    have hk2 : (e2.find? (fun q => q.1 = k2)).isNone = true :=
                      aboveOk2_objk_fresh_of_nonstr (shapeOk2_head hsh')
                        (fun acc hh => by cases hh)
                    simp [handleObjectEnd, currentState, hst, writeBackOnPop, docb, hhcb] at h
                    cases h
                    exact PInv_step_pop (fun p => postOrderObj e p) hP hst (by simp [hhcb])
                      (fun p => by simp [postOrder])
                      (fun rev => reported_top_objv rev k e)
                      (Or.inr (Or.inr ⟨k2, e2, rest', rfl, hk2, rfl, rfl⟩))
    | initial => simp [handleObjectEnd, currentState, hst] at h
    | inString acc => simp [handleObjectEnd, currentState, hst] at h
    | inArray items => simp [handleObjectEnd, currentState, hst] at h

theorem handleToken_PInv {b b' : BState} {t : Token}
    (hP : PInv b) (hfresh : freshStepOk b t = true)
    (h : handleToken b t = .ok b') : PInv b' := by
  cases t with
  | tnull => exact handleValueToken_PInv hP (by rwa [handleToken] at h)
  | tbool v => exact handleValueToken_PInv hP (by rwa [handleToken] at h)
  | tnum s => exact handleValueToken_PInv hP (by rwa [handleToken] at h)
  | stringStart => exact handleStringStart_PInv hP (by rwa [handleToken] at h)
  | stringMiddle s => exact handleStringMiddle_PInv hP (by rwa [handleToken] at h)
  | stringEnd => exact handleStringEnd_PInv hP hfresh (by rwa [handleToken] at h)
  | arrayStart => exact handleValueToken_PInv hP (by rwa [handleToken] at h)
  | arrayEnd => exact handleArrayEnd_PInv hP (by rwa [handleToken] at h)
  | objectStart => exact handleValueToken_PInv hP (by rwa [handleToken] at h)
  | objectEnd => exact handleObjectEnd_PInv hP (by rwa [handleToken] at h)

theorem buildSteps_PInv {ts : List Token} {b b' : BState}
    (hP : PInv b) (hfresh : freshAlong b ts = true)
    (h : buildSteps b ts = .ok b') : PInv b' := by
  induction ts generalizing b with
  | nil =>
      simp [buildSteps] at h
      rw [← h]
      exact hP
  | cons t ts ih =>
      rw [buildSteps] at h
      cases hh : handleToken b t with
      | error e =>
          rw [hh] at h
          cases h
      | ok b1 =>
          rw [hh] at h
          rw [freshAlong, hh, Bool.and_eq_true] at hfresh
          exact ih (handleToken_PInv hP hfresh.1 hh) hfresh.2 h

theorem initBState_PInv : PInv (initBState true) := by
  refine ⟨rfl, Or.inl rfl, ?_, rfl, ?_⟩
  · intro f hf
    simp [initBState] at hf
    rw [hf]
    rfl
  · simp only [cbOk, initBState]
    rfl

theorem buildSteps_strmid_split (b : BState) (s1 s2 : JStr) :
    buildSteps b [.stringMiddle (s1 ++ s2)] =
      buildSteps b [.stringMiddle s1, .stringMiddle s2] := by
  cases hst : b.stack with
  | nil =>
      simp [buildSteps, handleToken, handleStringMiddle, currentState, hst]
  | cons f rest =>
    cases f with
    | inString acc =>
        cases rest with
        | nil =>
            by_cases hp : b.progressed = true <;>
              simp [buildSteps, handleToken, handleStringMiddle, currentState, hst,
                    updateStringParent, Frame.isObjKey, hp, List.append_assoc]
        | cons g rest' =>
            cases g with
            | initial =>
                by_cases hp : b.progressed = true <;>
                  simp [buildSteps, handleToken, handleStringMiddle, currentState, hst,
                        updateStringParent, Frame.isObjKey, hp, List.append_assoc]
            | inString acc2 =>
                by_cases hp : b.progressed = true <;>
                  simp [buildSteps, handleToken, handleStringMiddle, currentState, hst,
                        updateStringParent, Frame.isObjKey, hp, List.append_assoc]
            | inArray items =>
                by_cases hp : b.progressed = true <;>
                  simp [buildSteps, handleToken, handleStringMiddle, currentState, hst,
                        updateStringParent, Frame.isObjKey, hp, List.append_assoc]
            | inObjKey pk e =>
                by_cases hp : b.progressed = true <;>
                  simp [buildSteps, handleToken, handleStringMiddle, currentState, hst,
                        updateStringParent, Frame.isObjKey, hp, List.append_assoc]
            | inObjValue k e =>
                by_cases hp : b.progressed = true <;>
                  simp [buildSteps, handleToken, handleStringMiddle, currentState, hst,
                        updateStringParent, Frame.isObjKey, hp, List.append_assoc]
    | initial =>
        simp [buildSteps, handleToken, handleStringMiddle, currentState, hst,
              apply_ite BState.stack, ite_self]
    | inArray items =>
        simp [buildSteps, handleToken, handleStringMiddle, currentState, hst,
              apply_ite BState.stack, ite_self]
    | inObjKey pk e =>
        simp [buildSteps, handleToken, handleStringMiddle, currentState, hst,
              apply_ite BState.stack, ite_self]
    | inObjValue k e =>
        simp [buildSteps, handleToken, handleStringMiddle, currentState, hst,
              apply_ite BState.stack, ite_self]

set_option maxRecDepth 8000 in
/-- **C7 amended.**  Given a `completeCallback`, values are reported in
*completion order*: every value at the moment it completes, including an
earlier duplicate-key binding that is later overridden.  Universally: for
every token sequence that the builder accepts from its initial state to a
completed document (empty stack) in which every `StringEnd` completing an
object key completes a fresh key — exactly the duplicate-key-free
documents — the recorded (value, path) callback sequence is the post-order
traversal of the final parsed tree (children before parents, children in
stream order).  The builder is moreover invariant, as a state
transformer, under re-splitting of string content across `StringMiddle`
tokens — the one aspect of the emitted token stream that varies with how
the document is partitioned into chunks (every other token is emitted
identically whatever the buffering).  The whole pipeline corroborates
this: single-chunk and one-character-chunk runs produce identical
callback sequences both on the duplicate-key document and on a
duplicate-key-free one, where the sequence is exactly the post-order
traversal of the final tree. -/
theorem c7_amended :
    (∀ (ts : List Token) (b' : BState) (v : JsonValue),
        buildSteps (initBState true) ts = .ok b' →
        freshAlong (initBState true) ts = true →
        b'.stack = [] → b'.toplevel = some v →
        cbSeq b' = mapOkSeg (postOrder v [])) ∧
    (∀ (b : BState) (s1 s2 : JStr),
        buildSteps b [.stringMiddle (s1 ++ s2)] =
          buildSteps b [.stringMiddle s1, .stringMiddle s2]) ∧
    (cbsOf (run [jstr "\x7b\"a\":1,\"a\":2\x7d"] true 100) =
       cbsOf (run (perCharChunks "\x7b\"a\":1,\"a\":2\x7d") true 100)) ∧
    (cbsOf (run [jstr "\x7b\"a\":[1,2],\"b\":\"x\"\x7d"] true 100) =
       cbsOf (run (perCharChunks "\x7b\"a\":[1,2],\"b\":\"x\"\x7d") true 120)) ∧
    ((run [jstr "\x7b\"a\":[1,2],\"b\":\"x\"\x7d"] true 100).yields.getLast? =
       some (.obj [(jstr "a", .arr [.num (jstr "1"), .num (jstr "2")]),
                   (jstr "b", .str (jstr "x"))])) ∧
    (cbsOf (run [jstr "\x7b\"a\":[1,2],\"b\":\"x\"\x7d"] true 100) =
       mapOkSeg (postOrder (.obj [(jstr "a", .arr [.num (jstr "1"), .num (jstr "2")]),
                                  (jstr "b", .str (jstr "x"))]) [])) := by
  refine ⟨?_, ?_, ?_, ?_, ?_, ?_⟩
  · intro ts b2 v hok hfresh hstk htop
    have hP := buildSteps_PInv initBState_PInv hfresh hok
    have hcb := hP.2.2.2.2
    simp only [cbOk, hstk, htop] at hcb
    exact hcb
  · exact buildSteps_strmid_split
  · with_unfolding_all rfl
  · with_unfolding_all rfl
  · with_unfolding_all rfl
  · with_unfolding_all rfl

/-- Witness for the amended C7: the token sequence of `{"a":1}` drives the
builder to completion, and the recorded callback sequence — `1` at path
`["a"]`, then the object at the root — is exactly the post-order traversal
of the final tree. -/
theorem c7_amended_witness :
    cbSeq (BState.mk [] (some (.obj [(jstr "a", .num (jstr "1"))])) true true
      [⟨.num (jstr "1"), [.inObjKey (some (jstr "a")) [(jstr "a", .num (jstr "1"))]]⟩,
       ⟨.obj [(jstr "a", .num (jstr "1"))], []⟩]) =
      mapOkSeg (postOrder (.obj [(jstr "a", .num (jstr "1"))]) []) := by
  have hok : buildSteps (initBState true)
      [.objectStart, .stringStart, .stringMiddle (jstr "a"), .stringEnd,
       .tnum (jstr "1"), .objectEnd] =
      .ok (BState.mk [] (some (.obj [(jstr "a", .num (jstr "1"))])) true true
        [⟨.num (jstr "1"), [.inObjKey (some (jstr "a")) [(jstr "a", .num (jstr "1"))]]⟩,
         ⟨.obj [(jstr "a", .num (jstr "1"))], []⟩]) := by
    with_unfolding_all rfl
  exact c7_amended.1 _ _ _ hok (by with_unfolding_all rfl) rfl rfl
